import Mathlib

/-!
# DIAMOND seed-and-extend core

A shallow embedding of the hit aggregation and chunk scheduler of
`src/align/extend.cpp`, of the alignment assembly of `src/align/gapped.cpp`, of the
diagonal chaining graph of `src/dp/dp.h`, of the score vector of
`src/dp/score_vector_int16.h` and of the target multiplexer of
`src/dp/swipe/target_iterator.h`, followed by the properties proved about them.

Conventions of the embedding.

* `size_t`, `uint32_t` and `uint16_t` values are natural numbers; a conversion
  to `uint32_t` is an explicit reduction modulo `2^32`, a conversion of an
  unsigned value to `int` is the two's complement reading of its low 32 bits.
  Arithmetic on `int` whose operands are bounded by a container size is arithmetic
  on the integers. The band computation of `gapped.cpp`, whose operands come from
  the configuration, is reduced to 32 bits after every operation (`wrap_int`; signed
  overflow is undefined in C++, and this is what the two's complement targets
  compute).
* `std::vector` is `List`, `emplace_back` and `push_back` append at the end.
* Iterators into a vector are indices.
* Reads of globals (`config`, `align_mode`, the reference limits table, the
  query memory) are explicit arguments. Logging and timers are left out.
* Functions and constants declared outside the given sources are arguments; where
  the text says how one behaves, it is defined from that text and marked so.
* A loop is a recursive function; where the number of iterations has no syntactic
  bound, a first argument bounds it, and the properties show that the bound given
  is never reached.
-/

namespace Extension

/-! ## Machine integers -/

/-- The constant `UINT32_MAX`. -/
def UINT32_MAX : Nat := 4294967295

/-- Conversion to `uint32_t`. -/
def to_uint32 (n : Nat) : Nat := n % 4294967296

/-- Conversion of an unsigned value to `int`. -/
@[irreducible]
def to_int (n : Nat) : Int := Int.bmod (n : Int) 4294967296

/-- The `size_t` expression `n - 1` followed by a conversion to `uint32_t`
(for `n = 0` the subtraction wraps around to `2^64 - 1`, whose low 32 bits are
`UINT32_MAX`). -/
def size_pred_uint32 (n : Nat) : Nat := if n = 0 then 4294967295 else to_uint32 (n - 1)

/-- The `uint32_t` expression `n - 1` for a `uint32_t` value `n` (for `n = 0` it
wraps around to `UINT32_MAX`). -/
def uint32_pred (n : Nat) : Nat := if n = 0 then 4294967295 else n - 1

/-- The result of an `int` operation whose exact value is `x`: the two's complement
reading of the low 32 bits of `x`. -/
@[irreducible]
def wrap_int (x : Int) : Int := Int.bmod x 4294967296

/-- The integer `x` is a value of the type `int`. -/
def fits_int (x : Int) : Prop := -2147483648 ≤ x ∧ x ≤ 2147483647

instance fits_int.decidable (x : Int) : Decidable (fits_int x) :=
  inferInstanceAs (Decidable (-2147483648 ≤ x ∧ x ≤ 2147483647))

/-! ## Data model -/

/-- The raw seed hit `hit` (declared outside the given sources): the fields read
by `load_hits`. `score_` is a `uint16_t`. -/
structure hit where
  query_ : Nat
  subject_ : Nat
  seed_offset_ : Nat
  score_ : Nat
deriving DecidableEq, Repr

/-- A seed hit in target-local coordinates: seed offset, local subject offset,
query frame. -/
structure SeedHit where
  i : Int
  j : Int
  frame : Nat
deriving DecidableEq, Repr

/-- The struct `TargetScore` of `extend.cpp`. -/
structure TargetScore where
  target : Nat
  score : Nat
deriving DecidableEq, Repr

/-- The comparison `TargetScore::operator<`. -/
def TargetScore.lt (a x : TargetScore) : Bool :=
  decide (a.score > x.score) || (decide (a.score = x.score) && decide (a.target < x.target))

/-- Modelled from the spec: the container `FlatArray` (declared outside the given
sources), "all SeedHits for one target, contiguous; variable-length run per
target". It is the list of its runs, in the order in which they were opened. -/
abbrev FlatArray (α : Type) := List (List α)

/-- Modelled from the spec: `FlatArray::next`, which opens a new, empty run. -/
def FlatArray.next {α : Type} (a : FlatArray α) : FlatArray α := a ++ [[]]

/-- Modelled from the spec: `FlatArray::push_back(x)`, which appends `x` to the
run opened last. With no run open the element belongs to no run. -/
def FlatArray.push_back {α : Type} (a : FlatArray α) (x : α) : FlatArray α :=
  match a.getLast? with
  | none => []
  | some g => a.dropLast ++ [g ++ [x]]

/-- Modelled from the spec: `FlatArray::push_back(begin, end)`, which appends a
whole run. -/
def FlatArray.push_back_range {α : Type} (a : FlatArray α) (g : List α) : FlatArray α := a ++ [g]

/-- Modelled from the spec: the run `[begin(k), end(k))` of a `FlatArray`. -/
def FlatArray.run {α : Type} (a : FlatArray α) (k : Nat) : List α := a.getD k []

/-- The fields of `config` and `align_mode` read by the embedded functions.
`toppercent_is_100` is the outcome of `config.toppercent == 100.0`. -/
structure Config where
  query_contexts : Nat
  ext_chunk_size : Int
  max_alignments : Nat
  toppercent_is_100 : Bool
  adaptive_ranking : Bool
  query_memory : Bool
  padding : Int
  max_hsps : Nat
  disable_traceback : Bool

/-! ## Target resolution -/

/-- The loop of `std::upper_bound` over `limits[first, first + count)`; the first
argument bounds the number of halvings. -/
def upper_bound_loop (limits : List Nat) (x : Nat) : Nat → Nat → Nat → Nat
  | 0, first, _ => first
  | fuel + 1, first, count =>
    if count = 0 then first
    else
      let step := count / 2
      let it := first + step
      if limits.getD it 0 ≤ x then upper_bound_loop limits x fuel (it + 1) (count - (step + 1))
      else upper_bound_loop limits x fuel first step

/-- The binary search `std::upper_bound(limits.begin(), limits.end(), x)`, as an index. -/
def upper_bound (limits : List Nat) (x : Nat) : Nat :=
  upper_bound_loop limits x limits.length 0 limits.length

/-- Modelled from the spec: `local_position` of the reference store (declared
outside the given sources), "the binary search for the unique t with
limits[t] <= x < limits[t+1] returning (t, x - limits[t])". -/
def local_position (limits : List Nat) (x : Nat) : Nat × Nat :=
  let t := upper_bound limits x - 1
  (t, x - limits.getD t 0)

/-- The cursor advance `while (*it <= subject_offset) ++it;` of the linear scan,
run over the part of the table from the cursor on. Reading past the end of the
table is undefined in C++; here the cursor stops there. -/
def advance (x : Nat) : List Nat → Nat → Nat
  | [], it => it
  | l :: rest, it => if l ≤ x then advance x rest (it + 1) else it

/-! ## `load_hits` -/

/-- The output buffers and the local variables `target`, `score` of `load_hits`. -/
structure LoadState where
  hits : FlatArray SeedHit
  target_block_ids : List Nat
  target_scores : List TargetScore
  target : Nat
  score : Nat
deriving DecidableEq, Repr

/-- The buffers after the `clear()` calls, with `target = UINT32_MAX`, `score = 0`. -/
def LoadState.init : LoadState :=
  { hits := [], target_block_ids := [], target_scores := [], target := UINT32_MAX, score := 0 }

/-- The statement `if (t != target) { ... }` shared by both branches. -/
def open_group (st : LoadState) (t : Nat) : LoadState :=
  if t ≠ st.target then
    let st1 : LoadState :=
      if st.target ≠ UINT32_MAX then
        { st with
          target_scores := st.target_scores ++ [⟨size_pred_uint32 st.target_block_ids.length, st.score⟩]
          score := 0 }
      else st
    { st1 with
      hits := FlatArray.next st1.hits
      target := t
      target_block_ids := st1.target_block_ids ++ [t] }
  else st

/-- The two statements closing the loop body: `hits.push_back({...})` and
`score = std::max(score, i->score_)`. -/
def push_hit (cfg : Config) (st : LoadState) (h : hit) (local_offset : Int) : LoadState :=
  { st with
    hits := FlatArray.push_back st.hits ⟨to_int h.seed_offset_, local_offset, h.query_ % cfg.query_contexts⟩
    score := max st.score h.score_ }

/-- The loop of the first branch: one `local_position` lookup per hit. -/
def load_loop_binary (cfg : Config) (limits : List Nat) : List hit → LoadState → LoadState
  | [], st => st
  | h :: hs, st =>
    let l := local_position limits h.subject_
    let t := to_uint32 l.1
    load_loop_binary cfg limits hs (push_hit cfg (open_group st t) h (to_int l.2))

/-- The loop of the second branch: a cursor `it` into the limits table that only
moves forward. -/
def load_loop_linear (cfg : Config) (limits : List Nat) : List hit → Nat → LoadState → LoadState
  | [], _, st => st
  | h :: hs, it, st =>
    let subject_offset := h.subject_
    let it1 := advance subject_offset (limits.drop it) it
    let t := uint32_pred (to_uint32 it1)
    load_loop_linear cfg limits hs it1
      (push_hit cfg (open_group st t) h (to_int (subject_offset - limits.getD (it1 - 1) 0)))

/-- The statement after the loops: the score of the last group. -/
def close_group (st : LoadState) : LoadState :=
  if st.target ≠ UINT32_MAX then
    { st with
      target_scores := st.target_scores ++ [⟨size_pred_uint32 st.target_block_ids.length, st.score⟩] }
  else st

/-- The part of `load_hits` after `std::sort`, on the sorted hit array.
`binary` is the outcome of the floating-point test
`std::log2(total_subjects) * (end - begin) < total_subjects / 10`. -/
def load_sorted (cfg : Config) (limits : List Nat) (binary : Bool) (hs : List hit) : LoadState :=
  match hs with
  | [] => LoadState.init
  | _ :: _ =>
    if binary then close_group (load_loop_binary cfg limits hs LoadState.init)
    else close_group (load_loop_linear cfg limits hs 0 LoadState.init)

/-- The order `hit::CmpSubject` (declared outside the given sources): by subject
coordinate. -/
def CmpSubject (a b : hit) : Prop := a.subject_ ≤ b.subject_

instance CmpSubject.decidable : DecidableRel CmpSubject :=
  fun a b => inferInstanceAs (Decidable (a.subject_ ≤ b.subject_))

/-- The function `load_hits`. `std::sort` is not stable; here it is an insertion
sort, and the properties below are proved for every sorted arrangement of the
hits. -/
def load_hits (cfg : Config) (limits : List Nat) (binary : Bool) (raw : List hit) : LoadState :=
  load_sorted cfg limits binary (raw.insertionSort CmpSubject)

/-- The seed hit stored for a raw hit whose coordinate lies in a target starting
at `limits[t]`. -/
def seed_of (cfg : Config) (limits : List Nat) (h : hit) : SeedHit :=
  ⟨to_int h.seed_offset_, to_int (local_position limits h.subject_).2, h.query_ % cfg.query_contexts⟩

/-- The raw hits of a sorted array whose coordinate resolves to target `t`. -/
def hits_of_target (limits : List Nat) (hs : List hit) (t : Nat) : List hit :=
  hs.filter (fun h => decide ((local_position limits h.subject_).1 = t))

/-- The largest raw score of a list of hits (0 for the empty list). -/
def max_score (hs : List hit) : Nat := hs.foldr (fun h m => max h.score_ m) 0

/-- The sequence of `(target, local offset)` pairs computed by the cursor of the
linear scan, started at cursor position `it`. -/
def linear_positions (limits : List Nat) : List hit → Nat → List (Nat × Nat)
  | [], _ => []
  | h :: hs, it =>
    let it1 := advance h.subject_ (limits.drop it) it
    (it1 - 1, h.subject_ - limits.getD (it1 - 1) 0) :: linear_positions limits hs it1

/-- The contract of the lookup: the limits table is ascending and every hit
coordinate lies in `[limits[0], limits.back())`. -/
def Covered (limits : List Nat) (hs : List hit) : Prop :=
  limits.Sorted (· ≤ ·) ∧ ∀ h ∈ hs, limits.getD 0 0 ≤ h.subject_ ∧ h.subject_ < limits.getLastD 0

/-! ## The chunk scheduler of `extend` -/

/-- The values the query memory returns for the current query
(`Memory` is declared outside the given sources). -/
structure Memory where
  ranking_failed_count : Nat
  ranking_low_score : Int

/-- The calls the chunk loop makes, in order: the extension stage on the working
buffers of a chunk `[i0, i1)`, and `memory->update_failed_count`. -/
inductive Event where
  | extend (i0 i1 : Nat) (multi_chunk : Bool) (target_block_ids_chunk : List Nat)
      (seed_hits_chunk : FlatArray SeedHit)
  | update_failed_count (failed_count : Nat) (ranking_low_score : Nat)
deriving DecidableEq, Repr

/-- The call `std::sort(target_scores.begin(), target_scores.end())`: the list is
arranged so that no element is `operator<` an earlier one. -/
def sort_targets (ts : List TargetScore) : List TargetScore :=
  ts.insertionSort (fun a b => TargetScore.lt b a = false)

/-- The flag `use_chunks`. -/
def use_chunks (cfg : Config) (n_targets : Nat) : Bool :=
  decide (0 < cfg.ext_chunk_size) &&
    ((decide (cfg.max_alignments ≥ n_targets) && cfg.toppercent_is_100) || cfg.adaptive_ranking)

/-- The constant `chunk_size`. -/
def chunk_size (cfg : Config) (n_targets : Nat) : Nat :=
  if use_chunks cfg n_targets then cfg.ext_chunk_size.toNat else n_targets

/-- The loop `while (i1 < target_scores.cend() && i1->score >= relaxed_cutoff) ++i1;`
run over the part of the list from `i1` on. -/
def extend_boundary (relaxed_cutoff : Int) : List TargetScore → Nat → Nat
  | [], i1 => i1
  | t :: rest, i1 =>
    if (t.score : Int) ≥ relaxed_cutoff then extend_boundary relaxed_cutoff rest (i1 + 1) else i1

/-- The score `i->score` of the candidate at index `i`. -/
def score_at (ts : List TargetScore) (i : Nat) : Nat := (ts.getD i ⟨0, 0⟩).score

/-- The loop filling `target_block_ids_chunk` and `seed_hits_chunk` for a
multi-chunk run. -/
def copy_chunk (seed_hits : FlatArray SeedHit) (target_block_ids : List Nat)
    (chunk : List TargetScore) : List Nat × FlatArray SeedHit :=
  chunk.foldl
    (fun acc j => (acc.1 ++ [target_block_ids.getD j.target 0],
      FlatArray.push_back_range acc.2 (FlatArray.run seed_hits j.target)))
    ([], [])

/-- The loop `while (i0 < target_scores.cend()) { ... }` of `extend`, as the list of
calls it makes. `stage i0 i1` is the outcome of the extension stage on the chunk
`[i0, i1)`: the number `n` of targets it returns and the value returned by
`append_hits`. The first argument bounds the number of iterations; `none` means the
bound was reached with the loop still running. -/
def chunk_loop (cfg : Config) (mem : Memory) (stage : Nat → Nat → Nat × Bool)
    (use_chunks : Bool) (chunk_size : Nat)
    (seed_hits : FlatArray SeedHit) (target_block_ids : List Nat)
    (target_scores : List TargetScore) : Nat → Nat → Nat → Option (List Event)
  | 0, i0, _ => if i0 < target_scores.length then none else some []
  | fuel + 1, i0, i1 =>
    if i0 < target_scores.length then
      let current_chunk_size := i1 - i0
      let multi_chunk := decide (current_chunk_size < target_scores.length)
      if cfg.query_memory = true ∧ mem.ranking_failed_count ≥ chunk_size ∧
          mem.ranking_low_score ≥ (score_at target_scores i0 : Int) then some []
      else
        let bufs :=
          if multi_chunk then
            copy_chunk seed_hits target_block_ids ((target_scores.drop i0).take current_chunk_size)
          else (target_block_ids, seed_hits)
        let call := Event.extend i0 i1 multi_chunk bufs.1 bufs.2
        let v := stage i0 i1
        let n := v.1
        let new_hits := if multi_chunk then v.2 else false
        if use_chunks = true ∧ n = 0 then some [call]
        else if use_chunks = true ∧ cfg.adaptive_ranking = true ∧ new_hits = false then
          if cfg.query_memory = true ∧ current_chunk_size ≥ chunk_size then
            some [call, Event.update_failed_count current_chunk_size (score_at target_scores (i1 - 1))]
          else some [call]
        else
          (chunk_loop cfg mem stage use_chunks chunk_size seed_hits target_block_ids target_scores
            fuel i1 (min (i1 + chunk_size) target_scores.length)).map (fun rest => call :: rest)
    else some []

/-- The candidate list the chunk loop runs over: sorted when `use_chunks`. -/
def ranked_targets (cfg : Config) (n_targets : Nat) (target_scores : List TargetScore) :
    List TargetScore :=
  if use_chunks cfg n_targets then sort_targets target_scores else target_scores

/-- The end `i1` of the first chunk: the nominal end, extended by the
relaxed-cutoff loop. -/
def first_chunk_end (cfg : Config) (relaxed_cutoff : Int) (n_targets : Nat)
    (ts : List TargetScore) : Nat :=
  let i1 := min (0 + chunk_size cfg n_targets) ts.length
  extend_boundary relaxed_cutoff (ts.drop i1) i1

/-- The scheduler part of `extend` (from the computation of `use_chunks` to the end
of the chunk loop), on the buffers filled by `load_hits`. `relaxed_cutoff` is the
value of the floating-point expression `score_matrix.rawscore(...)`. -/
def extend_chunks (cfg : Config) (mem : Memory) (relaxed_cutoff : Int)
    (stage : Nat → Nat → Nat × Bool) (seed_hits : FlatArray SeedHit)
    (target_block_ids : List Nat) (target_scores : List TargetScore) : Option (List Event) :=
  let ts := ranked_targets cfg target_block_ids.length target_scores
  chunk_loop cfg mem stage (use_chunks cfg target_block_ids.length)
    (chunk_size cfg target_block_ids.length) seed_hits target_block_ids ts
    ts.length 0 (first_chunk_end cfg relaxed_cutoff target_block_ids.length ts)

/-- The function `extend(params, query_id, begin, end, ...)` up to the end of its
chunk loop: `load_hits` followed by the scheduler. -/
def extend (cfg : Config) (mem : Memory) (relaxed_cutoff : Int)
    (stage : Nat → Nat → Nat × Bool) (limits : List Nat) (binary : Bool) (raw : List hit) :
    Option (List Event) :=
  let st := load_hits cfg limits binary raw
  extend_chunks cfg mem relaxed_cutoff stage st.hits st.target_block_ids st.target_scores

/-- The chunks `[i0, i1)` handed to the extension stage, in call order. -/
def chunks_of : List Event → List (Nat × Nat)
  | [] => []
  | Event.extend i0 i1 _ _ _ :: rest => (i0, i1) :: chunks_of rest
  | Event.update_failed_count _ _ :: rest => chunks_of rest

/-- Consecutive index ranges starting at `start`: each range begins where the
one before it ended, and none is empty. -/
def Consecutive : Nat → List (Nat × Nat) → Prop
  | _, [] => True
  | start, (i0, i1) :: rest => i0 = start ∧ i0 < i1 ∧ Consecutive i1 rest

/-! ## Band construction (`gapped.cpp`) -/

/-- A sequence of letters. -/
abbrev sequence := List Nat

/-- An interval `[begin_, end_)`. -/
structure interval where
  begin_ : Int
  end_ : Int
deriving DecidableEq, Repr

/-- The fields of `Hsp_traits` read by `add_dp_targets`. -/
structure Hsp_traits where
  d_min : Int
  d_max : Int
  query_range : interval
  subject_range : interval
deriving DecidableEq, Repr

/-- The fields of `WorkTarget`; `hsp` is indexed by frame. -/
structure WorkTarget where
  block_id : Nat
  seq : sequence
  hsp : Nat → List Hsp_traits
  outranked : Bool

/-- The struct `DpTarget` of `dp.h`. -/
structure DpTarget where
  seq : sequence
  d_begin : Int
  d_end : Int
  target_idx : Int
deriving DecidableEq, Repr

/-- The band of `add_dp_targets`; `DEFAULT_BAND` is a constant declared outside the
given sources. -/
def band (cfg : Config) (DEFAULT_BAND : Int) : Int :=
  if cfg.padding > 0 then cfg.padding else DEFAULT_BAND

/-- The `DpTarget` constructed at line 53 of `gapped.cpp` for one trait:
`DpTarget(target.seq, std::max(hsp.d_min - band, -(slen - 1)),
std::min(hsp.d_max + 1 + band, qlen), target_idx)`, every `int` operation reduced to
32 bits. -/
def dp_target_of (band slen qlen : Int) (seq : sequence) (target_idx : Int) (hsp : Hsp_traits) :
    DpTarget :=
  ⟨seq, max (wrap_int (hsp.d_min - band)) (wrap_int (-(wrap_int (slen - 1)))),
    min (wrap_int (wrap_int (hsp.d_max + 1) + band)) qlen, target_idx⟩

/-- The inner loop of `add_dp_targets(const WorkTarget&, ...)` for one frame: one
`emplace_back` per trait. -/
def add_frame_targets (band slen qlen : Int) (seq : sequence) (target_idx : Int) :
    List Hsp_traits → List DpTarget → List DpTarget
  | [], acc => acc
  | hsp :: rest, acc =>
    add_frame_targets band slen qlen seq target_idx rest
      (acc ++ [dp_target_of band slen qlen seq target_idx hsp])

/-- The function `add_dp_targets(const WorkTarget&, ...)`: `dp_targets` and
`query_seq` are indexed by frame. -/
def add_dp_targets (cfg : Config) (DEFAULT_BAND : Int) (target : WorkTarget) (target_idx : Int)
    (query_seq : Nat → sequence) (dp_targets : Nat → List DpTarget) : Nat → List DpTarget :=
  let band := band cfg DEFAULT_BAND
  let slen := to_int target.seq.length
  (List.range cfg.query_contexts).foldl
    (fun dp frame =>
      let qlen := to_int (query_seq frame).length
      Function.update dp frame
        (add_frame_targets band slen qlen target.seq target_idx (target.hsp frame) (dp frame)))
    dp_targets

/-- The `DpTarget` the band rule prescribes for one trait, over the integers:
`[max(d_min - band, -(slen - 1)), min(d_max + 1 + band, qlen))`. -/
def band_target (band slen qlen : Int) (seq : sequence) (target_idx : Int) (h : Hsp_traits) :
    DpTarget :=
  ⟨seq, max (h.d_min - band) (-(slen - 1)), min (h.d_max + 1 + band) qlen, target_idx⟩

/-- No `int` operation of the band computation for the trait `h` overflows: the
five intermediate values `d_min - band`, `slen - 1`, `-(slen - 1)`, `d_max + 1` and
`d_max + 1 + band` are values of the type `int`. -/
def BandFits (band slen : Int) (h : Hsp_traits) : Prop :=
  fits_int (h.d_min - band) ∧ fits_int (slen - 1) ∧ fits_int (-(slen - 1)) ∧
    fits_int (h.d_max + 1) ∧ fits_int (h.d_max + 1 + band)

instance BandFits.decidable (band slen : Int) (h : Hsp_traits) : Decidable (BandFits band slen h) :=
  inferInstanceAs (Decidable (fits_int (h.d_min - band) ∧ fits_int (slen - 1) ∧
    fits_int (-(slen - 1)) ∧ fits_int (h.d_max + 1) ∧ fits_int (h.d_max + 1 + band)))

/-- The index `r` cuts the table at `x`: entries before `r` are at most `x`,
entries from `r` on are larger. -/
def CutAt (limits : List Nat) (x r : Nat) : Prop :=
  r ≤ limits.length ∧ (∀ i, i < r → limits.getD i 0 ≤ x) ∧
    (∀ i, r ≤ i → i < limits.length → x < limits.getD i 0)

instance CmpSubject.isTotal : IsTotal hit CmpSubject :=
  ⟨fun a b => Nat.le_total a.subject_ b.subject_⟩

instance CmpSubject.isTrans : IsTrans hit CmpSubject :=
  ⟨fun _ _ _ hab hbc => Nat.le_trans hab hbc⟩

/-! ## Alignment assembly (`gapped.cpp`) -/

/-- The fields of `Hsp` (declared outside the given sources) read by the embedded
functions. -/
structure Hsp where
  score : Int
  query_range : interval
  subject_range : interval
  swipe_target : Nat
deriving DecidableEq, Repr

/-- The fields of `Target`; `hsp` is indexed by frame. -/
structure Target where
  block_id : Nat
  seq : sequence
  outranked : Bool
  hsp : Nat → List Hsp

/-- The fields of `Match`. -/
structure Match where
  target_block_id : Nat
  outranked : Bool
  hsp : List Hsp
  filter_score : Int
deriving DecidableEq, Repr

/-- The functions `gapped.cpp` calls that are declared outside the given sources:
`Hsp::operator<` (used by `std::list::sort`), `Match::max_hsp_culling`,
`Match::add_hit`, `Match::inner_culling` and `DP::BandedSwipe::swipe` (by frame,
target batch and flags). -/
structure Collaborators where
  hsp_lt : Hsp → Hsp → Bool
  /-- Modelled from the spec: "apply max-HSP culling (drop lowest-scoring,
  envelope-overlapping entries beyond the cap)", a function of the HSP list. -/
  max_hsp_culling : List Hsp → List Hsp
  add_hit : Match → Hsp → Match
  inner_culling : Int → Match → Match
  swipe : Nat → List DpTarget → Int → List Hsp

/-- The call `hsp.sort()`: `std::list::sort` is a stable sort by `operator<`. -/
def sort_hsps (ext : Collaborators) (l : List Hsp) : List Hsp :=
  l.insertionSort (fun a b => ext.hsp_lt b a = false)

/-- The loop `for (i < query_contexts) hsp.splice(hsp.end(), hsps[i])` of the
`Match` constructor, over the frames still to visit: the list built so far and the
per-frame lists, which a splice leaves empty. -/
def splice_frames : List Nat → List Hsp × (Nat → List Hsp) → List Hsp × (Nat → List Hsp)
  | [], acc => acc
  | i :: rest, acc => splice_frames rest (acc.1 ++ acc.2 i, Function.update acc.2 i [])

/-- The concatenation of the per-frame lists `hsps[0], ..., hsps[n-1]`. -/
def concat_frames (hsps : Nat → List Hsp) : List Nat → List Hsp
  | [] => []
  | i :: rest => hsps i ++ concat_frames hsps rest

/-- The constructor `Match::Match(target_block_id, outranked, hsps)`, with the
per-frame lists after the call. `filter_score` is the value the member has when the
constructor body starts. -/
def Match.ctor (cfg : Config) (ext : Collaborators) (filter_score : Int) (target_block_id : Nat)
    (outranked : Bool) (hsps : Nat → List Hsp) : Match × (Nat → List Hsp) :=
  let spliced := splice_frames (List.range cfg.query_contexts) ([], hsps)
  let hsp := sort_hsps ext spliced.1
  let filter_score := match hsp with
    | [] => filter_score
    | front :: _ => front.score
  let hsp := if cfg.max_hsps > 0 then ext.max_hsp_culling hsp else hsp
  (⟨target_block_id, outranked, hsp, filter_score⟩, spliced.2)

/-- The inner loop of `add_dp_targets(const Target&, ...)` for one frame. -/
def add_frame_hsps (seq : sequence) (target_idx : Int) :
    List Hsp → List DpTarget → List DpTarget
  | [], acc => acc
  | hsp :: rest, acc =>
    add_frame_hsps seq target_idx rest
      (acc ++ [⟨seq, hsp.query_range.begin_, hsp.query_range.end_, target_idx⟩])

/-- The function `add_dp_targets(const Target&, ...)`. Its locals `band`, `slen` and
`qlen` are computed and not used. -/
def add_dp_targets_traceback (cfg : Config) (target : Target) (target_idx : Int)
    (dp_targets : Nat → List DpTarget) : Nat → List DpTarget :=
  (List.range cfg.query_contexts).foldl
    (fun dp frame =>
      Function.update dp frame (add_frame_hsps target.seq target_idx (target.hsp frame) (dp frame)))
    dp_targets

/-- The loop `while (!hsp.empty()) r[hsp.front().swipe_target].add_hit(hsp, hsp.begin())`. -/
def add_hits (ext : Collaborators) : List Hsp → List Match → List Match
  | [], r => r
  | h :: rest, r =>
    add_hits ext rest
      (match r[h.swipe_target]? with
        | some m => r.set h.swipe_target (ext.add_hit m h)
        | none => r)

/-- The first loop of `align(vector<Target>&, ...)`: the DP targets and the empty
matches, one per target. `filter_score` is the initial value of that member. -/
def collect_targets (cfg : Config) (filter_score : Int) :
    List Target → Nat → (Nat → List DpTarget) × List Match → (Nat → List DpTarget) × List Match
  | [], _, acc => acc
  | t :: rest, i, acc =>
    collect_targets cfg filter_score rest (i + 1)
      (add_dp_targets_traceback cfg t (to_int i) acc.1,
        acc.2 ++ [⟨t.block_id, t.outranked, [], filter_score⟩])

/-- The loop over frames of `align(vector<Target>&, ...)`: the matches, and the
list of `swipe` calls made (frame and batch). -/
def sweep_frames (ext : Collaborators) (flags : Int) (dp_targets : Nat → List DpTarget) :
    List Nat → List Match × List (Nat × List DpTarget) → List Match × List (Nat × List DpTarget)
  | [], acc => acc
  | frame :: rest, acc =>
    if dp_targets frame = [] then sweep_frames ext flags dp_targets rest acc
    else
      sweep_frames ext flags dp_targets rest
        (add_hits ext (ext.swipe frame (dp_targets frame) flags) acc.1,
          acc.2 ++ [(frame, dp_targets frame)])

/-- The function `align(vector<Target>&, ...)` returning `vector<Match>`: the
matches, and the list of `swipe` calls made. `traceback_flags` is the value of
`DP::TRACEBACK | flags`. -/
def align_targets (cfg : Config) (ext : Collaborators) (filter_score : Int)
    (source_query_len : Int) (traceback_flags : Int) (targets : List Target) :
    List Match × List (Nat × List DpTarget) :=
  match targets with
  | [] => ([], [])
  | _ :: _ =>
    if cfg.disable_traceback then
      (targets.map (fun t => (Match.ctor cfg ext filter_score t.block_id t.outranked t.hsp).1), [])
    else
      let collected := collect_targets cfg filter_score targets 0 (fun _ => [], [])
      let swept := sweep_frames ext traceback_flags collected.1 (List.range cfg.query_contexts)
        (collected.2, [])
      (swept.1.map (ext.inner_culling source_query_len), swept.2)

/-! ## The diagonal chaining graph (`dp.h`) -/

/-- The struct `Diagonal_node`: the fields `i`, `j`, `len`, `score` of its base
`Diagonal_segment` and its own. -/
structure Diagonal_node where
  i : Int
  j : Int
  len : Int
  score : Int
  link_idx : Int
  prefix_score : Int
  path_max : Int
  path_min : Int
deriving DecidableEq, Repr

/-- The struct `Diag_graph::Edge`. -/
structure Edge where
  prefix_score : Int
  path_max : Int
  j : Int
  path_min : Int
  prefix_score_begin : Int
  node_in : Nat
  node_out : Nat
deriving DecidableEq, Repr

/-- The struct `Diag_graph`. -/
structure Diag_graph where
  nodes : List Diagonal_node
  edges : List Edge
deriving DecidableEq, Repr

/-- The function `Diag_graph::init(unsigned node)`: the graph after the call, and
whether the call returned or threw (the error value is the exception message). -/
def Diag_graph.init_node (g : Diag_graph) (node : Nat) : Diag_graph × Except String Unit :=
  if g.edges.length ≥ 2147483647 then (g, Except.error "Too many edges.")
  else
    match g.nodes[node]? with
    | some d =>
      ({ g with nodes := g.nodes.set node { d with link_idx := to_int g.edges.length } },
        Except.ok ())
    | none => (g, Except.ok ())

/-- The loop of `add_edge` over the nodes after `edge.node_in`:
`if (j->link_idx == -1) break; else ++j->link_idx;`. -/
def shift_links : List Diagonal_node → List Diagonal_node
  | [] => []
  | d :: rest =>
    if d.link_idx = -1 then d :: rest
    else { d with link_idx := d.link_idx + 1 } :: shift_links rest

/-- The function `Diag_graph::add_edge`: the graph after the call and the position
of the inserted edge. (The `assert` is not compiled into release builds.) -/
def Diag_graph.add_edge (g : Diag_graph) (edge : Edge) : Diag_graph × Nat :=
  let nodes1 := g.nodes.take (edge.node_in + 1) ++ shift_links (g.nodes.drop (edge.node_in + 1))
  match nodes1[edge.node_in]? with
  | none => (⟨nodes1, g.edges⟩, 0)
  | some d =>
    let d1 : Diagonal_node :=
      if edge.prefix_score > d.prefix_score then
        { d with prefix_score := edge.prefix_score, path_max := edge.path_max, path_min := edge.path_min }
      else d
    let at_idx := d1.link_idx.toNat
    (⟨nodes1.set edge.node_in { d1 with link_idx := d1.link_idx + 1 },
      g.edges.take at_idx ++ edge :: g.edges.drop at_idx⟩, at_idx)

/-! ## The score vector (`score_vector_int16.h`) -/

/-- The value of a 16-bit lane read as `int16_t`. -/
def int16_of (u : Nat) : Int :=
  if u % 65536 < 32768 then ((u % 65536 : Nat) : Int) else ((u % 65536 : Nat) : Int) - 65536

/-- The 16-bit pattern of an integer (its low 16 bits). -/
def uint16_of (s : Int) : Nat := (s % 65536).toNat

/-- Signed saturation to the range of `int16_t`. -/
def saturate16 (s : Int) : Int := if s < -32768 then -32768 else if s > 32767 then 32767 else s

/-- The type `__m128i` as eight 16-bit lanes: lane `k` is bits `16k .. 16k+15`. -/
abbrev m128i := Nat → Nat

/-- The intrinsic `_mm_adds_epi16`: lane-wise signed saturating addition. -/
def _mm_adds_epi16 (a b : m128i) : m128i :=
  fun k => uint16_of (saturate16 (int16_of (a k) + int16_of (b k)))

/-- The intrinsic `_mm_subs_epi16`: lane-wise signed saturating subtraction. -/
def _mm_subs_epi16 (a b : m128i) : m128i :=
  fun k => uint16_of (saturate16 (int16_of (a k) - int16_of (b k)))

/-- The intrinsic `_mm_set1_epi16`: every lane holds the low 16 bits of `x`. -/
def _mm_set1_epi16 (x : Int) : m128i := fun _ => uint16_of x

/-- The intrinsic `_mm_set_epi64x(c, b)`: `b` is the low and `c` the high 64-bit half. -/
def _mm_set_epi64x (c b : Nat) : m128i :=
  fun k => if k < 4 then (b >>> (16 * k)) % 65536 else (c >>> (16 * (k - 4))) % 65536

/-- The struct `score_vector<int16_t>`. -/
structure score_vector where
  data_ : m128i

/-- The operator `score_vector::operator+`. -/
def score_vector.add (a rhs : score_vector) : score_vector := ⟨_mm_adds_epi16 a.data_ rhs.data_⟩

/-- The operator `score_vector::operator-`. -/
def score_vector.sub (a rhs : score_vector) : score_vector := ⟨_mm_subs_epi16 a.data_ rhs.data_⟩

/-- The operator `score_vector::operator-=`. -/
def score_vector.sub_assign (a rhs : score_vector) : score_vector :=
  { a with data_ := _mm_subs_epi16 a.data_ rhs.data_ }

/-- The operator `score_vector::operator++`. -/
def score_vector.incr (a : score_vector) : score_vector :=
  { a with data_ := _mm_adds_epi16 a.data_ (_mm_set1_epi16 1) }

/-- The operator `score_vector::operator[]`: lane `i` read as `int16_t`. -/
def score_vector.get (a : score_vector) (i : Nat) : Int := int16_of (a.data_ i)

/-- The constructor `score_vector(unsigned a, uint64_t seq)`. `matrix16` is the
table `score_matrix.matrix16()`; an entry read through `uint16_t*` is its low 16
bits. -/
def score_vector.of_seq (matrix16 : Nat → Nat) (a seq : Nat) : score_vector :=
  let row : Nat → Nat := fun idx => matrix16 (to_uint32 (a <<< 5) + idx) % 65536
  let b := row (seq &&& 0xff)
  let seq := seq >>> 8
  let b := b ||| (row (seq &&& 0xff) <<< 16)
  let seq := seq >>> 8
  let b := b ||| (row (seq &&& 0xff) <<< (16 * 2))
  let seq := seq >>> 8
  let b := b ||| (row (seq &&& 0xff) <<< (16 * 3))
  let seq := seq >>> 8
  let c := row (seq &&& 0xff)
  let seq := seq >>> 8
  let c := c ||| (row (seq &&& 0xff) <<< 16)
  let seq := seq >>> 8
  let c := c ||| (row (seq &&& 0xff) <<< (16 * 2))
  let seq := seq >>> 8
  let c := c ||| (row (seq &&& 0xff) <<< (16 * 3))
  ⟨_mm_set_epi64x c b⟩

/-! ## The target multiplexer (`target_iterator.h`) -/

/-- The struct `TargetIterator<_n>`: `pos` and `target` are indexed by channel,
`active` is the `Static_vector` of active channels. -/
structure TargetIterator where
  pos : Nat → Int
  target : Nat → Int
  next : Int
  n_targets : Int
  cols : Int
  active : List Nat
  subject_begin : List DpTarget

/-- The expression `(int)(t.seq.length() - 1)` (for an empty sequence the
`size_t` subtraction wraps around, and the conversion gives `-1`). -/
def last_index (seq : sequence) : Int := if seq.length = 0 then -1 else to_int (seq.length - 1)

/-- The loop of the constructor of `TargetIterator<_n>`; the first argument bounds
the number of iterations. -/
def TargetIterator.ctor_loop (_n : Nat) (i1 qlen : Int) (d_begin : Nat → Int) :
    Nat → TargetIterator → TargetIterator
  | 0, it => it
  | fuel + 1, it =>
    if it.next < min (_n : Int) it.n_targets then
      match it.subject_begin[it.next.toNat]? with
      | none => it
      | some t =>
        let next := it.next.toNat
        let pos := Function.update it.pos next (i1 - (t.d_end - 1))
        let d0 := d_begin next
        let j1 := min (qlen - 1 - d0) (last_index t.seq) + 1
        TargetIterator.ctor_loop _n i1 qlen d_begin fuel
          { it with
            pos := pos
            cols := max it.cols (j1 - pos next)
            target := Function.update it.target next it.next
            active := it.active ++ [next]
            next := it.next + 1 }
    else it

/-- The constructor of `TargetIterator<_n>`. The arrays `pos` and `target` start
with unspecified contents, given by `pos0` and `target0`. -/
def TargetIterator.ctor (_n : Nat) (pos0 target0 : Nat → Int) (subject : List DpTarget)
    (i1 qlen : Int) (d_begin : Nat → Int) : TargetIterator :=
  TargetIterator.ctor_loop _n i1 qlen d_begin _n
    { pos := pos0, target := target0, next := 0, n_targets := to_int subject.length, cols := 0,
      active := [], subject_begin := subject }

/-- The operator `TargetIterator::operator[]`; `SUPER_HARD_MASK` is a constant
declared outside the given sources. -/
def TargetIterator.letter (SUPER_HARD_MASK : Nat) (it : TargetIterator) (channel : Nat) : Nat :=
  if it.pos channel ≥ 0 then
    match it.subject_begin[(it.target channel).toNat]? with
    | some t => t.seq.getD (it.pos channel).toNat 0
    | none => 0
  else SUPER_HARD_MASK

/-- The function `TargetIterator::get` of the SSSE3 build: the array `s` that is
loaded into the vector, lane `c` being `s[c]`. An entry is the letter as a number;
the conversion of the `char` to the lane type `_t` keeps the value of a letter below
128. -/
def TargetIterator.get (_n : Nat) (SUPER_HARD_MASK : Nat) (it : TargetIterator) : List Nat :=
  it.active.foldl
    (fun s channel => s.set channel (TargetIterator.letter SUPER_HARD_MASK it channel))
    (List.replicate _n SUPER_HARD_MASK)

/-- The function `TargetIterator::init_target`: the state after the call and the
value returned. `Static_vector::erase(i)` removes the entry at index `i`. -/
def TargetIterator.init_target (it : TargetIterator) (i channel : Nat) : TargetIterator × Bool :=
  if it.next < it.n_targets then
    ({ it with
        pos := Function.update it.pos channel 0
        target := Function.update it.target channel it.next
        next := it.next + 1 }, true)
  else ({ it with active := it.active.eraseIdx i }, false)

/-- A sequence of `init_target(i, channel)` calls: the final state and, for every
call that returned true, the channel and the target index found in it afterwards. -/
def run_init_targets : List (Nat × Nat) → TargetIterator → TargetIterator × List (Nat × Int)
  | [], it => (it, [])
  | (i, channel) :: rest, it =>
    let r := TargetIterator.init_target it i channel
    let rr := run_init_targets rest r.1
    (rr.1, if r.2 then (channel, r.1.target channel) :: rr.2 else rr.2)

/-- A configuration with one query context and every option off or zero; the
examples change single fields of it. -/
def Config.base : Config :=
  { query_contexts := 1, ext_chunk_size := 0, max_alignments := 0, toppercent_is_100 := false,
    adaptive_ranking := false, query_memory := false, padding := 0, max_hsps := 0,
    disable_traceback := false }

/-- The invariant of the loop of `load_hits` after the hits `P` of the sorted array
have been processed: either nothing was processed, or the open group is the last
target id, every group holds the hits of its target, every closed group has its
score, `score` is the running maximum of the open group, and the target ids are
strictly increasing. -/
def LoadInv (cfg : Config) (limits : List Nat) (P : List hit) (st : LoadState) : Prop :=
  (P = [] ∧ st = LoadState.init) ∨
  (∃ ids : List Nat,
    st.target_block_ids = ids ++ [st.target] ∧
    st.hits = (ids ++ [st.target]).map
      (fun t => (hits_of_target limits P t).map (seed_of cfg limits)) ∧
    st.target_scores.map (fun x => x.target) = List.range ids.length ∧
    st.target_scores.map (fun x => x.score) =
      ids.map (fun t => max_score (hits_of_target limits P t)) ∧
    st.score = max_score (hits_of_target limits P st.target) ∧
    (ids ++ [st.target]).Sorted (· < ·) ∧
    (∀ h ∈ P, (local_position limits h.subject_).1 ≤ st.target) ∧
    st.target < UINT32_MAX ∧
    (∀ t ∈ ids ++ [st.target], hits_of_target limits P t ≠ []) ∧
    (∀ h ∈ P, (local_position limits h.subject_).1 ∈ ids ++ [st.target]))

/-- What `load_hits` promises about its buffers for the sorted hit array `s`: one
group, one target id and one TargetScore per target hit, the ids strictly increasing;
group `k` holds the seed hits of the raw hits of target `target_block_ids[k]`, and
TargetScore `k` has index `k` and the largest raw score of those hits. -/
def LoadResult (cfg : Config) (limits : List Nat) (s : List hit) (st : LoadState) : Prop :=
  st.target_block_ids.Sorted (· < ·) ∧
  st.hits = st.target_block_ids.map
    (fun t => (hits_of_target limits s t).map (seed_of cfg limits)) ∧
  st.target_scores.map (fun x => x.target) = List.range st.target_block_ids.length ∧
  st.target_scores.map (fun x => x.score) =
    st.target_block_ids.map (fun t => max_score (hits_of_target limits s t)) ∧
  (∀ t ∈ st.target_block_ids, hits_of_target limits s t ≠ []) ∧
  (∀ h ∈ s, (local_position limits h.subject_).1 ∈ st.target_block_ids)

/-- The lists `target_scores`, `target_block_ids` and the groups of `hits` have the
same length, and TargetScore `k` names group `k`. -/
def TargetsMatchGroups (st : LoadState) : Prop :=
  st.target_scores.length = st.target_block_ids.length ∧
  st.hits.length = st.target_block_ids.length ∧
  st.target_scores.map (fun x => x.target) = List.range st.target_scores.length ∧
  ∀ k, k < st.target_scores.length → (st.target_scores.getD k ⟨0, 0⟩).target = k

/-- There is one TargetScore and one target id per group of `hits`, and at least one
group when there is a hit; and for every group `k`, the first and the last included:
group `k` of `hits` holds the seed hits of exactly the raw hits of `s` that resolve to
target `target_block_ids[k]`, there is at least one, and the score of TargetScore `k`
is the largest raw score among them. -/
def ScoresAreGroupMaxima (cfg : Config) (limits : List Nat) (s : List hit) (st : LoadState) :
    Prop :=
  st.target_scores.length = st.hits.length ∧
  st.target_block_ids.length = st.hits.length ∧
  (s ≠ [] → st.hits ≠ []) ∧
  ∀ k, k < st.hits.length →
    hits_of_target limits s (st.target_block_ids.getD k 0) ≠ [] ∧
    FlatArray.run st.hits k =
      (hits_of_target limits s (st.target_block_ids.getD k 0)).map (seed_of cfg limits) ∧
    score_at st.target_scores k =
      max_score (hits_of_target limits s (st.target_block_ids.getD k 0)) ∧
    (∀ h ∈ hits_of_target limits s (st.target_block_ids.getD k 0),
      h.score_ ≤ score_at st.target_scores k) ∧
    (∃ h ∈ hits_of_target limits s (st.target_block_ids.getD k 0),
      h.score_ = score_at st.target_scores k)

/-- The condition of the `break` before a chunk starting at `i0` is processed. -/
def short_circuit (cfg : Config) (mem : Memory) (chunk_size : Nat) (ts : List TargetScore)
    (i0 : Nat) : Prop :=
  cfg.query_memory = true ∧ mem.ranking_failed_count ≥ chunk_size ∧
    mem.ranking_low_score ≥ (score_at ts i0 : Int)

instance short_circuit.decidable (cfg : Config) (mem : Memory) (chunk_size : Nat)
    (ts : List TargetScore) (i0 : Nat) : Decidable (short_circuit cfg mem chunk_size ts i0) :=
  inferInstanceAs (Decidable (cfg.query_memory = true ∧ mem.ranking_failed_count ≥ chunk_size ∧
    mem.ranking_low_score ≥ (score_at ts i0 : Int)))

/-- The value of `new_hits` after the chunk `[i0, i1)` of a list of `n` candidates. -/
def new_hits (stage : Nat → Nat → Nat × Bool) (n i0 i1 : Nat) : Bool :=
  if decide (i1 - i0 < n) then (stage i0 i1).2 else false

/-- The condition of the two `break`s after the chunk `[i0, i1)` was processed. -/
def stops_after (cfg : Config) (stage : Nat → Nat → Nat × Bool) (use_chunks : Bool)
    (n i0 i1 : Nat) : Prop :=
  use_chunks = true ∧
    ((stage i0 i1).1 = 0 ∨ (cfg.adaptive_ranking = true ∧ new_hits stage n i0 i1 = false))

/-- Chunks as the loop forms them: the first is `[i0, i1)`, every chunk is non-empty
and ends at or before `n`, and the chunk after `[a, b)` is `[b, min(b + chunk_size, n))`. -/
def NominalChunks (chunk_size n : Nat) : Nat → Nat → List (Nat × Nat) → Prop
  | _, _, [] => True
  | i0, i1, c :: rest =>
    c = (i0, i1) ∧ i0 < i1 ∧ i1 ≤ n ∧ NominalChunks chunk_size n i1 (min (i1 + chunk_size) n) rest

/-- The end of the last chunk of a list of chunks (`start` when there is none). -/
def last_end (start : Nat) : List (Nat × Nat) → Nat
  | [] => start
  | c :: rest => last_end c.2 rest

/-- The candidates of the chunks, in the order in which they are handed over. -/
def handed_over (ts : List TargetScore) : List (Nat × Nat) → List TargetScore
  | [] => []
  | c :: rest => (ts.drop c.1).take (c.2 - c.1) ++ handed_over ts rest

/-- The target ids handed to the extension stage (the contents of
`target_block_ids_chunk` at the calls), one call after the other. -/
def handed_ids : List Event → List Nat
  | [] => []
  | Event.extend _ _ _ ids_chunk _ :: rest => ids_chunk ++ handed_ids rest
  | Event.update_failed_count _ _ :: rest => handed_ids rest

/-- The target groups handed to the extension stage (the contents of
`seed_hits_chunk` at the calls), one call after the other. -/
def handed_groups : List Event → FlatArray SeedHit
  | [] => []
  | Event.extend _ _ _ _ hits_chunk :: rest => hits_chunk ++ handed_groups rest
  | Event.update_failed_count _ _ :: rest => handed_groups rest

/-- The extension calls of a trace, without the `update_failed_count` calls. -/
def calls_of : List Event → List Event
  | [] => []
  | Event.extend i0 i1 m ids_chunk hits_chunk :: rest =>
    Event.extend i0 i1 m ids_chunk hits_chunk :: calls_of rest
  | Event.update_failed_count _ _ :: rest => calls_of rest

/-- The extension call for the chunk `[i0, i1)`: its working buffers are a copy
restricted to the chunk for a multi-chunk run and the whole buffers otherwise. -/
def extend_call (seed_hits : FlatArray SeedHit) (target_block_ids : List Nat)
    (ts : List TargetScore) (i0 i1 : Nat) : Event :=
  Event.extend i0 i1 (decide (i1 - i0 < ts.length))
    (if decide (i1 - i0 < ts.length) then
      copy_chunk seed_hits target_block_ids ((ts.drop i0).take (i1 - i0))
     else (target_block_ids, seed_hits)).1
    (if decide (i1 - i0 < ts.length) then
      copy_chunk seed_hits target_block_ids ((ts.drop i0).take (i1 - i0))
     else (target_block_ids, seed_hits)).2

/-- The base configuration with chunk size 1 and adaptive ranking enabled. -/
def Config.adaptive : Config := { Config.base with ext_chunk_size := 1, adaptive_ranking := true }

/-- The configuration `Config.adaptive` with query memory enabled. -/
def Config.adaptive_memory : Config := { Config.adaptive with query_memory := true }


/-! ## Degenerate input -/

/-- The call `clear()` on a vector or a `FlatArray`. -/
def vector_clear {α : Type} (_ : List α) : List α := []

/-- The function `load_hits` on the reused buffers it is handed: the three
`clear()` calls, the test `begin >= end`, and the rest of the body. -/
def load_hits_buffers (cfg : Config) (limits : List Nat) (binary : Bool) (raw : List hit)
    (hits : FlatArray SeedHit) (target_block_ids : List Nat) (target_scores : List TargetScore) :
    LoadState :=
  let hits := vector_clear hits
  let target_block_ids := vector_clear target_block_ids
  let target_scores := vector_clear target_scores
  let st0 : LoadState := ⟨hits, target_block_ids, target_scores, UINT32_MAX, 0⟩
  match raw with
  | [] => st0
  | _ :: _ =>
    let sorted := raw.insertionSort CmpSubject
    if binary then close_group (load_loop_binary cfg limits sorted st0)
    else close_group (load_loop_linear cfg limits sorted 0 st0)

/-- The first loop of `align(const vector<WorkTarget>&, ...)`: the DP targets and the
targets `Target(block_id, seq, outranked)`, one per work target. -/
def collect_work_targets (cfg : Config) (DEFAULT_BAND : Int) (query_seq : Nat → sequence) :
    List WorkTarget → Nat → (Nat → List DpTarget) × List Target →
      (Nat → List DpTarget) × List Target
  | [], _, acc => acc
  | t :: rest, i, acc =>
    collect_work_targets cfg DEFAULT_BAND query_seq rest (i + 1)
      (add_dp_targets cfg DEFAULT_BAND t (to_int i) query_seq acc.1,
        acc.2 ++ [⟨t.block_id, t.seq, t.outranked, fun _ => []⟩])

/-- The loop `while (!hsp.empty()) r[hsp.front().swipe_target].add_hit(hsp, hsp.begin())`
on targets; `Target::add_hit` is declared outside the given sources. -/
def add_target_hits (target_add_hit : Target → Hsp → Target) : List Hsp → List Target → List Target
  | [], r => r
  | h :: rest, r =>
    add_target_hits target_add_hit rest
      (match r[h.swipe_target]? with
        | some t => r.set h.swipe_target (target_add_hit t h)
        | none => r)

/-- The loop over frames of `align(const vector<WorkTarget>&, ...)`: the targets, and
the list of `swipe` calls made (frame and batch). -/
def sweep_work_frames (ext : Collaborators) (target_add_hit : Target → Hsp → Target) (flags : Int)
    (dp_targets : Nat → List DpTarget) :
    List Nat → List Target × List (Nat × List DpTarget) → List Target × List (Nat × List DpTarget)
  | [], acc => acc
  | frame :: rest, acc =>
    if dp_targets frame = [] then sweep_work_frames ext target_add_hit flags dp_targets rest acc
    else
      sweep_work_frames ext target_add_hit flags dp_targets rest
        (add_target_hits target_add_hit (ext.swipe frame (dp_targets frame) flags) acc.1,
          acc.2 ++ [(frame, dp_targets frame)])

/-- The function `align(const vector<WorkTarget>&, ...)` returning `vector<Target>`:
the targets, and the list of `swipe` calls made. -/
def align_work_targets (cfg : Config) (ext : Collaborators)
    (target_add_hit : Target → Hsp → Target) (DEFAULT_BAND : Int) (query_seq : Nat → sequence)
    (flags : Int) (targets : List WorkTarget) : List Target × List (Nat × List DpTarget) :=
  match targets with
  | [] => ([], [])
  | _ :: _ =>
    let collected := collect_work_targets cfg DEFAULT_BAND query_seq targets 0 (fun _ => [], [])
    sweep_work_frames ext target_add_hit flags collected.1 (List.range cfg.query_contexts)
      (collected.2, [])

/-! ## The iterations of the chunk loop -/

/-- The loop `while (i0 < target_scores.cend()) { ... }` of `extend` with a record of
its iterations: the calls it makes, as in `chunk_loop`, and the pair `(i0, i1)` of
every entry into the loop body (an iteration left by the first `break` is one). -/
def chunk_loop_entries (cfg : Config) (mem : Memory) (stage : Nat → Nat → Nat × Bool)
    (use_chunks : Bool) (chunk_size : Nat)
    (seed_hits : FlatArray SeedHit) (target_block_ids : List Nat)
    (target_scores : List TargetScore) : Nat → Nat → Nat → Option (List Event × List (Nat × Nat))
  | 0, i0, _ => if i0 < target_scores.length then none else some ([], [])
  | fuel + 1, i0, i1 =>
    if i0 < target_scores.length then
      let current_chunk_size := i1 - i0
      let multi_chunk := decide (current_chunk_size < target_scores.length)
      if cfg.query_memory = true ∧ mem.ranking_failed_count ≥ chunk_size ∧
          mem.ranking_low_score ≥ (score_at target_scores i0 : Int) then some ([], [(i0, i1)])
      else
        let bufs :=
          if multi_chunk then
            copy_chunk seed_hits target_block_ids ((target_scores.drop i0).take current_chunk_size)
          else (target_block_ids, seed_hits)
        let call := Event.extend i0 i1 multi_chunk bufs.1 bufs.2
        let v := stage i0 i1
        let n := v.1
        let new_hits := if multi_chunk then v.2 else false
        if use_chunks = true ∧ n = 0 then some ([call], [(i0, i1)])
        else if use_chunks = true ∧ cfg.adaptive_ranking = true ∧ new_hits = false then
          if cfg.query_memory = true ∧ current_chunk_size ≥ chunk_size then
            some ([call, Event.update_failed_count current_chunk_size
              (score_at target_scores (i1 - 1))], [(i0, i1)])
          else some ([call], [(i0, i1)])
        else
          (chunk_loop_entries cfg mem stage use_chunks chunk_size seed_hits target_block_ids
            target_scores fuel i1 (min (i1 + chunk_size) target_scores.length)).map
              (fun rest => (call :: rest.1, (i0, i1) :: rest.2))
    else some ([], [])

/-- The scheduler part of `extend` with the record of iterations of
`chunk_loop_entries`. -/
def extend_chunks_entries (cfg : Config) (mem : Memory) (relaxed_cutoff : Int)
    (stage : Nat → Nat → Nat × Bool) (seed_hits : FlatArray SeedHit)
    (target_block_ids : List Nat) (target_scores : List TargetScore) :
    Option (List Event × List (Nat × Nat)) :=
  let ts := ranked_targets cfg target_block_ids.length target_scores
  chunk_loop_entries cfg mem stage (use_chunks cfg target_block_ids.length)
    (chunk_size cfg target_block_ids.length) seed_hits target_block_ids ts
    ts.length 0 (first_chunk_end cfg relaxed_cutoff target_block_ids.length ts)

/-! ## Score traits (`score_vector_int16.h`) -/

/-- The constant `SHRT_MIN`. -/
def SHRT_MIN : Int := -32768

/-- The constant `SHRT_MAX`. -/
def SHRT_MAX : Int := 32767

/-- The conversion `short(x)` of an `int`: its low 16 bits read as `int16_t`. -/
def short_of (x : Int) : Int := int16_of (uint16_of x)

/-- The constructor `score_vector(int x, const Saturated&)`. -/
def score_vector.of_saturated (x : Int) : score_vector :=
  ⟨_mm_set1_epi16 (short_of (SHRT_MIN + x))⟩

/-- The function `ScoreTraits<score_vector<int16_t>>::zero_score`. -/
def ScoreTraits.zero_score : Int := SHRT_MIN

/-- The function `ScoreTraits<score_vector<int16_t>>::int_score`: the `uint16_t`
pattern of `s`, promoted to `int`, with bit 15 flipped. -/
def ScoreTraits.int_score (s : Int) : Int := ((uint16_of s ^^^ 0x8000 : Nat) : Int)

/-- The function `ScoreTraits<score_vector<int16_t>>::max_score`. -/
def ScoreTraits.max_score : Int := SHRT_MAX

/-- The function `ScoreTraits<score_vector<int16_t>>::max_int_score`. -/
def ScoreTraits.max_int_score : Int := SHRT_MAX - SHRT_MIN

/-- Every hit of the sorted array `s` lands in one group, and every target has one
group: the groups of `hits`, read one after the other, hold the seed hits of `s` in
the order of `s` (so there are as many as hits); the seed hit of a hit has the frame
`query_ % query_contexts`; there is one group per target id, and the target ids are
strictly increasing, hence pairwise different. -/
def HitsPartitioned (cfg : Config) (limits : List Nat) (s : List hit) (st : LoadState) : Prop :=
  st.hits.flatten = s.map (seed_of cfg limits) ∧
  st.hits.flatten.length = s.length ∧
  (∀ (k : Nat) (h : hit), s[k]? = some h →
    ∃ x : SeedHit, st.hits.flatten[k]? = some x ∧ x.frame = h.query_ % cfg.query_contexts) ∧
  st.hits.length = st.target_block_ids.length ∧
  st.target_block_ids.Sorted (· < ·) ∧ st.target_block_ids.Nodup

/-! ## Advancing a lane (`target_iterator.h`) -/

/-- The function `TargetIterator::inc`: the state after the call and the value
returned. A target index outside the batch is an out-of-bounds read in C++; here
the call then returns false. -/
def TargetIterator.inc (it : TargetIterator) (channel : Nat) : TargetIterator × Bool :=
  let it1 : TargetIterator :=
    { it with pos := Function.update it.pos channel (it.pos channel + 1) }
  match it1.subject_begin[(it1.target channel).toNat]? with
  | some t => (it1, if it1.pos channel ≥ to_int t.seq.length then false else true)
  | none => (it1, false)

/-- The state after `k` successive calls `inc(channel)`. -/
def inc_times (channel : Nat) : Nat → TargetIterator → TargetIterator
  | 0, it => it
  | k + 1, it => inc_times channel k (TargetIterator.inc it channel).1

/-! ## The multiplexer word of the build without SSSE3 -/

/-- The conversion `uint64_t(c)` of a `char` holding the byte `c`. Whether `char` is
signed is implementation-defined and given by `char_signed`; a signed `char` from 128
on is negative and is sign-extended. -/
def uint64_of_char (char_signed : Bool) (c : Nat) : Nat :=
  if char_signed = true ∧ 128 ≤ c % 256 then c % 256 + 18446744073709551360 else c % 256

/-- The function `TargetIterator::get` of the build without SSSE3: the 64-bit word
`dst`. -/
def TargetIterator.get_word (char_signed : Bool) (SUPER_HARD_MASK : Nat) (it : TargetIterator) :
    Nat :=
  it.active.foldl
    (fun dst channel =>
      dst ||| ((uint64_of_char char_signed (TargetIterator.letter SUPER_HARD_MASK it channel) <<<
        (8 * channel)) % 18446744073709551616))
    0

/-- Byte `k` of a 64-bit word, as `score_vector(unsigned a, uint64_t seq)` reads it. -/
def byte_of (w k : Nat) : Nat := (w >>> (8 * k)) &&& 0xff

/-! ## The edge array of the chaining graph (`dp.h`) -/

/-- The runs `R_0, ..., R_{k-1}` one after the other, where `R_i` holds the edges of
`hist` with `node_in = i` in the order of `hist`; `hist` lists the edges in insertion
order. -/
def edge_runs (hist : List Edge) : Nat → List Edge
  | 0 => []
  | k + 1 => edge_runs hist k ++ hist.filter (fun e => decide (e.node_in = k))

/-- The edge-array partition invariant for the initialised nodes `0..m-1` and the
edges `hist` inserted so far: a node has `link_idx >= 0` exactly when its index is
below `m`; the edge array is `R_0 ++ ... ++ R_{m-1}`; and `nodes[k].link_idx` is the
index one past the end of `R_k`. -/
def EdgePartition (g : Diag_graph) (m : Nat) (hist : List Edge) : Prop :=
  m ≤ g.nodes.length ∧
  (∀ (k : Nat) (d : Diagonal_node), g.nodes[k]? = some d → (0 ≤ d.link_idx ↔ k < m)) ∧
  (∀ e ∈ hist, e.node_in < m) ∧
  g.edges = edge_runs hist m ∧
  (∀ (k : Nat) (d : Diagonal_node), k < m → g.nodes[k]? = some d →
    d.link_idx = ((edge_runs hist (k + 1)).length : Int))

/-- The loop `for (i = edges.begin() + d.link_idx - 1; i >= edges.begin() &&
i->node_in == node; --i)` of `get_edge`, at the iterator `i = edges.begin() + k - 1`
(so `i >= edges.begin()` is `k > 0`), with the current `max_edge`, as an offset from
`edges.begin()`, and `max_score`. A read past the end of the array is undefined in
C++; here the loop stops there. -/
def get_edge_scan (edges : List Edge) (node : Nat) (j : Int) : Nat → Nat × Int → Nat × Int
  | 0, acc => acc
  | k + 1, acc =>
    match edges[k]? with
    | some e =>
      if e.node_in = node then
        get_edge_scan edges node j k
          (if e.j < j ∧ e.prefix_score > acc.2 then (k, e.prefix_score) else acc)
      else acc
    | none => acc

/-- The function `Diag_graph::get_edge`: the iterator returned, as an offset from
`edges.begin()` (`edges.end()` is the offset `edges.size()`); `none` when `node` is not
a node of the graph. -/
def Diag_graph.get_edge (g : Diag_graph) (node : Nat) (j : Int) : Option Int :=
  match g.nodes[node]? with
  | none => none
  | some d =>
    if d.score = 0 then some (d.link_idx - 1)
    else if g.edges = [] then some (g.edges.length : Int)
    else
      some ((get_edge_scan g.edges node j d.link_idx.toNat (g.edges.length, d.score)).1 : Int)

/-- The function `Diag_graph::prefix_score`: the value returned and the outputs
`path_max` and `path_min`; `none` when `node` is not a node of the graph or the
iterator returned by `get_edge` is dereferenced outside the edge array. -/
def Diag_graph.prefix_score (g : Diag_graph) (node : Nat) (j : Int) : Option (Int × Int × Int) :=
  match g.nodes[node]?, Diag_graph.get_edge g node j with
  | some d, some i =>
    if i = (g.edges.length : Int) then some (d.score, d.score, d.score)
    else
      match (if 0 ≤ i then g.edges[i.toNat]? else none) with
      | some e => some (max d.score e.prefix_score, max d.score e.path_max, e.path_min)
      | none => none
  | _, _ => none

/-- An example graph: two nodes of score 10 and 7, the first of them initialised, and
no edge. -/
def Diag_graph.two_nodes : Diag_graph :=
  ⟨[⟨0, 0, 5, 10, 0, 10, 10, 10⟩, ⟨3, 4, 5, 7, -1, 7, 7, 7⟩], []⟩

/-- The example graph `two_nodes` after two calls of `add_edge` with edges out of
node 0: one of prefix score 15 at column 2, then one of prefix score 12 at column 4. -/
def Diag_graph.two_edges : Diag_graph :=
  ((Diag_graph.two_nodes.add_edge ⟨15, 15, 2, 10, 0, 0, 1⟩).1.add_edge ⟨12, 12, 4, 10, 0, 0, 1⟩).1

/-- The base configuration with chunk size 2, `max_alignments` 5 and `toppercent` 100. -/
def Config.chunked : Config :=
  { Config.base with ext_chunk_size := 2, max_alignments := 5, toppercent_is_100 := true }
/-! # Properties -/

/-! ## Machine integers -/

theorem to_int_of_lt (n : Nat) (h : n < 2147483648) : to_int n = (n : Int) := by
  unfold to_int Int.bmod
  have h1 : ((n : Int) % ((4294967296 : Nat) : Int)) = (n : Int) := by omega
  rw [h1]
  have h2 : (n : Int) < (((4294967296 : Nat) : Int) + 1) / 2 := by omega
  rw [if_pos h2]

theorem to_int_range (n : Nat) : -2147483648 ≤ to_int n ∧ to_int n ≤ 2147483647 := by
  unfold to_int Int.bmod
  simp only []
  by_cases h : (n : Int) % ((4294967296 : Nat) : Int) < (((4294967296 : Nat) : Int) + 1) / 2
  · rw [if_pos h]
    omega
  · rw [if_neg h]
    omega

theorem wrap_int_of_fits (x : Int) (h : fits_int x) : wrap_int x = x := by
  obtain ⟨h1, h2⟩ := h
  unfold wrap_int Int.bmod
  simp only []
  by_cases h : x % ((4294967296 : Nat) : Int) < (((4294967296 : Nat) : Int) + 1) / 2
  · rw [if_pos h]
    omega
  · rw [if_neg h]
    omega

/-! ## Target resolution: the cursor and the binary search agree -/

theorem CutAt.unique {limits : List Nat} {x r s : Nat} (hr : CutAt limits x r)
    (hs : CutAt limits x s) : r = s := by
  obtain ⟨hr1, hr2, hr3⟩ := hr
  obtain ⟨hs1, hs2, hs3⟩ := hs
  rcases Nat.lt_trichotomy r s with h | h | h
  · have h1 := hs2 r h
    have h2 := hr3 r le_rfl (by omega)
    omega
  · exact h
  · have h1 := hr2 s h
    have h2 := hs3 s le_rfl (by omega)
    omega

theorem sorted_getD_le {limits : List Nat} (hs : limits.Sorted (· ≤ ·)) {i j : Nat}
    (hij : i ≤ j) (hj : j < limits.length) : limits.getD i 0 ≤ limits.getD j 0 := by
  have hi : i < limits.length := by omega
  rw [List.getD_eq_getElem _ _ hi, List.getD_eq_getElem _ _ hj]
  rcases Nat.eq_or_lt_of_le hij with h | h
  · subst h; exact le_rfl
  · exact (List.pairwise_iff_getElem.mp hs) i j hi hj h

theorem advance_spec (limits : List Nat) (x : Nat) :
    ∀ (suf : List Nat) (it : Nat), limits.drop it = suf →
      it ≤ advance x suf it ∧ advance x suf it ≤ max it limits.length ∧
      (∀ i, it ≤ i → i < advance x suf it → limits.getD i 0 ≤ x) ∧
      (advance x suf it < limits.length → x < limits.getD (advance x suf it) 0) := by
  intro suf
  induction suf with
  | nil =>
    intro it hd
    have hlen : limits.length ≤ it := List.drop_eq_nil_iff.mp hd
    simp only [advance]
    refine ⟨le_rfl, le_max_left _ _, ?_, ?_⟩
    · intro i h1 h2; omega
    · intro h; omega
  | cons l rest ih =>
    intro it hd
    have hlt : it < limits.length := by
      by_contra hcon
      have : limits.drop it = [] := List.drop_eq_nil_iff.mpr (by omega)
      rw [this] at hd
      cases hd
    have hcons := List.drop_eq_getElem_cons hlt
    rw [hd] at hcons
    have hl : limits.getD it 0 = l := by
      rw [List.getD_eq_getElem _ _ hlt]
      exact (List.cons.inj hcons).1.symm
    have hrest : limits.drop (it + 1) = rest := (List.cons.inj hcons).2.symm
    simp only [advance]
    split_ifs with hle
    · obtain ⟨h1, h2, h3, h4⟩ := ih (it + 1) hrest
      refine ⟨by omega, ?_, ?_, h4⟩
      · have : max (it + 1) limits.length = limits.length := max_eq_right (by omega)
        have h5 : max it limits.length = limits.length := max_eq_right (by omega)
        omega
      · intro i hi1 hi2
        rcases Nat.eq_or_lt_of_le hi1 with h | h
        · subst h; omega
        · exact h3 i (by omega) hi2
    · refine ⟨le_rfl, le_max_left _ _, ?_, ?_⟩
      · intro i h1 h2; omega
      · intro _; omega

theorem advance_cut {limits : List Nat} (hs : limits.Sorted (· ≤ ·)) {x it : Nat}
    (hit : it ≤ limits.length) (hbelow : ∀ i, i < it → limits.getD i 0 ≤ x) :
    CutAt limits x (advance x (limits.drop it) it) := by
  obtain ⟨h1, h2, h3, h4⟩ := advance_spec limits x (limits.drop it) it rfl
  have hmax : max it limits.length = limits.length := max_eq_right hit
  rw [hmax] at h2
  refine ⟨h2, ?_, ?_⟩
  · intro i hi
    by_cases hlt : i < it
    · exact hbelow i hlt
    · exact h3 i (by omega) hi
  · intro i hi hlen
    have := h4 (by omega)
    have := sorted_getD_le hs hi hlen
    omega

theorem upper_bound_loop_cut {limits : List Nat} (hs : limits.Sorted (· ≤ ·)) (x : Nat) :
    ∀ (fuel first count : Nat), count ≤ fuel → first + count ≤ limits.length →
      (∀ i, i < first → limits.getD i 0 ≤ x) →
      (∀ i, first + count ≤ i → i < limits.length → x < limits.getD i 0) →
      CutAt limits x (upper_bound_loop limits x fuel first count) := by
  intro fuel
  induction fuel with
  | zero =>
    intro first count hc hlen hlo hhi
    have : count = 0 := by omega
    subst this
    simp only [upper_bound_loop]
    exact ⟨by omega, hlo, fun i hi => hhi i (by omega)⟩
  | succ fuel ih =>
    intro first count hc hlen hlo hhi
    simp only [upper_bound_loop]
    split_ifs with h0 hle
    · subst h0
      exact ⟨by omega, hlo, fun i hi => hhi i (by omega)⟩
    · have hstep : count / 2 < count := Nat.div_lt_self (by omega) (by omega)
      apply ih
      · omega
      · omega
      · intro i hi
        have := sorted_getD_le hs (show i ≤ first + count / 2 by omega) (by omega)
        omega
      · intro i hi hl
        exact hhi i (by omega) hl
    · have hstep : count / 2 < count := Nat.div_lt_self (by omega) (by omega)
      apply ih
      · omega
      · omega
      · exact hlo
      · intro i hi hl
        have := sorted_getD_le hs hi hl
        omega

theorem upper_bound_cut {limits : List Nat} (hs : limits.Sorted (· ≤ ·)) (x : Nat) :
    CutAt limits x (upper_bound limits x) := by
  unfold upper_bound
  apply upper_bound_loop_cut hs x
  · exact le_rfl
  · omega
  · intro i hi; omega
  · intro i hi hl; omega

theorem getLastD_eq_getD (l : List Nat) : l.getLastD 0 = l.getD (l.length - 1) 0 := by
  rw [List.getLastD_eq_getLast?, List.getLast?_eq_getElem?, List.getD_eq_getElem?_getD]

theorem cut_bounds {limits : List Nat} {x r : Nat} (hc : CutAt limits x r)
    (h0 : limits.getD 0 0 ≤ x) (hlast : x < limits.getLastD 0) : 1 ≤ r ∧ r < limits.length := by
  obtain ⟨h1, h2, h3⟩ := hc
  have hne : 0 < limits.length := by
    rcases limits with _ | ⟨a, l⟩
    · simp at hlast
    · simp
  rw [getLastD_eq_getD] at hlast
  constructor
  · by_contra hcon
    have hr : r = 0 := by omega
    have := h3 0 (by omega) hne
    omega
  · by_contra hcon
    have := h2 (limits.length - 1) (by omega)
    omega

theorem local_position_spec {limits : List Nat} (hs : limits.Sorted (· ≤ ·)) {x : Nat}
    (h0 : limits.getD 0 0 ≤ x) (hlast : x < limits.getLastD 0) :
    (local_position limits x).1 + 1 < limits.length ∧
    limits.getD (local_position limits x).1 0 ≤ x ∧
    x < limits.getD ((local_position limits x).1 + 1) 0 ∧
    (local_position limits x).2 = x - limits.getD (local_position limits x).1 0 ∧
    ∀ t, t + 1 < limits.length → limits.getD t 0 ≤ x → x < limits.getD (t + 1) 0 →
      t = (local_position limits x).1 := by
  have hc := upper_bound_cut hs x
  obtain ⟨hr1, hr2⟩ := cut_bounds hc h0 hlast
  obtain ⟨h1, h2, h3⟩ := hc
  have hp : (local_position limits x).1 = upper_bound limits x - 1 := rfl
  have hp1 : upper_bound limits x - 1 + 1 = upper_bound limits x := by omega
  refine ⟨?_, ?_, ?_, rfl, ?_⟩
  · rw [hp]; omega
  · rw [hp]; exact h2 _ (by omega)
  · rw [hp, hp1]; exact h3 _ le_rfl hr2
  · intro t ht hle hlt
    rw [hp]
    rcases Nat.lt_trichotomy (t + 1) (upper_bound limits x) with h | h | h
    · have := h2 (t + 1) h
      omega
    · omega
    · have := h3 t (by omega) (by omega)
      omega

theorem uint32_pred_to_uint32 (n : Nat) (h : 1 ≤ n) :
    uint32_pred (to_uint32 n) = to_uint32 (n - 1) := by
  unfold uint32_pred to_uint32
  split_ifs <;> omega

theorem advance_eq_upper_bound {limits : List Nat} (hs : limits.Sorted (· ≤ ·)) {x it : Nat}
    (hit : it ≤ limits.length) (hbelow : ∀ i, i < it → limits.getD i 0 ≤ x) :
    advance x (limits.drop it) it = upper_bound limits x :=
  (advance_cut hs hit hbelow).unique (upper_bound_cut hs x)

theorem load_loop_linear_eq (cfg : Config) {limits : List Nat} (hs : limits.Sorted (· ≤ ·)) :
    ∀ (hits : List hit) (it : Nat) (st : LoadState), hits.Sorted CmpSubject →
      (∀ h ∈ hits, limits.getD 0 0 ≤ h.subject_ ∧ h.subject_ < limits.getLastD 0) →
      it ≤ limits.length → (∀ i, i < it → ∀ h ∈ hits, limits.getD i 0 ≤ h.subject_) →
      load_loop_linear cfg limits hits it st = load_loop_binary cfg limits hits st := by
  intro hits
  induction hits with
  | nil => intro it st _ _ _ _; rfl
  | cons h rest ih =>
    intro it st hsorted hcov hit hbelow
    have hx := hcov h (List.mem_cons_self _ _)
    have hadv := advance_eq_upper_bound hs hit (fun i hi => hbelow i hi h (List.mem_cons_self _ _))
    have hcut := upper_bound_cut hs h.subject_
    obtain ⟨hr1, hr2⟩ := cut_bounds hcut hx.1 hx.2
    have hs2 := List.sorted_cons.mp hsorted
    simp only [load_loop_linear, load_loop_binary, hadv, local_position, uint32_pred_to_uint32 _ hr1]
    apply ih _ _ hs2.2 (fun h1 hh => hcov h1 (List.mem_cons_of_mem _ hh)) (by omega)
    intro i hi h1 hh
    have h3 := hcut.2.1 i hi
    have h4 : h.subject_ ≤ h1.subject_ := hs2.1 h1 hh
    omega

theorem linear_positions_eq {limits : List Nat} (hs : limits.Sorted (· ≤ ·)) :
    ∀ (hits : List hit) (it : Nat), hits.Sorted CmpSubject →
      it ≤ limits.length → (∀ i, i < it → ∀ h ∈ hits, limits.getD i 0 ≤ h.subject_) →
      linear_positions limits hits it = hits.map (fun h => local_position limits h.subject_) := by
  intro hits
  induction hits with
  | nil => intro it _ _ _; rfl
  | cons h rest ih =>
    intro it hsorted hit hbelow
    have hadv := advance_eq_upper_bound hs hit (fun i hi => hbelow i hi h (List.mem_cons_self _ _))
    have hcut := upper_bound_cut hs h.subject_
    have hs2 := List.sorted_cons.mp hsorted
    simp only [linear_positions, hadv, local_position, List.map_cons]
    congr 1
    apply ih _ hs2.2 hcut.1
    intro i hi h1 hh
    have h3 := hcut.2.1 i hi
    have h4 : h.subject_ ≤ h1.subject_ := hs2.1 h1 hh
    omega

/-- C1. Grouping correctness of `load_hits`: for every raw-hit array, every sorted
arrangement of it and every ascending limits table covering all hit coordinates,
the cursor of the linear scan resolves every hit to the pair computed by
`local_position`; that pair is `(t, x - limits[t])` for the unique `t` with
`limits[t] <= x < limits[t+1]`; and both branches of `load_hits` leave the same
hits, target_block_ids and target_scores. -/
theorem load_hits_linear_eq_binary (cfg : Config) (limits : List Nat) (raw sorted : List hit)
    (hperm : sorted.Perm raw) (hsorted : sorted.Sorted CmpSubject) (hcov : Covered limits raw) :
    linear_positions limits sorted 0 =
        sorted.map (fun h => local_position limits h.subject_) ∧
      (∀ h ∈ sorted,
        (local_position limits h.subject_).1 + 1 < limits.length ∧
        limits.getD (local_position limits h.subject_).1 0 ≤ h.subject_ ∧
        h.subject_ < limits.getD ((local_position limits h.subject_).1 + 1) 0 ∧
        (local_position limits h.subject_).2 =
          h.subject_ - limits.getD (local_position limits h.subject_).1 0 ∧
        ∀ t, t + 1 < limits.length → limits.getD t 0 ≤ h.subject_ →
          h.subject_ < limits.getD (t + 1) 0 → t = (local_position limits h.subject_).1) ∧
      load_sorted cfg limits false sorted = load_sorted cfg limits true sorted ∧
      load_hits cfg limits false raw = load_hits cfg limits true raw := by
  obtain ⟨hlim, hin⟩ := hcov
  have key : ∀ s : List hit, s.Perm raw → s.Sorted CmpSubject →
      load_sorted cfg limits false s = load_sorted cfg limits true s := by
    intro s hp hso
    cases s with
    | nil => rfl
    | cons a l =>
      simp only [load_sorted, Bool.false_eq_true, if_false, if_true]
      rw [load_loop_linear_eq cfg hlim _ 0 _ hso (fun h hh => hin h (hp.subset hh)) (Nat.zero_le _)
        (fun i hi => absurd hi (Nat.not_lt_zero _))]
  refine ⟨?_, ?_, key sorted hperm hsorted, ?_⟩
  · exact linear_positions_eq hlim sorted 0 hsorted (Nat.zero_le _)
      (fun i hi => absurd hi (Nat.not_lt_zero _))
  · intro h hh
    exact local_position_spec hlim (hin h (hperm.subset hh)).1 (hin h (hperm.subset hh)).2
  · exact key _ (List.perm_insertionSort _ raw) (List.sorted_insertionSort _ raw)

theorem load_hits_linear_eq_binary_witness :
    linear_positions [0, 10, 20, 30]
        ([⟨0, 3, 2, 5⟩, ⟨1, 4, 3, 9⟩, ⟨0, 25, 1, 7⟩] : List hit) 0 =
        ([⟨0, 3, 2, 5⟩, ⟨1, 4, 3, 9⟩, ⟨0, 25, 1, 7⟩] : List hit).map
          (fun h => local_position [0, 10, 20, 30] h.subject_) ∧
      load_hits ⟨2, 0, 0, false, false, false, 0, 0, false⟩ [0, 10, 20, 30] false
          [⟨0, 25, 1, 7⟩, ⟨0, 3, 2, 5⟩, ⟨1, 4, 3, 9⟩] =
        load_hits ⟨2, 0, 0, false, false, false, 0, 0, false⟩ [0, 10, 20, 30] true
          [⟨0, 25, 1, 7⟩, ⟨0, 3, 2, 5⟩, ⟨1, 4, 3, 9⟩] :=
  have h := load_hits_linear_eq_binary ⟨2, 0, 0, false, false, false, 0, 0, false⟩ [0, 10, 20, 30]
    [⟨0, 25, 1, 7⟩, ⟨0, 3, 2, 5⟩, ⟨1, 4, 3, 9⟩] [⟨0, 3, 2, 5⟩, ⟨1, 4, 3, 9⟩, ⟨0, 25, 1, 7⟩]
    (by decide) (by decide) ⟨by decide, by decide⟩
  ⟨h.1, h.2.2.2⟩
/-! ## Band construction -/

theorem fold_update_range {β : Type} (f : Nat → List β → List β) :
    ∀ (n : Nat) (dp : Nat → List β) (frame : Nat),
      ((List.range n).foldl (fun dp fr => Function.update dp fr (f fr (dp fr))) dp) frame =
        if frame < n then f frame (dp frame) else dp frame := by
  intro n
  induction n with
  | zero => intro dp frame; simp
  | succ n ih =>
    intro dp frame
    rw [List.range_succ, List.foldl_append]
    simp only [List.foldl_cons, List.foldl_nil]
    by_cases h : frame = n
    · subst h
      simp [ih]
    · rw [Function.update_noteq h, ih]
      by_cases h2 : frame < n
      · simp [h2, Nat.lt_succ_of_lt h2]
      · have : ¬ frame < n + 1 := by omega
        simp [h2, this]

theorem add_frame_hsps_eq (seq : sequence) (target_idx : Int) :
    ∀ (l : List Hsp) (acc : List DpTarget),
      add_frame_hsps seq target_idx l acc =
        acc ++ l.map (fun h => ⟨seq, h.query_range.begin_, h.query_range.end_, target_idx⟩) := by
  intro l
  induction l with
  | nil => intro acc; simp [add_frame_hsps]
  | cons h rest ih => intro acc; simp [add_frame_hsps, ih]

/-- What `add_dp_targets(const Target&)` does, for every input: for every frame below
`query_contexts` and every HSP `h` of that frame it appends to `dp_targets[frame]` one
DpTarget, in HSP order, with the target's sequence, the given `target_idx`,
`d_begin = h.query_range.begin_` and `d_end = h.query_range.end_`; the locals `band`,
`slen` and `qlen`, computed as in the overload for WorkTargets, do not enter. -/
theorem add_dp_targets_traceback_spec (cfg : Config) (target : Target) (target_idx : Int)
    (dp_targets : Nat → List DpTarget) (frame : Nat) :
    add_dp_targets_traceback cfg target target_idx dp_targets frame =
      if frame < cfg.query_contexts then
        dp_targets frame ++ (target.hsp frame).map
          (fun h => ⟨target.seq, h.query_range.begin_, h.query_range.end_, target_idx⟩)
      else dp_targets frame := by
  unfold add_dp_targets_traceback
  rw [fold_update_range (fun fr l => add_frame_hsps target.seq target_idx (target.hsp fr) l)]
  simp only [add_frame_hsps_eq]

theorem add_frame_targets_code (band slen qlen : Int) (seq : sequence) (target_idx : Int) :
    ∀ (l : List Hsp_traits) (acc : List DpTarget),
      add_frame_targets band slen qlen seq target_idx l acc =
        acc ++ l.map (dp_target_of band slen qlen seq target_idx) := by
  intro l
  induction l with
  | nil => intro acc; simp [add_frame_targets]
  | cons h rest ih => intro acc; simp [add_frame_targets, ih]

theorem dp_target_of_fits (band slen qlen : Int) (seq : sequence) (target_idx : Int)
    (h : Hsp_traits) (hf : BandFits band slen h) :
    dp_target_of band slen qlen seq target_idx h = band_target band slen qlen seq target_idx h := by
  obtain ⟨h1, h2, h3, h4, h5⟩ := hf
  unfold dp_target_of band_target
  rw [wrap_int_of_fits _ h1, wrap_int_of_fits _ h2, wrap_int_of_fits _ h3,
    wrap_int_of_fits _ h4, wrap_int_of_fits _ h5]

theorem add_dp_targets_frame_code (cfg : Config) (DEFAULT_BAND : Int) (target : WorkTarget)
    (target_idx : Int) (query_seq : Nat → sequence) (dp_targets : Nat → List DpTarget)
    (frame : Nat) :
    add_dp_targets cfg DEFAULT_BAND target target_idx query_seq dp_targets frame =
      if frame < cfg.query_contexts then
        dp_targets frame ++ (target.hsp frame).map
          (dp_target_of (band cfg DEFAULT_BAND) (to_int target.seq.length)
            (to_int (query_seq frame).length) target.seq target_idx)
      else dp_targets frame := by
  unfold add_dp_targets
  rw [fold_update_range (fun fr l => add_frame_targets (band cfg DEFAULT_BAND)
    (to_int target.seq.length) (to_int (query_seq fr).length) target.seq target_idx
    (target.hsp fr) l)]
  simp only [add_frame_targets_code]

/-- C10. Band construction for WorkTargets: for every WorkTarget, every frame below
`query_contexts` and every diagonal trait `h` of that frame, `add_dp_targets` appends
to `dp_targets[frame]` exactly one DpTarget, in trait order, with the target's
sequence, the given `target_idx`, `d_begin = max(h.d_min - band, -(slen - 1))` and
`d_end = min(h.d_max + 1 + band, qlen)`, where `band` is `config.padding` if that is
positive and `DEFAULT_BAND` otherwise; entries already in `dp_targets`, and the
frames from `query_contexts` on, are left unchanged. The sums and differences are
those of the integers provided the 32-bit `int` operations of the frame do not
overflow (`BandFits`), which is the hypothesis. -/
theorem add_dp_targets_spec (cfg : Config) (DEFAULT_BAND : Int) (target : WorkTarget)
    (target_idx : Int) (query_seq : Nat → sequence) (dp_targets : Nat → List DpTarget)
    (frame : Nat)
    (hfits : ∀ h ∈ target.hsp frame,
      BandFits (band cfg DEFAULT_BAND) (to_int target.seq.length) h) :
    add_dp_targets cfg DEFAULT_BAND target target_idx query_seq dp_targets frame =
      (if frame < cfg.query_contexts then
        dp_targets frame ++ (target.hsp frame).map
          (fun h =>
            ⟨target.seq,
              max (h.d_min - band cfg DEFAULT_BAND) (-(to_int target.seq.length - 1)),
              min (h.d_max + 1 + band cfg DEFAULT_BAND) (to_int (query_seq frame).length),
              target_idx⟩)
      else dp_targets frame) ∧
    band cfg DEFAULT_BAND = (if cfg.padding > 0 then cfg.padding else DEFAULT_BAND) := by
  refine ⟨?_, rfl⟩
  rw [add_dp_targets_frame_code]
  have hmap : (target.hsp frame).map
      (dp_target_of (band cfg DEFAULT_BAND) (to_int target.seq.length)
        (to_int (query_seq frame).length) target.seq target_idx) =
      (target.hsp frame).map
        (band_target (band cfg DEFAULT_BAND) (to_int target.seq.length)
          (to_int (query_seq frame).length) target.seq target_idx) :=
    List.map_congr_left (fun h hh => dp_target_of_fits _ _ _ _ _ h (hfits h hh))
  rw [hmap]
  rfl

/-- C10, at an instance: subject length 6, query length 10, padding 3 and one trait on
the diagonals `[-2, 1]`, for which the band `[-5, 5)` is appended. -/
theorem add_dp_targets_spec_witness :
    add_dp_targets { Config.base with padding := 3 } 0
      ⟨0, [1, 2, 3, 4, 5, 6], fun _ => [⟨-2, 1, ⟨0, 4⟩, ⟨1, 5⟩⟩], false⟩ 0
      (fun _ => [1, 2, 3, 4, 5, 6, 7, 8, 9, 10]) (fun _ => []) 0 =
        [⟨[1, 2, 3, 4, 5, 6], -5, 5, 0⟩] := by
  have h6 : to_int ([1, 2, 3, 4, 5, 6] : sequence).length = 6 := to_int_of_lt 6 (by decide)
  have h10 : to_int ([1, 2, 3, 4, 5, 6, 7, 8, 9, 10] : sequence).length = 10 :=
    to_int_of_lt 10 (by decide)
  have h := (add_dp_targets_spec { Config.base with padding := 3 } 0
    ⟨0, [1, 2, 3, 4, 5, 6], fun _ => [⟨-2, 1, ⟨0, 4⟩, ⟨1, 5⟩⟩], false⟩ 0
    (fun _ => [1, 2, 3, 4, 5, 6, 7, 8, 9, 10]) (fun _ => []) 0
    (by
      intro h hh
      simp only [List.mem_singleton] at hh
      subst hh
      rw [h6]
      decide)).1
  rw [h, h6, h10]
  decide

/-! ## Alignment assembly -/

theorem splice_frames_eq :
    ∀ (l : List Nat) (acc : List Hsp) (cur : Nat → List Hsp), l.Nodup →
      splice_frames l (acc, cur) =
        (acc ++ concat_frames cur l, fun i => if i ∈ l then [] else cur i) := by
  intro l
  induction l with
  | nil => intro acc cur _; simp [splice_frames, concat_frames]
  | cons a rest ih =>
    intro acc cur hnd
    have hnd2 := List.nodup_cons.mp hnd
    simp only [splice_frames]
    rw [ih _ _ hnd2.2]
    have hc : concat_frames (Function.update cur a []) rest = concat_frames cur rest := by
      have : ∀ (r : List Nat), a ∉ r →
          concat_frames (Function.update cur a []) r = concat_frames cur r := by
        intro r
        induction r with
        | nil => intro _; rfl
        | cons b r ihr =>
          intro hb
          have hba : b ≠ a := fun h => hb (h ▸ List.mem_cons_self _ _)
          simp only [concat_frames, Function.update_noteq hba]
          rw [ihr (fun h => hb (List.mem_cons_of_mem _ h))]
      exact this rest hnd2.1
    rw [hc]
    refine Prod.ext ?_ ?_
    · simp [concat_frames, List.append_assoc]
    · funext i
      by_cases hi : i = a
      · subst hi; simp
      · simp [Function.update_noteq hi, hi]

theorem hsp_sorted_of_order (ext : Collaborators)
    (hasym : ∀ a b, ext.hsp_lt a b = true → ext.hsp_lt b a = false)
    (htrans : ∀ a b c, ext.hsp_lt b a = false → ext.hsp_lt c b = false → ext.hsp_lt c a = false)
    (l : List Hsp) : (sort_hsps ext l).Sorted (fun a b => ext.hsp_lt b a = false) := by
  haveI : IsTotal Hsp (fun a b => ext.hsp_lt b a = false) :=
    ⟨fun a b => by
      cases h : ext.hsp_lt b a
      · exact Or.inl rfl
      · exact Or.inr (hasym b a h)⟩
  haveI : IsTrans Hsp (fun a b => ext.hsp_lt b a = false) :=
    ⟨fun a b c hab hbc => htrans a b c hab hbc⟩
  exact List.sorted_insertionSort _ l

theorem hsp_scores_of_sorted (ext : Collaborators)
    (hdesc : ∀ a b : Hsp, a.score > b.score → ext.hsp_lt a b = true)
    {l : List Hsp} (hs : l.Sorted (fun a b => ext.hsp_lt b a = false)) :
    l.Pairwise (fun a b => a.score ≥ b.score) := by
  refine List.Pairwise.imp ?_ hs
  intro a b hab
  by_contra hcon
  have := hdesc b a (by omega)
  rw [this] at hab
  cases hab

/-- C13. HSP merging order: for every array of per-frame HSP lists, when no HSP cap
is configured (`max_hsps == 0`) the HSP list of the Match built by the constructor is
a permutation of the concatenation of `hsps[0], ..., hsps[query_contexts-1]`; it is
sorted by non-increasing score whenever `Hsp::operator<` is a strict weak order that
puts a higher score first; and the constructor leaves the per-frame lists of the
frames below `query_contexts` empty and the others untouched. -/
theorem match_ctor_hsp_sorted (cfg : Config) (ext : Collaborators) (filter_score : Int)
    (target_block_id : Nat) (outranked : Bool) (hsps : Nat → List Hsp)
    (hcap : cfg.max_hsps = 0)
    (hdesc : ∀ a b : Hsp, a.score > b.score → ext.hsp_lt a b = true)
    (hasym : ∀ a b, ext.hsp_lt a b = true → ext.hsp_lt b a = false)
    (htrans : ∀ a b c, ext.hsp_lt b a = false → ext.hsp_lt c b = false →
      ext.hsp_lt c a = false) :
    (Match.ctor cfg ext filter_score target_block_id outranked hsps).1.hsp.Perm
        (concat_frames hsps (List.range cfg.query_contexts)) ∧
      (Match.ctor cfg ext filter_score target_block_id outranked hsps).1.hsp.Pairwise
        (fun a b => a.score ≥ b.score) ∧
      (Match.ctor cfg ext filter_score target_block_id outranked hsps).2 =
        (fun i => if i < cfg.query_contexts then [] else hsps i) := by
  have hsp : (Match.ctor cfg ext filter_score target_block_id outranked hsps).1.hsp =
      sort_hsps ext (concat_frames hsps (List.range cfg.query_contexts)) := by
    simp only [Match.ctor, splice_frames_eq _ _ _ (List.nodup_range _), hcap,
      gt_iff_lt, lt_self_iff_false, if_false, List.nil_append]
  refine ⟨?_, ?_, ?_⟩
  · rw [hsp]
    exact List.perm_insertionSort _ _
  · rw [hsp]
    exact hsp_scores_of_sorted ext hdesc (hsp_sorted_of_order ext hasym htrans _)
  · simp only [Match.ctor, splice_frames_eq _ _ _ (List.nodup_range _), List.mem_range]

theorem match_ctor_hsp_sorted_witness :
    (Match.ctor Config.base
      ⟨fun a b => decide (a.score > b.score), fun l => l, fun m _ => m, fun _ m => m,
        fun _ _ _ => []⟩ 0 7 false
      (fun _ => [⟨40, ⟨2, 8⟩, ⟨0, 6⟩, 0⟩, ⟨55, ⟨1, 9⟩, ⟨0, 8⟩, 0⟩])).1.hsp.Pairwise
        (fun a b => a.score ≥ b.score) :=
  (match_ctor_hsp_sorted Config.base
      ⟨fun a b => decide (a.score > b.score), fun l => l, fun m _ => m, fun _ m => m,
        fun _ _ _ => []⟩ 0 7 false
      (fun _ => [⟨40, ⟨2, 8⟩, ⟨0, 6⟩, 0⟩, ⟨55, ⟨1, 9⟩, ⟨0, 8⟩, 0⟩]) rfl
      (fun a b h => by simpa using h)
      (fun a b h => by simp only [decide_eq_true_eq, decide_eq_false_iff_not] at h ⊢; omega)
      (fun a b c h1 h2 => by
        simp only [decide_eq_false_iff_not] at h1 h2 ⊢; omega)).2.1
theorem match_ctor_filter_score_eq (cfg : Config) (ext : Collaborators) (filter_score : Int)
    (target_block_id : Nat) (outranked : Bool) (hsps : Nat → List Hsp) :
    (Match.ctor cfg ext filter_score target_block_id outranked hsps).1.filter_score =
      match sort_hsps ext (concat_frames hsps (List.range cfg.query_contexts)) with
      | [] => filter_score
      | front :: _ => front.score := by
  simp only [Match.ctor, splice_frames_eq _ _ _ (List.nodup_range _), List.nil_append]

/-- C14. Match filter score: for every array of per-frame HSP lists with at least one
HSP in the frames below `query_contexts`, and every `Hsp::operator<` that is a strict
weak order putting a higher score first, the constructor sets `filter_score` to the
score of the head of the sorted list, which is the maximum score over all those
HSPs; the value is assigned before `max_hsp_culling` runs and is the same whatever
`max_hsps` and the culling do to the HSP list. -/
theorem match_ctor_filter_score (cfg : Config) (ext : Collaborators) (filter_score : Int)
    (target_block_id : Nat) (outranked : Bool) (hsps : Nat → List Hsp)
    (hne : concat_frames hsps (List.range cfg.query_contexts) ≠ [])
    (hdesc : ∀ a b : Hsp, a.score > b.score → ext.hsp_lt a b = true)
    (hasym : ∀ a b, ext.hsp_lt a b = true → ext.hsp_lt b a = false)
    (htrans : ∀ a b c, ext.hsp_lt b a = false → ext.hsp_lt c b = false →
      ext.hsp_lt c a = false) :
    (∃ front rest,
        sort_hsps ext (concat_frames hsps (List.range cfg.query_contexts)) = front :: rest ∧
        (Match.ctor cfg ext filter_score target_block_id outranked hsps).1.filter_score =
          front.score) ∧
      (∀ h ∈ concat_frames hsps (List.range cfg.query_contexts),
        h.score ≤ (Match.ctor cfg ext filter_score target_block_id outranked hsps).1.filter_score) ∧
      (∃ h ∈ concat_frames hsps (List.range cfg.query_contexts),
        h.score = (Match.ctor cfg ext filter_score target_block_id outranked hsps).1.filter_score) ∧
      (Match.ctor cfg ext filter_score target_block_id outranked hsps).1.filter_score =
        (Match.ctor { cfg with max_hsps := 0 } ext filter_score target_block_id outranked
          hsps).1.filter_score := by
  have hperm : (sort_hsps ext (concat_frames hsps (List.range cfg.query_contexts))).Perm
      (concat_frames hsps (List.range cfg.query_contexts)) := List.perm_insertionSort _ _
  have hsorted := hsp_scores_of_sorted ext hdesc
    (hsp_sorted_of_order ext hasym htrans (concat_frames hsps (List.range cfg.query_contexts)))
  have hfs := match_ctor_filter_score_eq cfg ext filter_score target_block_id outranked hsps
  have hfs0 := match_ctor_filter_score_eq { cfg with max_hsps := 0 } ext filter_score
    target_block_id outranked hsps
  cases hsort : sort_hsps ext (concat_frames hsps (List.range cfg.query_contexts)) with
  | nil =>
    rw [hsort] at hperm
    exact absurd hperm.symm.eq_nil hne
  | cons front rest =>
    rw [hsort] at hperm hsorted hfs
    simp only at hfs
    have hfs0b : (Match.ctor { cfg with max_hsps := 0 } ext filter_score target_block_id
        outranked hsps).1.filter_score = front.score := by
      rw [hfs0]
      have : sort_hsps ext (concat_frames hsps (List.range
          ({ cfg with max_hsps := 0 } : Config).query_contexts)) = front :: rest := hsort
      rw [this]
    refine ⟨⟨front, rest, rfl, hfs⟩, ?_, ?_, ?_⟩
    · intro h hh
      rw [hfs]
      have hmem : h ∈ front :: rest := hperm.symm.subset hh
      rcases List.mem_cons.mp hmem with h1 | h1
      · subst h1; exact le_rfl
      · exact (List.pairwise_cons.mp hsorted).1 h h1
    · exact ⟨front, hperm.subset (List.mem_cons_self _ _), hfs.symm⟩
    · rw [hfs, hfs0b]

theorem match_ctor_filter_score_witness :
    (Match.ctor { Config.base with max_hsps := 1 }
      ⟨fun a b => decide (a.score > b.score), fun l => l.take 1, fun m _ => m, fun _ m => m,
        fun _ _ _ => []⟩ 0 7 false
      (fun _ => [⟨40, ⟨2, 8⟩, ⟨0, 6⟩, 0⟩, ⟨55, ⟨1, 9⟩, ⟨0, 8⟩, 0⟩])).1.filter_score =
    (Match.ctor { Config.base with max_hsps := 0 }
      ⟨fun a b => decide (a.score > b.score), fun l => l.take 1, fun m _ => m, fun _ m => m,
        fun _ _ _ => []⟩ 0 7 false
      (fun _ => [⟨40, ⟨2, 8⟩, ⟨0, 6⟩, 0⟩, ⟨55, ⟨1, 9⟩, ⟨0, 8⟩, 0⟩])).1.filter_score :=
  (match_ctor_filter_score { Config.base with max_hsps := 1 }
      ⟨fun a b => decide (a.score > b.score), fun l => l.take 1, fun m _ => m, fun _ m => m,
        fun _ _ _ => []⟩ 0 7 false
      (fun _ => [⟨40, ⟨2, 8⟩, ⟨0, 6⟩, 0⟩, ⟨55, ⟨1, 9⟩, ⟨0, 8⟩, 0⟩])
      (by simp [concat_frames, Config.base])
      (fun a b h => by simpa using h)
      (fun a b h => by simp only [decide_eq_true_eq, decide_eq_false_iff_not] at h ⊢; omega)
      (fun a b c h1 h2 => by
        simp only [decide_eq_false_iff_not] at h1 h2 ⊢; omega)).2.2.2
/-! ## The diagonal chaining graph -/

theorem shift_links_map {β : Type} (F : Diagonal_node → β)
    (hF : ∀ (d : Diagonal_node) (v : Int), F { d with link_idx := v } = F d) :
    ∀ l : List Diagonal_node, (shift_links l).map F = l.map F := by
  intro l
  induction l with
  | nil => rfl
  | cons d rest ih =>
    simp only [shift_links]
    split_ifs with h
    · rfl
    · simp only [List.map_cons, ih, hF]

theorem shifted_nodes_map {β : Type} (F : Diagonal_node → β)
    (hF : ∀ (d : Diagonal_node) (v : Int), F { d with link_idx := v } = F d)
    (l : List Diagonal_node) (n : Nat) :
    (l.take n ++ shift_links (l.drop n)).map F = l.map F := by
  rw [List.map_append, shift_links_map F hF, ← List.map_append, List.take_append_drop]

theorem shifted_nodes_getElem? (l : List Diagonal_node) (n : Nat) :
    (l.take (n + 1) ++ shift_links (l.drop (n + 1)))[n]? = l[n]? := by
  by_cases h : n < l.length
  · rw [List.getElem?_append_left (by simp; omega)]
    rw [List.getElem?_take_of_lt (by omega)]
  · have h1 : l.take (n + 1) = l := List.take_of_length_le (by omega)
    have h2 : l.drop (n + 1) = [] := List.drop_eq_nil_iff.mpr (by omega)
    rw [h1, h2]
    simp [shift_links]

/-- C15. Prefix score monotonicity: for every `Diag_graph` state and every edge `e`
whose `node_in` is a node of the graph, after `add_edge(e)` the node
`nodes[e.node_in]` has `prefix_score = max(old prefix_score, e.prefix_score)`, which
is never lower than before; its `path_max` and `path_min` are `e.path_max` and
`e.path_min` exactly when `e.prefix_score > old prefix_score` and are unchanged
otherwise; its other fields apart from `link_idx` are unchanged; and for every other
node all fields apart from `link_idx` are unchanged. -/
theorem add_edge_prefix_score (g : Diag_graph) (e : Edge) (d : Diagonal_node)
    (hd : g.nodes[e.node_in]? = some d) :
    (∃ d1, (g.add_edge e).1.nodes[e.node_in]? = some d1 ∧
      d1.prefix_score = max d.prefix_score e.prefix_score ∧
      d.prefix_score ≤ d1.prefix_score ∧
      (if e.prefix_score > d.prefix_score then
        d1.path_max = e.path_max ∧ d1.path_min = e.path_min
       else d1.path_max = d.path_max ∧ d1.path_min = d.path_min) ∧
      d1.score = d.score ∧ d1.i = d.i ∧ d1.j = d.j ∧ d1.len = d.len) ∧
    (g.add_edge e).1.nodes.length = g.nodes.length ∧
    ∀ k, k ≠ e.node_in →
      ((g.add_edge e).1.nodes[k]?).map
          (fun n => (n.i, n.j, n.len, n.score, n.prefix_score, n.path_max, n.path_min)) =
        (g.nodes[k]?).map
          (fun n => (n.i, n.j, n.len, n.score, n.prefix_score, n.path_max, n.path_min)) := by
  have h1 := shifted_nodes_getElem? g.nodes e.node_in
  rw [hd] at h1
  have hlt : e.node_in < g.nodes.length := by
    by_contra hcon
    rw [List.getElem?_eq_none (by omega)] at hd
    cases hd
  have hmap := shifted_nodes_map
    (fun n => (n.i, n.j, n.len, n.score, n.prefix_score, n.path_max, n.path_min))
    (fun _ _ => rfl) g.nodes (e.node_in + 1)
  have hlen : (g.nodes.take (e.node_in + 1) ++ shift_links (g.nodes.drop (e.node_in + 1))).length =
      g.nodes.length := by
    have := congrArg List.length hmap
    simpa using this
  simp only [Diag_graph.add_edge, h1]
  have hset : ∀ d2 : Diagonal_node,
      ((g.nodes.take (e.node_in + 1) ++ shift_links (g.nodes.drop (e.node_in + 1))).set
        e.node_in d2)[e.node_in]? = some d2 := by
    intro d2
    rw [List.getElem?_set_self]
    rw [hlen]; exact hlt
  refine ⟨?_, ?_, ?_⟩
  · by_cases hgt : e.prefix_score > d.prefix_score
    · simp only [hgt, if_true]
      exact ⟨_, hset _, (max_eq_right (le_of_lt hgt)).symm, le_of_lt hgt, ⟨rfl, rfl⟩,
        rfl, rfl, rfl, rfl⟩
    · simp only [hgt, if_false]
      exact ⟨_, hset _, (max_eq_left (not_lt.mp hgt)).symm, le_rfl, ⟨rfl, rfl⟩,
        rfl, rfl, rfl, rfl⟩
  · simp only [List.length_set, hlen]
  · intro k hk
    rw [List.getElem?_set_ne (Ne.symm hk)]
    rw [← List.getElem?_map, hmap, List.getElem?_map]

theorem add_edge_prefix_score_witness :
    (((⟨[⟨0, 0, 5, 10, 0, 10, 10, 10⟩, ⟨7, 3, 4, 8, 0, 8, 8, 8⟩], []⟩ : Diag_graph).add_edge
        ⟨25, 25, 3, 8, 8, 0, 1⟩).1.nodes[1]?).map
          (fun n => (n.i, n.j, n.len, n.score, n.prefix_score, n.path_max, n.path_min)) =
      ((⟨[⟨0, 0, 5, 10, 0, 10, 10, 10⟩, ⟨7, 3, 4, 8, 0, 8, 8, 8⟩], []⟩ : Diag_graph).nodes[1]?).map
          (fun n => (n.i, n.j, n.len, n.score, n.prefix_score, n.path_max, n.path_min)) :=
  (add_edge_prefix_score ⟨[⟨0, 0, 5, 10, 0, 10, 10, 10⟩, ⟨7, 3, 4, 8, 0, 8, 8, 8⟩], []⟩
    ⟨25, 25, 3, 8, 8, 0, 1⟩ ⟨0, 0, 5, 10, 0, 10, 10, 10⟩ rfl).2.2 1 (by decide)
/-- C16. Edge-overflow guard: `Diag_graph::init(node)` throws, with the message
"Too many edges.", if and only if the current number of edges is at least
`2^31 - 1`, and then leaves the graph unchanged; otherwise it returns, leaves the
edges and the number of nodes unchanged, sets `nodes[node].link_idx` to the current
edge count (a value in `[0, 2^31 - 2]`, so the conversion to `int` does not wrap) and
changes no other field and no other node. -/
theorem init_node_guard (g : Diag_graph) (node : Nat) :
    ((g.init_node node).2 = Except.error "Too many edges." ↔ g.edges.length ≥ 2147483647) ∧
    ((g.init_node node).2 = Except.ok () ↔ g.edges.length < 2147483647) ∧
    (if g.edges.length ≥ 2147483647 then (g.init_node node).1 = g
     else
      (g.init_node node).1.edges = g.edges ∧
      (g.init_node node).1.nodes.length = g.nodes.length ∧
      (g.init_node node).1.nodes[node]? =
        (g.nodes[node]?).map (fun d => { d with link_idx := (g.edges.length : Int) }) ∧
      (0 : Int) ≤ (g.edges.length : Int) ∧ (g.edges.length : Int) ≤ 2147483646 ∧
      ∀ k, k ≠ node → (g.init_node node).1.nodes[k]? = g.nodes[k]?) := by
  by_cases h : g.edges.length ≥ 2147483647
  · have hres : g.init_node node = (g, Except.error "Too many edges.") := by
      simp only [Diag_graph.init_node, h, if_true]
    rw [hres, if_pos h]
    refine ⟨⟨fun _ => h, fun _ => rfl⟩, ⟨fun hcon => ?_, fun hcon => ?_⟩, rfl⟩
    · cases hcon
    · omega
  · have hlt : g.edges.length < 2147483647 := by omega
    have hto : to_int g.edges.length = (g.edges.length : Int) := to_int_of_lt _ (by omega)
    rw [if_neg h]
    cases hn : g.nodes[node]? with
    | none =>
      have hres : g.init_node node = (g, Except.ok ()) := by
        simp only [Diag_graph.init_node, h, if_false, hn]
      rw [hres]
      refine ⟨⟨fun hcon => ?_, fun hcon => ?_⟩, ⟨fun _ => hlt, fun _ => rfl⟩, rfl, rfl, ?_,
        by omega, by omega, fun _ _ => rfl⟩
      · cases hcon
      · omega
      · simp [hn]
    | some d =>
      have hlen : node < g.nodes.length := by
        by_contra hcon
        rw [List.getElem?_eq_none (by omega)] at hn
        cases hn
      have hres : g.init_node node =
          ({ g with nodes := g.nodes.set node { d with link_idx := (g.edges.length : Int) } },
            Except.ok ()) := by
        simp only [Diag_graph.init_node, h, if_false, hn, hto]
      rw [hres]
      refine ⟨⟨fun hcon => ?_, fun hcon => ?_⟩, ⟨fun _ => hlt, fun _ => rfl⟩, rfl, ?_, ?_,
        by omega, by omega, ?_⟩
      · cases hcon
      · omega
      · simp
      · simp only [Option.map_some']
        rw [List.getElem?_set_self hlen]
      · intro k hk
        simp only
        rw [List.getElem?_set_ne (Ne.symm hk)]
/-! ## The score vector -/

theorem int16_of_range (u : Nat) : -32768 ≤ int16_of u ∧ int16_of u ≤ 32767 := by
  unfold int16_of
  split_ifs <;> omega

theorem saturate16_eq_clamp (s : Int) : saturate16 s = max (-32768) (min 32767 s) := by
  unfold saturate16
  split_ifs <;> omega

theorem int16_of_uint16_of (s : Int) (h1 : -32768 ≤ s) (h2 : s ≤ 32767) :
    int16_of (uint16_of s) = s := by
  unfold int16_of uint16_of
  split_ifs <;> omega

theorem int16_of_saturate16 (s : Int) :
    int16_of (uint16_of (saturate16 s)) = max (-32768) (min 32767 s) := by
  rw [int16_of_uint16_of, saturate16_eq_clamp]
  · rw [saturate16_eq_clamp]; omega
  · rw [saturate16_eq_clamp]; omega

/-- C17. Saturating lane arithmetic: for all score vectors `a`, `b` and every lane
`i`, lane `i` of `a + b` is `clamp(a[i] + b[i], -32768, 32767)`, lane `i` of `a - b`
and of `a -= b` is `clamp(a[i] - b[i], -32768, 32767)`, and lane `i` of `++a` is
`clamp(a[i] + 1, -32768, 32767)`, the sums and differences taken over the integers;
every lane read is a value of `int16_t`. -/
theorem score_vector_saturating (a b : score_vector) (i : Nat) :
    (a.add b).get i = max (-32768) (min 32767 (a.get i + b.get i)) ∧
    (a.sub b).get i = max (-32768) (min 32767 (a.get i - b.get i)) ∧
    (a.sub_assign b).get i = max (-32768) (min 32767 (a.get i - b.get i)) ∧
    a.incr.get i = max (-32768) (min 32767 (a.get i + 1)) ∧
    (-32768 ≤ a.get i ∧ a.get i ≤ 32767) := by
  have h1 : int16_of (uint16_of 1) = 1 := int16_of_uint16_of 1 (by omega) (by omega)
  refine ⟨?_, ?_, ?_, ?_, int16_of_range _⟩
  · simp only [score_vector.add, score_vector.get, _mm_adds_epi16, int16_of_saturate16]
  · simp only [score_vector.sub, score_vector.get, _mm_subs_epi16, int16_of_saturate16]
  · simp only [score_vector.sub_assign, score_vector.get, _mm_subs_epi16, int16_of_saturate16]
  · simp only [score_vector.incr, score_vector.get, _mm_adds_epi16, _mm_set1_epi16,
      int16_of_saturate16, h1]

theorem and_255 (x : Nat) : x &&& 255 = x % 256 := by
  have := Nat.and_pow_two_sub_one_eq_mod x 8
  simpa using this

theorem or_shift16 (x y : Nat) (n : Nat) (hx : x < 2 ^ n) : x ||| (y <<< n) = 2 ^ n * y + x := by
  rw [Nat.shiftLeft_eq, Nat.or_comm, Nat.mul_comm, ← Nat.mul_add_lt_is_or hx]

theorem pack4_lane (r0 r1 r2 r3 : Nat) (h0 : r0 < 65536) (h1 : r1 < 65536) (h2 : r2 < 65536)
    (h3 : r3 < 65536) :
    ((((r0 ||| (r1 <<< 16)) ||| (r2 <<< (16 * 2))) ||| (r3 <<< (16 * 3))) >>> (16 * 0)) % 65536 = r0 ∧
    ((((r0 ||| (r1 <<< 16)) ||| (r2 <<< (16 * 2))) ||| (r3 <<< (16 * 3))) >>> (16 * 1)) % 65536 = r1 ∧
    ((((r0 ||| (r1 <<< 16)) ||| (r2 <<< (16 * 2))) ||| (r3 <<< (16 * 3))) >>> (16 * 2)) % 65536 = r2 ∧
    ((((r0 ||| (r1 <<< 16)) ||| (r2 <<< (16 * 2))) ||| (r3 <<< (16 * 3))) >>> (16 * 3)) % 65536 = r3 := by
  have e1 : r0 ||| (r1 <<< 16) = 2 ^ 16 * r1 + r0 := or_shift16 r0 r1 16 (by norm_num; omega)
  have e2 : (2 ^ 16 * r1 + r0) ||| (r2 <<< (16 * 2)) = 2 ^ 32 * r2 + (2 ^ 16 * r1 + r0) :=
    or_shift16 _ r2 32 (by norm_num; omega)
  have e3 : (2 ^ 32 * r2 + (2 ^ 16 * r1 + r0)) ||| (r3 <<< (16 * 3)) =
      2 ^ 48 * r3 + (2 ^ 32 * r2 + (2 ^ 16 * r1 + r0)) :=
    or_shift16 _ r3 48 (by norm_num; omega)
  rw [e1, e2, e3]
  simp only [Nat.shiftRight_eq_div_pow]
  norm_num
  refine ⟨?_, ?_, ?_, ?_⟩ <;> omega
theorem row_index (a : Nat) (ha : a < 134217728) : to_uint32 (a <<< 5) = 32 * a := by
  unfold to_uint32
  rw [Nat.shiftLeft_eq]
  omega

theorem byte_of_seq (seq : Nat) :
    (seq &&& 0xff = (seq >>> (8 * 0)) &&& 0xff) ∧
    ((seq >>> 8) &&& 0xff = (seq >>> (8 * 1)) &&& 0xff) ∧
    ((seq >>> 8 >>> 8) &&& 0xff = (seq >>> (8 * 2)) &&& 0xff) ∧
    ((seq >>> 8 >>> 8 >>> 8) &&& 0xff = (seq >>> (8 * 3)) &&& 0xff) ∧
    ((seq >>> 8 >>> 8 >>> 8 >>> 8) &&& 0xff = (seq >>> (8 * 4)) &&& 0xff) ∧
    ((seq >>> 8 >>> 8 >>> 8 >>> 8 >>> 8) &&& 0xff = (seq >>> (8 * 5)) &&& 0xff) ∧
    ((seq >>> 8 >>> 8 >>> 8 >>> 8 >>> 8 >>> 8) &&& 0xff = (seq >>> (8 * 6)) &&& 0xff) ∧
    ((seq >>> 8 >>> 8 >>> 8 >>> 8 >>> 8 >>> 8 >>> 8) &&& 0xff = (seq >>> (8 * 7)) &&& 0xff) := by
  simp only [← Nat.shiftRight_add]
  norm_num

/-- C18. Construction from packed residues: for every matrix row index `a` (below
`2^27`, so that `a << 5` does not wrap) and every word `seq`, lane `k < 8` of
`score_vector<int16_t>(a, seq)` is the 16-bit table entry
`matrix16[32*a + ((seq >> 8k) & 0xff)]`: the entry for the residue in byte `k`, with
no bits of a neighbouring lane. -/
theorem of_seq_lane (matrix16 : Nat → Nat) (a seq k : Nat) (hk : k < 8)
    (ha : a < 134217728) :
    (score_vector.of_seq matrix16 a seq).data_ k =
      matrix16 (32 * a + ((seq >>> (8 * k)) &&& 0xff)) % 65536 := by
  obtain ⟨b0, b1, b2, b3, b4, b5, b6, b7⟩ := byte_of_seq seq
  have hlt : ∀ idx, matrix16 (32 * a + idx) % 65536 < 65536 := fun idx => Nat.mod_lt _ (by omega)
  simp only [score_vector.of_seq, row_index a ha, _mm_set_epi64x]
  have hb := pack4_lane (matrix16 (32 * a + (seq &&& 0xff)) % 65536)
    (matrix16 (32 * a + ((seq >>> 8) &&& 0xff)) % 65536)
    (matrix16 (32 * a + ((seq >>> 8 >>> 8) &&& 0xff)) % 65536)
    (matrix16 (32 * a + ((seq >>> 8 >>> 8 >>> 8) &&& 0xff)) % 65536)
    (hlt _) (hlt _) (hlt _) (hlt _)
  have hc := pack4_lane (matrix16 (32 * a + ((seq >>> 8 >>> 8 >>> 8 >>> 8) &&& 0xff)) % 65536)
    (matrix16 (32 * a + ((seq >>> 8 >>> 8 >>> 8 >>> 8 >>> 8) &&& 0xff)) % 65536)
    (matrix16 (32 * a + ((seq >>> 8 >>> 8 >>> 8 >>> 8 >>> 8 >>> 8) &&& 0xff)) % 65536)
    (matrix16 (32 * a + ((seq >>> 8 >>> 8 >>> 8 >>> 8 >>> 8 >>> 8 >>> 8) &&& 0xff)) % 65536)
    (hlt _) (hlt _) (hlt _) (hlt _)
  interval_cases k
  · rw [if_pos (by omega), hb.1, b0]
  · rw [if_pos (by omega), hb.2.1, b1]
  · rw [if_pos (by omega), hb.2.2.1, b2]
  · rw [if_pos (by omega), hb.2.2.2, b3]
  · rw [if_neg (by omega), show 4 - 4 = 0 from rfl, hc.1, b4]
  · rw [if_neg (by omega), show 5 - 4 = 1 from rfl, hc.2.1, b5]
  · rw [if_neg (by omega), show 6 - 4 = 2 from rfl, hc.2.2.1, b6]
  · rw [if_neg (by omega), show 7 - 4 = 3 from rfl, hc.2.2.2, b7]

theorem of_seq_lane_witness :
    (score_vector.of_seq (fun idx => idx + 65000) 2 0x0807060504030201).data_ 3 =
      (fun idx => idx + 65000) (32 * 2 + ((0x0807060504030201 >>> (8 * 3)) &&& 0xff)) % 65536 :=
  of_seq_lane (fun idx => idx + 65000) 2 0x0807060504030201 3 (by decide) (by decide)
/-! ## The target multiplexer -/

theorem foldl_set_getElem? {β : Type} (f : Nat → β) :
    ∀ (l : List Nat) (s : List β) (c : Nat),
      (l.foldl (fun s channel => s.set channel (f channel)) s)[c]? =
        if c ∈ l then (if c < s.length then some (f c) else none) else s[c]? := by
  intro l
  induction l with
  | nil => intro s c; simp
  | cons a rest ih =>
    intro s c
    rw [List.foldl_cons, ih]
    by_cases hc : c ∈ rest
    · simp [hc]
    · by_cases hca : c = a
      · subst hca
        simp only [hc, if_false, List.mem_cons, true_or, if_true]
        by_cases hlt : c < s.length
        · rw [List.getElem?_set_self hlt, if_pos hlt]
        · rw [if_neg hlt, List.getElem?_eq_none (by simp; omega)]
      · have : c ∉ a :: rest := by
          intro h
          rcases List.mem_cons.mp h with h | h
          · exact hca h
          · exact hc h
        simp only [hc, this, if_false]
        rw [List.getElem?_set_ne (Ne.symm hca)]

theorem foldl_set_length {β : Type} (f : Nat → β) :
    ∀ (l : List Nat) (s : List β),
      (l.foldl (fun s channel => s.set channel (f channel)) s).length = s.length := by
  intro l
  induction l with
  | nil => intro s; rfl
  | cons a rest ih => intro s; rw [List.foldl_cons, ih, List.length_set]

/-- C19. Sentinel masking in the multiplexer: for every `TargetIterator<_n>` state,
the array loaded by the SIMD `get()` has `_n` lanes; a lane that is not in the active
set, and an active lane whose position is negative, holds `SUPER_HARD_MASK`; an
active lane `c` with `pos[c] >= 0` holds the residue `seq[pos[c]]` of the target
`subject_begin[target[c]]` assigned to it. -/
theorem get_lanes (_n SUPER_HARD_MASK : Nat) (it : TargetIterator) (c : Nat) :
    (TargetIterator.get _n SUPER_HARD_MASK it).length = _n ∧
    (TargetIterator.get _n SUPER_HARD_MASK it)[c]? =
      if c < _n then
        some (if c ∈ it.active ∧ it.pos c ≥ 0 then
          (match it.subject_begin[(it.target c).toNat]? with
            | some t => t.seq.getD (it.pos c).toNat 0
            | none => 0)
          else SUPER_HARD_MASK)
      else none := by
  unfold TargetIterator.get
  constructor
  · rw [foldl_set_length, List.length_replicate]
  · rw [foldl_set_getElem?]
    simp only [List.length_replicate, TargetIterator.letter]
    by_cases hlt : c < _n
    · by_cases hact : c ∈ it.active
      · by_cases hpos : it.pos c ≥ 0
        · simp [hlt, hact, hpos]
        · simp [hlt, hact, hpos]
      · simp [hlt, hact, List.getElem?_replicate]
    · by_cases hact : c ∈ it.active
      · simp [hlt, hact]
      · simp [hlt, hact, List.getElem?_replicate]
theorem ctor_loop_spec (_n : Nat) (i1 qlen : Int) (d_begin : Nat → Int) :
    ∀ (fuel : Nat) (it : TargetIterator) (m : Nat), it.next = (m : Int) →
      it.n_targets = (it.subject_begin.length : Int) →
      (TargetIterator.ctor_loop _n i1 qlen d_begin fuel it).next =
          ((max m (min (m + fuel) (min _n it.subject_begin.length)) : Nat) : Int) ∧
        (TargetIterator.ctor_loop _n i1 qlen d_begin fuel it).n_targets = it.n_targets ∧
        (TargetIterator.ctor_loop _n i1 qlen d_begin fuel it).subject_begin = it.subject_begin ∧
        (TargetIterator.ctor_loop _n i1 qlen d_begin fuel it).active =
          it.active ++ List.range' m (max m (min (m + fuel) (min _n it.subject_begin.length)) - m) ∧
        ∀ c, (TargetIterator.ctor_loop _n i1 qlen d_begin fuel it).target c =
          if m ≤ c ∧ c < max m (min (m + fuel) (min _n it.subject_begin.length)) then (c : Int)
          else it.target c := by
  intro fuel
  induction fuel with
  | zero =>
    intro it m hm hn
    have hmax : max m (min (m + 0) (min _n it.subject_begin.length)) = m := by omega
    have heq : TargetIterator.ctor_loop _n i1 qlen d_begin 0 it = it := rfl
    rw [heq, hmax]
    refine ⟨hm, rfl, rfl, by simp, ?_⟩
    intro c
    rw [if_neg (by omega)]
  | succ fuel ih =>
    intro it m hm hn
    simp only [TargetIterator.ctor_loop]
    by_cases hlt : it.next < min (_n : Int) it.n_targets
    · have hm2 : m < min _n it.subject_begin.length := by
        rw [hm, hn] at hlt
        omega
      have hnext : it.next.toNat = m := by rw [hm]; simp
      obtain ⟨t, hget⟩ : ∃ t, it.subject_begin[it.next.toNat]? = some t := by
        rw [hnext]
        exact ⟨_, List.getElem?_eq_getElem (by omega)⟩
      rw [if_pos hlt, hget]
      simp only
      have hmax : max (m + 1) (min (m + 1 + fuel) (min _n it.subject_begin.length)) =
          max m (min (m + (fuel + 1)) (min _n it.subject_begin.length)) := by omega
      obtain ⟨h1, h2, h3, h4, h5⟩ := ih
        { it with
          pos := Function.update it.pos it.next.toNat (i1 - (t.d_end - 1))
          cols := max it.cols
            (min (qlen - 1 - d_begin it.next.toNat) (last_index t.seq) + 1 -
              Function.update it.pos it.next.toNat (i1 - (t.d_end - 1)) it.next.toNat)
          target := Function.update it.target it.next.toNat it.next
          active := it.active ++ [it.next.toNat]
          next := it.next + 1 }
        (m + 1) (by simp [hm]) hn
      simp only [hmax] at h1 h2 h3 h4 h5
      refine ⟨h1, h2, h3, ?_, ?_⟩
      · rw [h4, hnext, List.append_assoc]
        congr 1
        have : max m (min (m + (fuel + 1)) (min _n it.subject_begin.length)) - m =
            (max m (min (m + (fuel + 1)) (min _n it.subject_begin.length)) - (m + 1)) + 1 := by
          omega
        rw [this, List.range'_succ]
        rfl
      · intro c
        rw [h5 c, hnext]
        by_cases hc : c = m
        · subst hc
          rw [if_neg (by omega), if_pos (by omega)]
          simp [hm]
        · rw [Function.update_noteq hc]
          by_cases hc2 : m + 1 ≤ c ∧
              c < max m (min (m + (fuel + 1)) (min _n it.subject_begin.length))
          · rw [if_pos hc2, if_pos (by omega)]
          · rw [if_neg hc2, if_neg (by omega)]
    · have hm2 : ¬ m < min _n it.subject_begin.length := by
        rw [hm, hn] at hlt
        omega
      have hmax : max m (min (m + (fuel + 1)) (min _n it.subject_begin.length)) = m := by omega
      rw [if_neg hlt, hmax]
      refine ⟨hm, rfl, rfl, by simp, ?_⟩
      intro c
      rw [if_neg (by omega)]
theorem run_init_targets_spec :
    ∀ (calls : List (Nat × Nat)) (it : TargetIterator) (m N : Nat), it.next = (m : Int) →
      it.n_targets = (N : Int) → m ≤ N →
      (run_init_targets calls it).1.next = ((m + (run_init_targets calls it).2.length : Nat) : Int) ∧
        m + (run_init_targets calls it).2.length ≤ N ∧
        (run_init_targets calls it).1.n_targets = (N : Int) ∧
        (run_init_targets calls it).2.map Prod.snd =
          List.map Int.ofNat (List.range' m (run_init_targets calls it).2.length) := by
  intro calls
  induction calls with
  | nil =>
    intro it m N hm hn hle
    simp [run_init_targets, hm, hn, hle]
  | cons call rest ih =>
    intro it m N hm hn hle
    obtain ⟨i, channel⟩ := call
    simp only [run_init_targets, TargetIterator.init_target]
    by_cases hlt : it.next < it.n_targets
    · have hmN : m + 1 ≤ N := by rw [hm, hn] at hlt; omega
      simp only [hlt, if_true]
      obtain ⟨h1, h2, h3, h4⟩ := ih
        { it with
          pos := Function.update it.pos channel 0
          target := Function.update it.target channel it.next
          next := it.next + 1 } (m + 1) N (by simp [hm]) hn hmN
      refine ⟨?_, ?_, h3, ?_⟩
      · rw [h1]; simp only [List.length_cons]; congr 1; omega
      · simp only [List.length_cons]; omega
      · simp only [List.length_cons, List.map_cons, List.range'_succ]
        rw [h4]
        congr 1
        simp only [Function.update_same, hm]
        rfl
    · simp only [hlt, if_false, Bool.false_eq_true]
      exact ih { it with active := it.active.eraseIdx i } m N hm hn hle

theorem ctor_spec (_n : Nat) (pos0 target0 : Nat → Int) (subject : List DpTarget)
    (i1 qlen : Int) (d_begin : Nat → Int) (hlen : subject.length < 2147483648) :
    (TargetIterator.ctor _n pos0 target0 subject i1 qlen d_begin).next =
        ((min _n subject.length : Nat) : Int) ∧
      (TargetIterator.ctor _n pos0 target0 subject i1 qlen d_begin).n_targets =
        (subject.length : Int) ∧
      (TargetIterator.ctor _n pos0 target0 subject i1 qlen d_begin).active =
        List.range (min _n subject.length) ∧
      (∀ c, c < min _n subject.length →
        (TargetIterator.ctor _n pos0 target0 subject i1 qlen d_begin).target c = (c : Int)) := by
  have hto : to_int subject.length = (subject.length : Int) := to_int_of_lt _ hlen
  have hctor := ctor_loop_spec _n i1 qlen d_begin _n
    { pos := pos0, target := target0, next := 0, n_targets := to_int subject.length, cols := 0,
      active := [], subject_begin := subject } 0
  obtain ⟨c1, c2, c3, c4, c5⟩ := hctor rfl hto
  have hmax : max 0 (min (0 + _n) (min _n subject.length)) = min _n subject.length := by omega
  simp only [hmax] at c1 c4 c5
  refine ⟨c1, ?_, ?_, ?_⟩
  · have : (TargetIterator.ctor _n pos0 target0 subject i1 qlen d_begin).n_targets =
        to_int subject.length := c2
    rw [this, hto]
  · have : (TargetIterator.ctor _n pos0 target0 subject i1 qlen d_begin).active =
        [] ++ List.range' 0 (min _n subject.length - 0) := c4
    rw [this, List.nil_append, Nat.sub_zero, List.range_eq_range']
  · intro c hc
    have : (TargetIterator.ctor _n pos0 target0 subject i1 qlen d_begin).target c =
        if 0 ≤ c ∧ c < min _n subject.length then (c : Int) else target0 c := c5 c
    rw [this, if_pos ⟨Nat.zero_le _, hc⟩]

/-- C20. Lane replacement discipline: for every `TargetIterator<_n>` built over a
list of `n_targets` targets (a count that fits an `int`) and every sequence of
`init_target` calls after construction: the constructor assigns the targets
`0, ..., min(_n, n_targets) - 1` to the channels of the same index and makes them the
active set; the calls that return true assign the following indices in ascending
order, one each, and `next` is the number of targets assigned so far and never
exceeds `n_targets`; a further call `init_target(i, channel)` returns true, sets
`pos[channel] = 0` and `target[channel] = next`, increments `next` and leaves the
active set and the other channels unchanged when `next < n_targets`, and otherwise
(exactly when `next = n_targets`) returns false, removes the entry at index `i` from
the active set and leaves `pos`, `target` and `next` unchanged. -/
theorem init_target_discipline (_n : Nat) (pos0 target0 : Nat → Int) (subject : List DpTarget)
    (i1 qlen : Int) (d_begin : Nat → Int) (calls : List (Nat × Nat)) (i channel : Nat)
    (hlen : subject.length < 2147483648) :
    (TargetIterator.ctor _n pos0 target0 subject i1 qlen d_begin).next =
        ((min _n subject.length : Nat) : Int) ∧
      (TargetIterator.ctor _n pos0 target0 subject i1 qlen d_begin).n_targets =
        (subject.length : Int) ∧
      (TargetIterator.ctor _n pos0 target0 subject i1 qlen d_begin).active =
        List.range (min _n subject.length) ∧
      (∀ c, c < min _n subject.length →
        (TargetIterator.ctor _n pos0 target0 subject i1 qlen d_begin).target c = (c : Int)) ∧
      (run_init_targets calls
          (TargetIterator.ctor _n pos0 target0 subject i1 qlen d_begin)).2.map Prod.snd =
        List.map Int.ofNat (List.range' (min _n subject.length)
          (run_init_targets calls
            (TargetIterator.ctor _n pos0 target0 subject i1 qlen d_begin)).2.length) ∧
      (run_init_targets calls
          (TargetIterator.ctor _n pos0 target0 subject i1 qlen d_begin)).1.next =
        ((min _n subject.length + (run_init_targets calls
          (TargetIterator.ctor _n pos0 target0 subject i1 qlen d_begin)).2.length : Nat) : Int) ∧
      (run_init_targets calls
          (TargetIterator.ctor _n pos0 target0 subject i1 qlen d_begin)).1.next ≤
        (run_init_targets calls
          (TargetIterator.ctor _n pos0 target0 subject i1 qlen d_begin)).1.n_targets ∧
      (if (run_init_targets calls
            (TargetIterator.ctor _n pos0 target0 subject i1 qlen d_begin)).1.next <
          (run_init_targets calls
            (TargetIterator.ctor _n pos0 target0 subject i1 qlen d_begin)).1.n_targets then
        TargetIterator.init_target (run_init_targets calls
            (TargetIterator.ctor _n pos0 target0 subject i1 qlen d_begin)).1 i channel =
          ({ (run_init_targets calls
                (TargetIterator.ctor _n pos0 target0 subject i1 qlen d_begin)).1 with
              pos := Function.update (run_init_targets calls
                (TargetIterator.ctor _n pos0 target0 subject i1 qlen d_begin)).1.pos channel 0
              target := Function.update (run_init_targets calls
                (TargetIterator.ctor _n pos0 target0 subject i1 qlen d_begin)).1.target channel
                (run_init_targets calls
                  (TargetIterator.ctor _n pos0 target0 subject i1 qlen d_begin)).1.next
              next := (run_init_targets calls
                (TargetIterator.ctor _n pos0 target0 subject i1 qlen d_begin)).1.next + 1 }, true)
       else
        (run_init_targets calls
            (TargetIterator.ctor _n pos0 target0 subject i1 qlen d_begin)).1.next =
          (run_init_targets calls
            (TargetIterator.ctor _n pos0 target0 subject i1 qlen d_begin)).1.n_targets ∧
        TargetIterator.init_target (run_init_targets calls
            (TargetIterator.ctor _n pos0 target0 subject i1 qlen d_begin)).1 i channel =
          ({ (run_init_targets calls
                (TargetIterator.ctor _n pos0 target0 subject i1 qlen d_begin)).1 with
              active := (run_init_targets calls
                (TargetIterator.ctor _n pos0 target0 subject i1 qlen d_begin)).1.active.eraseIdx i },
            false)) := by
  obtain ⟨hnext, hn, hact, htgt⟩ := ctor_spec _n pos0 target0 subject i1 qlen d_begin hlen
  obtain ⟨r1, r2, r3, r4⟩ := run_init_targets_spec calls
    (TargetIterator.ctor _n pos0 target0 subject i1 qlen d_begin) (min _n subject.length)
    subject.length hnext hn (by omega)
  refine ⟨hnext, hn, hact, htgt, r4, r1, ?_, ?_⟩
  · rw [r1, r3]
    exact_mod_cast r2
  · by_cases hlt : (run_init_targets calls
        (TargetIterator.ctor _n pos0 target0 subject i1 qlen d_begin)).1.next <
        (run_init_targets calls
          (TargetIterator.ctor _n pos0 target0 subject i1 qlen d_begin)).1.n_targets
    · rw [if_pos hlt]
      simp only [TargetIterator.init_target, hlt, if_true]
    · rw [if_neg hlt]
      constructor
      · rw [r1, r3] at hlt ⊢
        have : (min _n subject.length + (run_init_targets calls
          (TargetIterator.ctor _n pos0 target0 subject i1 qlen d_begin)).2.length : Nat) ≤
            subject.length := r2
        omega
      · simp only [TargetIterator.init_target, hlt, if_false]

theorem init_target_discipline_witness :
    (run_init_targets [(0, 0), (0, 1), (1, 0)]
        (TargetIterator.ctor 2 (fun _ => 0) (fun _ => 0)
          [⟨[1, 2], 0, 3, 0⟩, ⟨[3], 0, 2, 1⟩, ⟨[4, 5], -1, 2, 2⟩] 4 6 (fun _ => 0))).2.map
        Prod.snd =
      List.map Int.ofNat (List.range' (min 2 3)
        (run_init_targets [(0, 0), (0, 1), (1, 0)]
          (TargetIterator.ctor 2 (fun _ => 0) (fun _ => 0)
            [⟨[1, 2], 0, 3, 0⟩, ⟨[3], 0, 2, 1⟩, ⟨[4, 5], -1, 2, 2⟩] 4 6
            (fun _ => 0))).2.length) :=
  (init_target_discipline 2 (fun _ => 0) (fun _ => 0)
    [⟨[1, 2], 0, 3, 0⟩, ⟨[3], 0, 2, 1⟩, ⟨[4, 5], -1, 2, 2⟩] 4 6 (fun _ => 0)
    [(0, 0), (0, 1), (1, 0)] 0 0 (by decide)).2.2.2.2.1
/-! ## The order on `TargetScore` -/

theorem TargetScore.lt_iff (a b : TargetScore) :
    a.lt b = true ↔ (a.score > b.score ∨ (a.score = b.score ∧ a.target < b.target)) := by
  simp [TargetScore.lt]

theorem TargetScore.lt_false_iff (a b : TargetScore) :
    a.lt b = false ↔ (a.score < b.score ∨ (a.score = b.score ∧ b.target ≤ a.target)) := by
  rw [← Bool.not_eq_true, TargetScore.lt_iff]
  omega

theorem TargetScore.eq_of_not_lt {a b : TargetScore} (h1 : a.lt b = false) (h2 : b.lt a = false) :
    a = b := by
  rw [TargetScore.lt_false_iff] at h1 h2
  cases a; cases b
  simp only [TargetScore.mk.injEq] at *
  omega

theorem sort_targets_sorted (ts : List TargetScore) :
    (sort_targets ts).Sorted (fun a b => TargetScore.lt b a = false) := by
  haveI : IsTotal TargetScore (fun a b => TargetScore.lt b a = false) :=
    ⟨fun a b => by
      simp only [TargetScore.lt_false_iff]
      omega⟩
  haveI : IsTrans TargetScore (fun a b => TargetScore.lt b a = false) :=
    ⟨fun a b c hab hbc => by
      simp only [TargetScore.lt_false_iff] at *
      omega⟩
  exact List.sorted_insertionSort _ ts

theorem sorted_targets_unique {s1 s2 : List TargetScore} (hp : s1.Perm s2)
    (h1 : s1.Sorted (fun a b => TargetScore.lt b a = false))
    (h2 : s2.Sorted (fun a b => TargetScore.lt b a = false)) : s1 = s2 := by
  haveI : IsAntisymm TargetScore (fun a b => TargetScore.lt b a = false) :=
    ⟨fun a b hab hba => TargetScore.eq_of_not_lt hba hab⟩
  exact List.eq_of_perm_of_sorted hp h1 h2

theorem sorted_targets_scores {s : List TargetScore}
    (h : s.Sorted (fun a b => TargetScore.lt b a = false)) :
    s.Pairwise (fun a b => a.score ≥ b.score) := by
  refine List.Pairwise.imp ?_ h
  intro a b hab
  rw [TargetScore.lt_false_iff] at hab
  omega

/-- C3. TargetScore ordering: `TargetScore::operator<` orders by descending score
and, among equal scores, by ascending target index; it is irreflexive and transitive,
and of any two distinct entries (in particular any two entries with distinct target
indices) exactly one is less than the other. Consequently a list arranged so that no
entry is less than an earlier one is determined by its multiset of entries: any two
sorted arrangements of the same entries are equal, both equal the result of
`sort_targets`, and their scores are non-increasing. -/
theorem target_score_order :
    (∀ a b : TargetScore, a.lt b = true ↔
      (a.score > b.score ∨ (a.score = b.score ∧ a.target < b.target))) ∧
    (∀ a : TargetScore, a.lt a = false) ∧
    (∀ a b c : TargetScore, a.lt b = true → b.lt c = true → a.lt c = true) ∧
    (∀ a b : TargetScore, a ≠ b →
      (a.lt b = true ∧ b.lt a = false) ∨ (a.lt b = false ∧ b.lt a = true)) ∧
    (∀ a b : TargetScore, a.target ≠ b.target →
      (a.lt b = true ∧ b.lt a = false) ∨ (a.lt b = false ∧ b.lt a = true)) ∧
    (∀ l s1 s2 : List TargetScore, s1.Perm l → s2.Perm l →
      s1.Sorted (fun a b => TargetScore.lt b a = false) →
      s2.Sorted (fun a b => TargetScore.lt b a = false) →
      s1 = s2 ∧ s1 = sort_targets l ∧ s1.Pairwise (fun a b => a.score ≥ b.score)) ∧
    (∀ l : List TargetScore, (sort_targets l).Perm l ∧
      (sort_targets l).Sorted (fun a b => TargetScore.lt b a = false)) := by
  have htri : ∀ a b : TargetScore, a ≠ b →
      (a.lt b = true ∧ b.lt a = false) ∨ (a.lt b = false ∧ b.lt a = true) := by
    intro a b hne
    cases hab : a.lt b
    · cases hba : b.lt a
      · exact absurd (TargetScore.eq_of_not_lt hab hba) hne
      · exact Or.inr ⟨rfl, rfl⟩
    · refine Or.inl ⟨rfl, ?_⟩
      rw [TargetScore.lt_iff] at hab
      rw [TargetScore.lt_false_iff]
      omega
  refine ⟨TargetScore.lt_iff, ?_, ?_, htri, ?_, ?_, ?_⟩
  · intro a
    rw [TargetScore.lt_false_iff]
    omega
  · intro a b c hab hbc
    rw [TargetScore.lt_iff] at *
    omega
  · intro a b hne
    exact htri a b (fun h => hne (by rw [h]))
  · intro l s1 s2 hp1 hp2 hs1 hs2
    refine ⟨sorted_targets_unique (hp1.trans hp2.symm) hs1 hs2, ?_, sorted_targets_scores hs1⟩
    exact sorted_targets_unique (hp1.trans (List.perm_insertionSort _ l).symm) hs1
      (sort_targets_sorted l)
  · intro l
    exact ⟨List.perm_insertionSort _ l, sort_targets_sorted l⟩
/-! ## `load_hits`: groups and scores -/

theorem hits_of_target_append (limits : List Nat) (P : List hit) (h : hit) (t : Nat) :
    hits_of_target limits (P ++ [h]) t =
      if (local_position limits h.subject_).1 = t then hits_of_target limits P t ++ [h]
      else hits_of_target limits P t := by
  unfold hits_of_target
  rw [List.filter_append]
  by_cases ht : (local_position limits h.subject_).1 = t
  · simp [ht]
  · simp [ht]

theorem hits_of_target_eq_nil (limits : List Nat) (P : List hit) (t : Nat)
    (h : ∀ x ∈ P, (local_position limits x.subject_).1 ≠ t) : hits_of_target limits P t = [] := by
  unfold hits_of_target
  rw [List.filter_eq_nil_iff]
  intro x hx
  simpa using h x hx

theorem max_score_append (l : List hit) (h : hit) :
    max_score (l ++ [h]) = max (max_score l) h.score_ := by
  unfold max_score
  induction l with
  | nil => simp [max_comm]
  | cons a l ih =>
    simp only [List.cons_append, List.foldr_cons, ih]
    omega

theorem max_score_spec (l : List hit) (hne : l ≠ []) :
    (∀ h ∈ l, h.score_ ≤ max_score l) ∧ ∃ h ∈ l, h.score_ = max_score l := by
  induction l with
  | nil => exact absurd rfl hne
  | cons a l ih =>
    have hcons : max_score (a :: l) = max a.score_ (max_score l) := rfl
    by_cases hl : l = []
    · subst hl
      have : max_score ([] : List hit) = 0 := rfl
      rw [hcons, this]
      refine ⟨?_, a, List.mem_cons_self _ _, ?_⟩
      · intro h hh
        rcases List.mem_cons.mp hh with h1 | h1
        · subst h1; omega
        · cases h1
      · omega
    · obtain ⟨h1, x, hx, hxe⟩ := ih hl
      rw [hcons]
      refine ⟨?_, ?_⟩
      · intro h hh
        rcases List.mem_cons.mp hh with h2 | h2
        · subst h2; omega
        · have := h1 h h2
          omega
      · by_cases hle : max_score l ≤ a.score_
        · exact ⟨a, List.mem_cons_self _ _, by omega⟩
        · exact ⟨x, List.mem_cons_of_mem _ hx, by omega⟩

theorem push_back_concat {α : Type} (a : FlatArray α) (g : List α) (x : α) :
    FlatArray.push_back (a ++ [g]) x = a ++ [g ++ [x]] := by
  unfold FlatArray.push_back
  rw [List.getLast?_append, List.dropLast_concat]
  rfl

theorem strict_sorted_length (l : List Nat) :
    ∀ lo y : Nat, l.Sorted (· < ·) → (∀ x ∈ l, lo ≤ x ∧ x ≤ y) → l ≠ [] →
      lo + l.length ≤ y + 1 := by
  induction l with
  | nil => intro lo y _ _ hne; exact absurd rfl hne
  | cons a l ih =>
    intro lo y hs hb _
    have ha := hb a (List.mem_cons_self _ _)
    have hs2 := List.sorted_cons.mp hs
    by_cases hl : l = []
    · subst hl
      simp only [List.length_singleton]
      omega
    · have := ih (a + 1) y hs2.2
        (fun x hx => ⟨hs2.1 x hx, (hb x (List.mem_cons_of_mem _ hx)).2⟩) hl
      simp only [List.length_cons]
      omega

theorem sorted_concat_length {ids : List Nat} {T : Nat} (hs : (ids ++ [T]).Sorted (· < ·)) :
    ids.length ≤ T := by
  have hlt : ∀ a ∈ ids, a < T := by
    intro a ha
    exact (List.pairwise_append.mp hs).2.2 a ha T (List.mem_singleton_self _)
  have := strict_sorted_length (ids ++ [T]) 0 T hs
    (fun x hx => by
      rcases List.mem_append.mp hx with h | h
      · exact ⟨Nat.zero_le _, le_of_lt (hlt x h)⟩
      · rw [List.mem_singleton.mp h]; exact ⟨Nat.zero_le _, le_rfl⟩)
    (by simp)
  simp only [List.length_append, List.length_singleton] at this
  omega

theorem size_pred_uint32_succ (n : Nat) (h : n < 4294967296) : size_pred_uint32 (n + 1) = n := by
  unfold size_pred_uint32 to_uint32
  rw [if_neg (by omega)]
  simp only [Nat.add_sub_cancel]
  omega

theorem to_uint32_of_lt (n : Nat) (h : n < 4294967296) : to_uint32 n = n := by
  unfold to_uint32
  omega
theorem open_group_same (st : LoadState) (t : Nat) (h : t = st.target) : open_group st t = st := by
  unfold open_group
  rw [if_neg (by simpa using h)]

theorem open_group_first (st : LoadState) (t : Nat) (h1 : t ≠ st.target)
    (h2 : st.target = UINT32_MAX) :
    open_group st t =
      { st with hits := st.hits ++ [[]], target := t,
                target_block_ids := st.target_block_ids ++ [t] } := by
  unfold open_group
  rw [if_pos h1]
  simp only [h2, ne_eq, not_true_eq_false, if_false, FlatArray.next]

theorem open_group_next (st : LoadState) (t : Nat) (h1 : t ≠ st.target)
    (h2 : st.target ≠ UINT32_MAX) :
    open_group st t =
      { hits := st.hits ++ [[]], target_block_ids := st.target_block_ids ++ [t],
        target_scores := st.target_scores ++
          [⟨size_pred_uint32 st.target_block_ids.length, st.score⟩],
        target := t, score := 0 } := by
  unfold open_group
  rw [if_pos h1]
  simp only [h2, ne_eq, not_false_eq_true, if_true, FlatArray.next]

theorem load_step_inv (cfg : Config) (limits : List Nat) (P : List hit) (st : LoadState)
    (h : hit) (hinv : LoadInv cfg limits P st)
    (hmono : ∀ x ∈ P, (local_position limits x.subject_).1 ≤ (local_position limits h.subject_).1)
    (hsmall : (local_position limits h.subject_).1 < 4294967295) :
    LoadInv cfg limits (P ++ [h])
      (push_hit cfg (open_group st (to_uint32 (local_position limits h.subject_).1)) h
        (to_int (local_position limits h.subject_).2)) := by
  have ht32 : to_uint32 (local_position limits h.subject_).1 = (local_position limits h.subject_).1 :=
    to_uint32_of_lt _ (by omega)
  rw [ht32]
  have hseed : (⟨to_int h.seed_offset_, to_int (local_position limits h.subject_).2,
      h.query_ % cfg.query_contexts⟩ : SeedHit) = seed_of cfg limits h := rfl
  rcases hinv with ⟨hP, hst⟩ | ⟨ids, hids, hhits, htt, hts, hscore, hsorted, hle, hT, hne, hmem⟩
  · -- the first hit
    subst hP
    subst hst
    right
    refine ⟨[], ?_⟩
    have hne : (local_position limits h.subject_).1 ≠ LoadState.init.target := by
      simp only [LoadState.init, UINT32_MAX]; omega
    rw [open_group_first _ _ hne rfl]
    simp only [push_hit, LoadState.init, List.nil_append, hseed]
    refine ⟨trivial, ?_, rfl, rfl, ?_, ?_, ?_, ?_, ?_, ?_⟩
    · rw [show ([[]] : FlatArray SeedHit) = [] ++ [[]] from rfl, push_back_concat]
      simp [hits_of_target]
    · simp [hits_of_target, max_score]
    · simp
    · intro x hx
      rw [List.mem_singleton.mp hx]
    · simp only [UINT32_MAX]; omega
    · intro t ht
      rw [List.mem_singleton.mp ht]
      simp [hits_of_target]
    · intro x hx
      rw [List.mem_singleton.mp hx]
      exact List.mem_singleton_self _
  · by_cases hsame : (local_position limits h.subject_).1 = st.target
    · -- the hit continues the open group
      right
      refine ⟨ids, ?_⟩
      rw [open_group_same _ _ hsame]
      have hlt : ∀ a ∈ ids, a < st.target := fun a ha =>
        (List.pairwise_append.mp hsorted).2.2 a ha _ (List.mem_singleton_self _)
      have hold : ∀ a ∈ ids, hits_of_target limits (P ++ [h]) a = hits_of_target limits P a := by
        intro a ha
        rw [hits_of_target_append, if_neg]
        have := hlt a ha
        omega
      have hnew : hits_of_target limits (P ++ [h]) st.target =
          hits_of_target limits P st.target ++ [h] := by
        rw [hits_of_target_append, if_pos hsame]
      simp only [push_hit, hseed]
      refine ⟨hids, ?_, htt, ?_, ?_, hsorted, ?_, hT, ?_, ?_⟩
      · rw [hhits, List.map_append, List.map_append, List.map_singleton, List.map_singleton,
          push_back_concat, hnew, List.map_append, List.map_singleton]
        congr 1
        exact List.map_congr_left (fun a ha => by rw [hold a ha])
      · rw [hts]
        exact List.map_congr_left (fun a ha => by rw [hold a ha])
      · rw [hnew, max_score_append, hscore]
      · intro x hx
        rcases List.mem_append.mp hx with h1 | h1
        · exact hle x h1
        · rw [List.mem_singleton.mp h1, hsame]
      · intro t ht
        rcases List.mem_append.mp ht with h1 | h1
        · rw [hold t h1]
          exact hne t (List.mem_append_left _ h1)
        · rw [List.mem_singleton.mp h1, hnew]
          simp
      · intro x hx
        rcases List.mem_append.mp hx with h1 | h1
        · exact hmem x h1
        · rw [List.mem_singleton.mp h1, hsame]
          exact List.mem_append_right _ (List.mem_singleton_self _)
    · -- the hit opens a new group
      right
      refine ⟨ids ++ [st.target], ?_⟩
      obtain ⟨x0, hx0⟩ := List.exists_mem_of_ne_nil _
        (hne st.target (List.mem_append_right _ (List.mem_singleton_self _)))
      have hx0P : x0 ∈ P := (List.mem_filter.mp hx0).1
      have hx0t : (local_position limits x0.subject_).1 = st.target := by
        simpa using (List.mem_filter.mp hx0).2
      have hTlt : st.target < (local_position limits h.subject_).1 := by
        have := hmono x0 hx0P
        omega
      have hall : ∀ a ∈ ids ++ [st.target], a < (local_position limits h.subject_).1 := by
        intro a ha
        rcases List.mem_append.mp ha with h1 | h1
        · have := (List.pairwise_append.mp hsorted).2.2 a h1 _ (List.mem_singleton_self _)
          omega
        · rw [List.mem_singleton.mp h1]; exact hTlt
      have hold : ∀ a ∈ ids ++ [st.target],
          hits_of_target limits (P ++ [h]) a = hits_of_target limits P a := by
        intro a ha
        rw [hits_of_target_append, if_neg]
        have := hall a ha
        omega
      have hnew : hits_of_target limits (P ++ [h]) (local_position limits h.subject_).1 = [h] := by
        rw [hits_of_target_append, if_pos rfl, hits_of_target_eq_nil, List.nil_append]
        intro x hx
        have := hle x hx
        omega
      have hlen : ids.length ≤ st.target := sorted_concat_length hsorted
      rw [open_group_next _ _ hsame (by simp only [UINT32_MAX]; simp only [UINT32_MAX] at hT; omega)]
      simp only [push_hit, hseed]
      refine ⟨by rw [hids], ?_, ?_, ?_, ?_, ?_, ?_, ?_, ?_, ?_⟩
      · rw [push_back_concat, hhits, List.map_append _ (ids ++ [st.target]), List.map_singleton,
          hnew]
        congr 1
        exact List.map_congr_left (fun a ha => by rw [hold a ha])
      · rw [List.map_append, htt, List.map_singleton, hids, List.length_append,
          List.length_singleton]
        simp only [List.length_append, List.length_singleton]
        rw [size_pred_uint32_succ _ (by simp only [UINT32_MAX] at hT; omega), List.range_succ]
      · rw [List.map_append, hts, List.map_singleton, List.map_append, List.map_singleton, hscore,
          hold st.target (List.mem_append_right _ (List.mem_singleton_self _))]
        congr 1
        exact List.map_congr_left (fun a ha => by rw [hold a (List.mem_append_left _ ha)])
      · rw [hnew]
        simp [max_score]
      · rw [List.Sorted, List.pairwise_append]
        refine ⟨hsorted, List.pairwise_singleton _ _, ?_⟩
        intro a ha b hb
        rw [List.mem_singleton.mp hb]
        exact hall a ha
      · intro x hx
        rcases List.mem_append.mp hx with h1 | h1
        · exact hmono x h1
        · rw [List.mem_singleton.mp h1]
      · simp only [UINT32_MAX]; omega
      · intro t ht
        rcases List.mem_append.mp ht with h1 | h1
        · rw [hold t h1]
          exact hne t h1
        · rw [List.mem_singleton.mp h1, hnew]
          simp
      · intro x hx
        rcases List.mem_append.mp hx with h1 | h1
        · exact List.mem_append_left _ (hmem x h1)
        · rw [List.mem_singleton.mp h1]
          exact List.mem_append_right _ (List.mem_singleton_self _)
theorem upper_bound_mono {limits : List Nat} (hs : limits.Sorted (· ≤ ·)) {x y : Nat}
    (hxy : x ≤ y) : upper_bound limits x ≤ upper_bound limits y := by
  by_contra hcon
  have hx := upper_bound_cut hs x
  have hy := upper_bound_cut hs y
  have h1 := hx.2.1 (upper_bound limits y) (by omega)
  have h2 := hy.2.2 (upper_bound limits y) le_rfl (by have := hx.1; omega)
  omega

theorem local_position_mono {limits : List Nat} (hs : limits.Sorted (· ≤ ·)) {x y : Nat}
    (hxy : x ≤ y) : (local_position limits x).1 ≤ (local_position limits y).1 := by
  have := upper_bound_mono hs hxy
  simp only [local_position]
  omega

theorem load_loop_inv (cfg : Config) {limits : List Nat} (hlim : limits.Sorted (· ≤ ·))
    (hsize : limits.length ≤ 4294967296) :
    ∀ (hs P : List hit) (st : LoadState), LoadInv cfg limits P st →
      (P ++ hs).Sorted CmpSubject →
      (∀ h ∈ hs, limits.getD 0 0 ≤ h.subject_ ∧ h.subject_ < limits.getLastD 0) →
      LoadInv cfg limits (P ++ hs) (load_loop_binary cfg limits hs st) := by
  intro hs
  induction hs with
  | nil =>
    intro P st hinv _ _
    rw [List.append_nil]
    exact hinv
  | cons h rest ih =>
    intro P st hinv hsorted hcov
    have hx := hcov h (List.mem_cons_self _ _)
    have hspec := local_position_spec hlim hx.1 hx.2
    have hstep := load_step_inv cfg limits P st h hinv
      (fun x hxP => local_position_mono hlim
        ((List.pairwise_append.mp hsorted).2.2 x hxP h (List.mem_cons_self _ _)))
      (by have := hspec.1; omega)
    have hP : P ++ h :: rest = (P ++ [h]) ++ rest := by simp
    simp only [load_loop_binary]
    rw [hP]
    exact ih (P ++ [h]) _ hstep (by rw [← hP]; exact hsorted)
      (fun x hxr => hcov x (List.mem_cons_of_mem _ hxr))

theorem close_group_result (cfg : Config) (limits : List Nat) (s : List hit) (st : LoadState)
    (hinv : LoadInv cfg limits s st) : LoadResult cfg limits s (close_group st) := by
  rcases hinv with ⟨hP, hst⟩ | ⟨ids, hids, hhits, htt, hts, hscore, hsorted, hle, hT, hne, hmem⟩
  · subst hP
    subst hst
    refine ⟨?_, ?_, ?_, ?_, ?_, ?_⟩ <;> simp [close_group, LoadState.init]
  · have hlen : ids.length ≤ st.target := sorted_concat_length hsorted
    have hTne : st.target ≠ UINT32_MAX := by omega
    simp only [close_group, hTne, ne_eq, not_false_eq_true, if_true]
    refine ⟨by rw [hids]; exact hsorted, by rw [hhits, hids], ?_, ?_, by rw [hids]; exact hne,
      by rw [hids]; exact hmem⟩
    · rw [List.map_append, htt, List.map_singleton, hids, List.length_append,
        List.length_singleton]
      simp only
      rw [size_pred_uint32_succ _ (by simp only [UINT32_MAX] at hT; omega), List.range_succ]
    · rw [List.map_append, hts, List.map_singleton, hids, List.map_append, List.map_singleton,
        hscore]
theorem load_sorted_result (cfg : Config) (limits : List Nat) (binary : Bool) (s : List hit)
    (hsorted : s.Sorted CmpSubject) (hcov : Covered limits s)
    (hsize : limits.length ≤ 4294967296) :
    LoadResult cfg limits s (load_sorted cfg limits binary s) := by
  obtain ⟨hlim, hin⟩ := hcov
  have hbin : LoadResult cfg limits s
      (close_group (load_loop_binary cfg limits s LoadState.init)) := by
    apply close_group_result
    have := load_loop_inv cfg hlim hsize s [] LoadState.init (Or.inl ⟨rfl, rfl⟩)
      (by simpa using hsorted) hin
    simpa using this
  cases s with
  | nil =>
    refine ⟨?_, ?_, ?_, ?_, ?_, ?_⟩ <;> simp [load_sorted, LoadState.init]
  | cons a l =>
    cases binary with
    | true => simpa only [load_sorted, if_true] using hbin
    | false =>
      simp only [load_sorted, Bool.false_eq_true, if_false]
      rw [load_loop_linear_eq cfg hlim _ 0 _ hsorted hin (Nat.zero_le _)
        (fun i hi => absurd hi (Nat.not_lt_zero _))]
      exact hbin

theorem targets_match_of_result {cfg : Config} {limits : List Nat} {s : List hit}
    {st : LoadState} (h : LoadResult cfg limits s st) : TargetsMatchGroups st := by
  obtain ⟨_, hhits, htt, _, _, _⟩ := h
  have hlen : st.target_scores.length = st.target_block_ids.length := by
    have := congrArg List.length htt
    simpa using this
  refine ⟨hlen, ?_, by rw [hlen]; exact htt, ?_⟩
  · have := congrArg List.length hhits
    simpa using this
  · intro k hk
    have h1 : (st.target_scores.map (fun x => x.target))[k]? = some k := by
      rw [htt, List.getElem?_range (by omega)]
    rw [List.getElem?_map] at h1
    rw [List.getD_eq_getElem?_getD]
    cases hget : st.target_scores[k]? with
    | none => rw [hget] at h1; cases h1
    | some x =>
      rw [hget] at h1
      simpa using h1

theorem scores_max_of_result {cfg : Config} {limits : List Nat} {s : List hit}
    {st : LoadState} (h : LoadResult cfg limits s st) : ScoresAreGroupMaxima cfg limits s st := by
  have hm := targets_match_of_result h
  obtain ⟨_, hhits, htt, hts, hne, hall⟩ := h
  refine ⟨by rw [hm.1, hm.2.1], hm.2.1.symm, ?_, ?_⟩
  · intro hs hnil
    obtain ⟨x, hx⟩ := List.exists_mem_of_ne_nil s hs
    have hmem := hall x hx
    have hlen0 : st.target_block_ids.length = 0 := by
      rw [← hm.2.1, hnil]
      rfl
    rw [List.length_eq_zero.1 hlen0] at hmem
    exact List.not_mem_nil _ hmem
  intro k hk0
  have hk : k < st.target_scores.length := by rw [hm.1, ← hm.2.1]; exact hk0
  have hk2 : k < st.target_block_ids.length := by rw [← hm.1]; exact hk
  have hid : st.target_block_ids.getD k 0 = st.target_block_ids[k] :=
    List.getD_eq_getElem _ _ hk2
  have hmem : st.target_block_ids[k] ∈ st.target_block_ids := List.getElem_mem _
  have hscore : score_at st.target_scores k =
      max_score (hits_of_target limits s (st.target_block_ids.getD k 0)) := by
    have h1 : (st.target_scores.map (fun x => x.score))[k]? =
        some (max_score (hits_of_target limits s st.target_block_ids[k])) := by
      rw [hts, List.getElem?_map, List.getElem?_eq_getElem hk2]
      rfl
    rw [List.getElem?_map, List.getElem?_eq_getElem hk] at h1
    unfold score_at
    rw [List.getD_eq_getElem _ _ hk, hid]
    simpa using h1
  have hgne : hits_of_target limits s (st.target_block_ids.getD k 0) ≠ [] := by
    rw [hid]; exact hne _ hmem
  have hspec := max_score_spec _ hgne
  refine ⟨hgne, ?_, hscore, ?_, ?_⟩
  · unfold FlatArray.run
    rw [hhits, hid, List.getD_eq_getElem _ _ (by simpa using hk2), List.getElem_map]
  · rw [hscore]; exact hspec.1
  · rw [hscore]; exact hspec.2

theorem covered_of_perm {limits : List Nat} {raw s : List hit} (hp : s.Perm raw)
    (hcov : Covered limits raw) : Covered limits s :=
  ⟨hcov.1, fun h hh => hcov.2 h (hp.subset hh)⟩

/-- C2. TargetScore = max: for every raw-hit array, every sorted arrangement `s` of
it (in particular the one `load_hits` computes) and every ascending limits table
covering the hit coordinates with fewer than `2^32` targets, after `load_hits` (either
branch) there is one TargetScore per target group (and at least one group when the
array is not empty), and for every group `k`, the first and the last included, the
TargetScore `k` has score equal to the maximum raw score over exactly the hits placed
in target group `k`, which are the hits of `s` resolving to target
`target_block_ids[k]`. -/
theorem load_hits_scores_max (cfg : Config) (limits : List Nat) (binary : Bool)
    (raw sorted : List hit) (hperm : sorted.Perm raw) (hsorted : sorted.Sorted CmpSubject)
    (hcov : Covered limits raw) (hsize : limits.length ≤ 4294967296) :
    ScoresAreGroupMaxima cfg limits sorted (load_sorted cfg limits binary sorted) ∧
    ScoresAreGroupMaxima cfg limits (raw.insertionSort CmpSubject)
      (load_hits cfg limits binary raw) :=
  ⟨scores_max_of_result
      (load_sorted_result cfg limits binary sorted hsorted (covered_of_perm hperm hcov) hsize),
    scores_max_of_result
      (load_sorted_result cfg limits binary _ (List.sorted_insertionSort _ raw)
        (covered_of_perm (List.perm_insertionSort _ raw) hcov) hsize)⟩

theorem load_hits_scores_max_witness :
    ScoresAreGroupMaxima Config.base [0, 10, 20, 30]
      (([⟨0, 25, 1, 7⟩, ⟨0, 3, 2, 5⟩, ⟨1, 4, 3, 9⟩] : List hit).insertionSort CmpSubject)
      (load_hits Config.base [0, 10, 20, 30] false [⟨0, 25, 1, 7⟩, ⟨0, 3, 2, 5⟩, ⟨1, 4, 3, 9⟩]) :=
  (load_hits_scores_max Config.base [0, 10, 20, 30] false
    [⟨0, 25, 1, 7⟩, ⟨0, 3, 2, 5⟩, ⟨1, 4, 3, 9⟩] [⟨0, 3, 2, 5⟩, ⟨1, 4, 3, 9⟩, ⟨0, 25, 1, 7⟩]
    (by decide) (by decide) ⟨by decide, by decide⟩ (by decide)).2

/-- C4. TargetScore/TargetGroup bijection: for every raw-hit array, every sorted
arrangement of it (in particular the one `load_hits` computes) and every ascending
limits table covering the hit coordinates with fewer than `2^32` targets, after
`load_hits` (either branch) the lists `target_scores` and `target_block_ids` have the
same length, which is the number of groups opened in the FlatArray, and
`target_scores[k].target == k` for every `k`. -/
theorem load_hits_bijection (cfg : Config) (limits : List Nat) (binary : Bool)
    (raw sorted : List hit) (hperm : sorted.Perm raw) (hsorted : sorted.Sorted CmpSubject)
    (hcov : Covered limits raw) (hsize : limits.length ≤ 4294967296) :
    TargetsMatchGroups (load_sorted cfg limits binary sorted) ∧
    TargetsMatchGroups (load_hits cfg limits binary raw) :=
  ⟨targets_match_of_result
      (load_sorted_result cfg limits binary sorted hsorted (covered_of_perm hperm hcov) hsize),
    targets_match_of_result
      (load_sorted_result cfg limits binary _ (List.sorted_insertionSort _ raw)
        (covered_of_perm (List.perm_insertionSort _ raw) hcov) hsize)⟩

theorem load_hits_bijection_witness :
    TargetsMatchGroups
      (load_hits Config.base [0, 10, 20, 30] true [⟨0, 25, 1, 7⟩, ⟨0, 3, 2, 5⟩, ⟨1, 4, 3, 9⟩]) :=
  (load_hits_bijection Config.base [0, 10, 20, 30] true
    [⟨0, 25, 1, 7⟩, ⟨0, 3, 2, 5⟩, ⟨1, 4, 3, 9⟩] [⟨0, 3, 2, 5⟩, ⟨1, 4, 3, 9⟩, ⟨0, 25, 1, 7⟩]
    (by decide) (by decide) ⟨by decide, by decide⟩ (by decide)).2
/-! ## The chunk scheduler -/

theorem chunk_loop_step (cfg : Config) (mem : Memory) (stage : Nat → Nat → Nat × Bool)
    (uc : Bool) (cs : Nat) (seed_hits : FlatArray SeedHit) (ids : List Nat)
    (ts : List TargetScore) (fuel i0 i1 : Nat) (hi0 : i0 < ts.length) :
    chunk_loop cfg mem stage uc cs seed_hits ids ts (fuel + 1) i0 i1 =
      if short_circuit cfg mem cs ts i0 then some []
      else if uc = true ∧ (stage i0 i1).1 = 0 then some [extend_call seed_hits ids ts i0 i1]
      else if uc = true ∧ cfg.adaptive_ranking = true ∧ new_hits stage ts.length i0 i1 = false then
        (if cfg.query_memory = true ∧ i1 - i0 ≥ cs then
          some [extend_call seed_hits ids ts i0 i1,
            Event.update_failed_count (i1 - i0) (score_at ts (i1 - 1))]
         else some [extend_call seed_hits ids ts i0 i1])
      else (chunk_loop cfg mem stage uc cs seed_hits ids ts fuel i1
          (min (i1 + cs) ts.length)).map (fun rest => extend_call seed_hits ids ts i0 i1 :: rest) := by
  simp only [chunk_loop, hi0, if_true, extend_call, new_hits]
  rfl
theorem chunk_loop_done (cfg : Config) (mem : Memory) (stage : Nat → Nat → Nat × Bool)
    (uc : Bool) (cs : Nat) (seed_hits : FlatArray SeedHit) (ids : List Nat)
    (ts : List TargetScore) (fuel i0 i1 : Nat) (hi0 : ¬ i0 < ts.length) :
    chunk_loop cfg mem stage uc cs seed_hits ids ts fuel i0 i1 = some [] := by
  cases fuel with
  | zero => simp only [chunk_loop, hi0, if_false]
  | succ fuel => simp only [chunk_loop, hi0, if_false]

theorem chunks_of_extend_call (seed_hits : FlatArray SeedHit) (ids : List Nat)
    (ts : List TargetScore) (i0 i1 : Nat) (rest : List Event) :
    chunks_of (extend_call seed_hits ids ts i0 i1 :: rest) = (i0, i1) :: chunks_of rest := rfl

/-- The course of the chunk loop from the state `(i0, i1)`: it returns, its chunks are
the nominal ones, and it ends either at the end of the list, or at a chunk start
where the query-memory condition holds, or after a chunk that met a stop condition. -/
theorem chunk_loop_spec (cfg : Config) (mem : Memory) (stage : Nat → Nat → Nat × Bool)
    (uc : Bool) (cs : Nat) (seed_hits : FlatArray SeedHit) (ids : List Nat)
    (ts : List TargetScore) (hcs : 0 < cs) :
    ∀ fuel i0 i1 : Nat, i0 ≤ i1 → i1 ≤ ts.length → (i0 < ts.length → i0 < i1) →
      ts.length - i0 ≤ fuel →
      ∃ trace, chunk_loop cfg mem stage uc cs seed_hits ids ts fuel i0 i1 = some trace ∧
        NominalChunks cs ts.length i0 i1 (chunks_of trace) ∧
        (last_end i0 (chunks_of trace) = ts.length ∨
          ((chunks_of trace = [] ∨ ¬ stops_after cfg stage uc ts.length
              ((chunks_of trace).getLastD (0, 0)).1 ((chunks_of trace).getLastD (0, 0)).2) ∧
            short_circuit cfg mem cs ts (last_end i0 (chunks_of trace))) ∨
          (chunks_of trace ≠ [] ∧
            stops_after cfg stage uc ts.length
              ((chunks_of trace).getLastD (0, 0)).1 ((chunks_of trace).getLastD (0, 0)).2)) := by
  intro fuel
  induction fuel with
  | zero =>
    intro i0 i1 h01 h1n _ hfuel
    have hi0 : ¬ i0 < ts.length := by omega
    refine ⟨[], chunk_loop_done _ _ _ _ _ _ _ _ _ _ _ hi0, trivial, Or.inl ?_⟩
    simp only [chunks_of, last_end]
    omega
  | succ fuel ih =>
    intro i0 i1 h01 h1n hlt hfuel
    by_cases hi0 : i0 < ts.length
    · have hi01 := hlt hi0
      rw [chunk_loop_step _ _ _ _ _ _ _ _ _ _ _ hi0]
      by_cases hsc : short_circuit cfg mem cs ts i0
      · rw [if_pos hsc]
        exact ⟨[], rfl, trivial, Or.inr (Or.inl ⟨Or.inl rfl, hsc⟩)⟩
      · rw [if_neg hsc]
        by_cases hz : uc = true ∧ (stage i0 i1).1 = 0
        · rw [if_pos hz]
          refine ⟨_, rfl, ⟨rfl, hi01, h1n, trivial⟩, Or.inr (Or.inr ⟨by simp [chunks_of_extend_call, chunks_of], ?_⟩)⟩
          simp only [chunks_of_extend_call, chunks_of, List.getLastD_cons, List.getLastD_nil]
          exact ⟨hz.1, Or.inl hz.2⟩
        · rw [if_neg hz]
          by_cases ha : uc = true ∧ cfg.adaptive_ranking = true ∧
              new_hits stage ts.length i0 i1 = false
          · rw [if_pos ha]
            have hstop : stops_after cfg stage uc ts.length i0 i1 := ⟨ha.1, Or.inr ha.2⟩
            by_cases hq : cfg.query_memory = true ∧ i1 - i0 ≥ cs
            · rw [if_pos hq]
              refine ⟨_, rfl, ⟨rfl, hi01, h1n, trivial⟩, Or.inr (Or.inr ⟨?_, ?_⟩)⟩
              · simp [chunks_of_extend_call, chunks_of]
              · simpa only [chunks_of_extend_call, chunks_of, List.getLastD_cons,
                  List.getLastD_nil] using hstop
            · rw [if_neg hq]
              refine ⟨_, rfl, ⟨rfl, hi01, h1n, trivial⟩, Or.inr (Or.inr ⟨?_, ?_⟩)⟩
              · simp [chunks_of_extend_call, chunks_of]
              · simpa only [chunks_of_extend_call, chunks_of, List.getLastD_cons,
                  List.getLastD_nil] using hstop
          · rw [if_neg ha]
            have hns : ¬ stops_after cfg stage uc ts.length i0 i1 := by
              intro hs
              rcases hs.2 with h | h
              · exact hz ⟨hs.1, h⟩
              · exact ha ⟨hs.1, h⟩
            obtain ⟨trace, htr, hnom, hend⟩ := ih i1 (min (i1 + cs) ts.length) (by omega)
              (by omega) (by omega) (by omega)
            rw [htr]
            refine ⟨_, rfl, ?_, ?_⟩
            · rw [chunks_of_extend_call]
              exact ⟨rfl, hi01, h1n, hnom⟩
            · rw [chunks_of_extend_call]
              simp only [last_end]
              cases hch : chunks_of trace with
              | nil =>
                rw [hch] at hend
                simp only [last_end, List.getLastD_cons, List.getLastD_nil] at hend ⊢
                rcases hend with h | ⟨_, h⟩ | ⟨h, _⟩
                · exact Or.inl h
                · exact Or.inr (Or.inl ⟨Or.inr hns, h⟩)
                · exact absurd rfl h
              | cons c rest =>
                rw [hch] at hend
                have hlast : ((i0, i1) :: c :: rest).getLastD (0, 0) = (c :: rest).getLastD (0, 0) := by
                  simp [List.getLastD_cons]
                rw [hlast]
                rcases hend with h | ⟨h1, h2⟩ | ⟨_, h⟩
                · exact Or.inl h
                · refine Or.inr (Or.inl ⟨Or.inr ?_, h2⟩)
                  rcases h1 with h1 | h1
                  · cases h1
                  · exact h1
                · exact Or.inr (Or.inr ⟨by simp, h⟩)
    · have : i0 = ts.length := by omega
      refine ⟨[], chunk_loop_done _ _ _ _ _ _ _ _ _ _ _ hi0, trivial, Or.inl ?_⟩
      simp only [chunks_of, last_end]
      omega
theorem extend_boundary_spec (ts : List TargetScore) (relaxed_cutoff : Int) :
    ∀ (suf : List TargetScore) (i1 : Nat), ts.drop i1 = suf →
      i1 ≤ extend_boundary relaxed_cutoff suf i1 ∧
      extend_boundary relaxed_cutoff suf i1 ≤ max i1 ts.length ∧
      (∀ j, i1 ≤ j → j < extend_boundary relaxed_cutoff suf i1 →
        (score_at ts j : Int) ≥ relaxed_cutoff) ∧
      (extend_boundary relaxed_cutoff suf i1 < ts.length →
        (score_at ts (extend_boundary relaxed_cutoff suf i1) : Int) < relaxed_cutoff) := by
  intro suf
  induction suf with
  | nil =>
    intro i1 hd
    have hlen : ts.length ≤ i1 := List.drop_eq_nil_iff.mp hd
    simp only [extend_boundary]
    refine ⟨le_rfl, le_max_left _ _, ?_, ?_⟩
    · intro j h1 h2; omega
    · intro h; omega
  | cons t rest ih =>
    intro i1 hd
    have hlt : i1 < ts.length := by
      by_contra hcon
      have : ts.drop i1 = [] := List.drop_eq_nil_iff.mpr (by omega)
      rw [this] at hd
      cases hd
    have hcons := List.drop_eq_getElem_cons hlt
    rw [hd] at hcons
    have hl : score_at ts i1 = t.score := by
      unfold score_at
      rw [List.getD_eq_getElem _ _ hlt]
      rw [(List.cons.inj hcons).1]
    have hrest : ts.drop (i1 + 1) = rest := (List.cons.inj hcons).2.symm
    simp only [extend_boundary]
    split_ifs with hge
    · obtain ⟨h1, h2, h3, h4⟩ := ih (i1 + 1) hrest
      refine ⟨by omega, ?_, ?_, h4⟩
      · have : max (i1 + 1) ts.length = ts.length := max_eq_right (by omega)
        have h5 : max i1 ts.length = ts.length := max_eq_right (by omega)
        omega
      · intro j hj1 hj2
        rcases Nat.eq_or_lt_of_le hj1 with h | h
        · subst h; rw [hl]; exact hge
        · exact h3 j (by omega) hj2
    · refine ⟨le_rfl, le_max_left _ _, ?_, ?_⟩
      · intro j h1 h2; omega
      · intro _; rw [hl]; omega

theorem nominal_chunks_bounds (cs n : Nat) :
    ∀ (chunks : List (Nat × Nat)) (i0 i1 : Nat), NominalChunks cs n i0 i1 chunks →
      Consecutive i0 chunks ∧ (∀ c ∈ chunks, i0 ≤ c.1 ∧ c.1 < c.2 ∧ c.2 ≤ n) ∧
      chunks.Pairwise (fun c d => c.2 ≤ d.1) ∧
      (chunks = [] ∨ i0 < last_end i0 chunks) ∧ last_end i0 chunks ≤ max i0 n := by
  intro chunks
  induction chunks with
  | nil =>
    intro i0 i1 _
    refine ⟨?_, ?_, List.Pairwise.nil, Or.inl rfl, le_max_left _ _⟩
    · exact True.intro
    · intro c hc
      cases hc
  | cons c rest ih =>
    intro i0 i1 h
    obtain ⟨hc, h01, h1n, hrest⟩ := h
    subst hc
    obtain ⟨r1, r2, r3, r4, r5⟩ := ih i1 (min (i1 + cs) n) hrest
    refine ⟨?_, ?_, ?_, Or.inr ?_, ?_⟩
    · exact And.intro rfl (And.intro h01 r1)
    · intro d hd
      rcases List.mem_cons.mp hd with h | h
      · subst h; exact ⟨le_rfl, h01, h1n⟩
      · have := r2 d h
        exact ⟨by omega, this.2.1, this.2.2⟩
    · refine List.Pairwise.cons ?_ r3
      intro d hd
      exact (r2 d hd).1
    · simp only [last_end]
      rcases r4 with h | h
      · rw [h]; simp only [last_end]; exact h01
      · omega
    · simp only [last_end]
      have : max i1 n = n := max_eq_right h1n
      have h2 : max i0 n = n := max_eq_right (by omega)
      omega

theorem nominal_chunks_handed (cs : Nat) (ts : List TargetScore) :
    ∀ (chunks : List (Nat × Nat)) (i0 i1 : Nat), NominalChunks cs ts.length i0 i1 chunks →
      handed_over ts chunks = (ts.drop i0).take (last_end i0 chunks - i0) := by
  intro chunks
  induction chunks with
  | nil => intro i0 i1 _; simp [handed_over, last_end]
  | cons c rest ih =>
    intro i0 i1 h
    obtain ⟨hc, h01, h1n, hrest⟩ := h
    subst hc
    have hb := nominal_chunks_bounds cs ts.length rest i1 (min (i1 + cs) ts.length) hrest
    have hge : i1 ≤ last_end i1 rest := by
      rcases hb.2.2.2.1 with h | h
      · rw [h]; simp only [last_end]; exact le_rfl
      · omega
    simp only [handed_over, last_end]
    rw [ih i1 _ hrest]
    have h1 : last_end i1 rest - i0 = (i1 - i0) + (last_end i1 rest - i1) := by omega
    rw [h1, List.take_add, List.drop_drop]
    congr 3
    omega

theorem nominal_chunks_later (cs n : Nat) :
    ∀ (rest : List (Nat × Nat)) (a : Nat), NominalChunks cs n a (min (a + cs) n) rest →
      ∀ c ∈ rest, c.2 = min (c.1 + cs) n ∧ a ≤ c.1 := by
  intro rest
  induction rest with
  | nil => intro a _ c hc; cases hc
  | cons d rest ih =>
    intro a h c hc
    obtain ⟨hd, h01, h1n, hrest⟩ := h
    subst hd
    rcases List.mem_cons.mp hc with h | h
    · subst h; exact ⟨rfl, le_rfl⟩
    · have := ih (min (a + cs) n) hrest c h
      exact ⟨this.1, by omega⟩
theorem ranked_targets_length (cfg : Config) (n : Nat) (ts : List TargetScore) :
    (ranked_targets cfg n ts).length = ts.length := by
  unfold ranked_targets
  split_ifs
  · exact (List.perm_insertionSort _ ts).length_eq
  · rfl

theorem chunk_size_pos (cfg : Config) (n : Nat) (hn : 0 < n) : 0 < chunk_size cfg n := by
  unfold chunk_size
  split_ifs with h
  · simp only [use_chunks, Bool.and_eq_true, decide_eq_true_eq] at h
    omega
  · exact hn

theorem first_chunk_end_bounds (cfg : Config) (relaxed_cutoff : Int) (n : Nat)
    (ts : List TargetScore) :
    min (chunk_size cfg n) ts.length ≤ first_chunk_end cfg relaxed_cutoff n ts ∧
    first_chunk_end cfg relaxed_cutoff n ts ≤ ts.length ∧
    (∀ j, min (chunk_size cfg n) ts.length ≤ j → j < first_chunk_end cfg relaxed_cutoff n ts →
      (score_at ts j : Int) ≥ relaxed_cutoff) ∧
    (first_chunk_end cfg relaxed_cutoff n ts < ts.length →
      (score_at ts (first_chunk_end cfg relaxed_cutoff n ts) : Int) < relaxed_cutoff) := by
  have h := extend_boundary_spec ts relaxed_cutoff
    (ts.drop (min (0 + chunk_size cfg n) ts.length)) (min (0 + chunk_size cfg n) ts.length) rfl
  simp only [Nat.zero_add] at h
  have hmax : max (min (chunk_size cfg n) ts.length) ts.length = ts.length :=
    max_eq_right (Nat.min_le_right _ _)
  rw [hmax] at h
  simpa only [first_chunk_end, Nat.zero_add] using h

/-- The course of the scheduler part of `extend`, for buffers with one TargetScore
per target id: the chunk loop returns, and its chunks are the nominal ones starting
with `[0, first_chunk_end)`. -/
theorem extend_chunks_spec (cfg : Config) (mem : Memory) (relaxed_cutoff : Int)
    (stage : Nat → Nat → Nat × Bool) (seed_hits : FlatArray SeedHit) (ids : List Nat)
    (ts : List TargetScore) (hlen : ids.length = ts.length) :
    ∃ trace, extend_chunks cfg mem relaxed_cutoff stage seed_hits ids ts = some trace ∧
      NominalChunks (chunk_size cfg ids.length) ts.length 0
        (first_chunk_end cfg relaxed_cutoff ids.length (ranked_targets cfg ids.length ts))
        (chunks_of trace) ∧
      (last_end 0 (chunks_of trace) = ts.length ∨
        ((chunks_of trace = [] ∨ ¬ stops_after cfg stage (use_chunks cfg ids.length) ts.length
            ((chunks_of trace).getLastD (0, 0)).1 ((chunks_of trace).getLastD (0, 0)).2) ∧
          short_circuit cfg mem (chunk_size cfg ids.length) (ranked_targets cfg ids.length ts)
            (last_end 0 (chunks_of trace))) ∨
        (chunks_of trace ≠ [] ∧
          stops_after cfg stage (use_chunks cfg ids.length) ts.length
            ((chunks_of trace).getLastD (0, 0)).1 ((chunks_of trace).getLastD (0, 0)).2)) := by
  have hrl := ranked_targets_length cfg ids.length ts
  have hb := first_chunk_end_bounds cfg relaxed_cutoff ids.length (ranked_targets cfg ids.length ts)
  rw [hrl] at hb
  unfold extend_chunks
  simp only
  by_cases hn : ts.length = 0
  · refine ⟨[], chunk_loop_done _ _ _ _ _ _ _ _ _ _ _ (by rw [hrl]; omega), True.intro, Or.inl ?_⟩
    simp only [chunks_of, last_end]
    omega
  · have hcs : 0 < chunk_size cfg ids.length := chunk_size_pos cfg _ (by omega)
    have := chunk_loop_spec cfg mem stage (use_chunks cfg ids.length) (chunk_size cfg ids.length)
      seed_hits ids (ranked_targets cfg ids.length ts) hcs
      (ranked_targets cfg ids.length ts).length 0
      (first_chunk_end cfg relaxed_cutoff ids.length (ranked_targets cfg ids.length ts))
      (Nat.zero_le _) (by rw [hrl]; exact hb.2.1)
      (fun _ => by have := hb.1; omega) (by omega)
    rw [hrl] at this ⊢
    exact this

theorem copy_chunk_fold (seed_hits : FlatArray SeedHit) (ids : List Nat) :
    ∀ (chunk : List TargetScore) (acc : List Nat × FlatArray SeedHit),
      chunk.foldl
        (fun acc j => (acc.1 ++ [ids.getD j.target 0],
          FlatArray.push_back_range acc.2 (FlatArray.run seed_hits j.target))) acc =
        (acc.1 ++ chunk.map (fun j => ids.getD j.target 0),
          acc.2 ++ chunk.map (fun j => FlatArray.run seed_hits j.target)) := by
  intro chunk
  induction chunk with
  | nil => intro acc; simp
  | cons j rest ih =>
    intro acc
    rw [List.foldl_cons, ih]
    simp [FlatArray.push_back_range]

theorem copy_chunk_eq (seed_hits : FlatArray SeedHit) (ids : List Nat)
    (chunk : List TargetScore) :
    copy_chunk seed_hits ids chunk =
      (chunk.map (fun j => ids.getD j.target 0),
        chunk.map (fun j => FlatArray.run seed_hits j.target)) := by
  unfold copy_chunk
  rw [copy_chunk_fold]
  simp

theorem calls_of_chunk_loop (cfg : Config) (mem : Memory) (stage : Nat → Nat → Nat × Bool)
    (uc : Bool) (cs : Nat) (seed_hits : FlatArray SeedHit) (ids : List Nat)
    (ts : List TargetScore) :
    ∀ (fuel i0 i1 : Nat) (trace : List Event),
      chunk_loop cfg mem stage uc cs seed_hits ids ts fuel i0 i1 = some trace →
      calls_of trace = (chunks_of trace).map (fun c => extend_call seed_hits ids ts c.1 c.2) := by
  intro fuel
  induction fuel with
  | zero =>
    intro i0 i1 trace h
    unfold chunk_loop at h
    split at h
    · cases h
    · cases h; rfl
  | succ fuel ih =>
    intro i0 i1 trace h
    by_cases hi0 : i0 < ts.length
    · rw [chunk_loop_step _ _ _ _ _ _ _ _ _ _ _ hi0] at h
      by_cases h1 : short_circuit cfg mem cs ts i0
      · rw [if_pos h1] at h
        cases h; rfl
      · rw [if_neg h1] at h
        by_cases h2 : uc = true ∧ (stage i0 i1).1 = 0
        · rw [if_pos h2] at h
          cases h; rfl
        · rw [if_neg h2] at h
          by_cases h3 : uc = true ∧ cfg.adaptive_ranking = true ∧
              new_hits stage ts.length i0 i1 = false
          · rw [if_pos h3] at h
            by_cases h4 : cfg.query_memory = true ∧ i1 - i0 ≥ cs
            · rw [if_pos h4] at h
              cases h; rfl
            · rw [if_neg h4] at h
              cases h; rfl
          · rw [if_neg h3] at h
            cases hrec : chunk_loop cfg mem stage uc cs seed_hits ids ts fuel i1
                (min (i1 + cs) ts.length) with
            | none => rw [hrec] at h; cases h
            | some rest =>
              rw [hrec] at h
              cases h
              have := ih _ _ rest hrec
              show extend_call seed_hits ids ts i0 i1 :: calls_of rest = _
              rw [this]
              rfl
    · rw [chunk_loop_done _ _ _ _ _ _ _ _ _ _ _ hi0] at h
      cases h; rfl

theorem handed_ids_calls : ∀ trace : List Event, handed_ids (calls_of trace) = handed_ids trace := by
  intro trace
  induction trace with
  | nil => rfl
  | cons e rest ih =>
    cases e with
    | extend i0 i1 m a b => simp only [calls_of, handed_ids, ih]
    | update_failed_count a b => simp only [calls_of, handed_ids, ih]

theorem handed_groups_calls :
    ∀ trace : List Event, handed_groups (calls_of trace) = handed_groups trace := by
  intro trace
  induction trace with
  | nil => rfl
  | cons e rest ih =>
    cases e with
    | extend i0 i1 m a b => simp only [calls_of, handed_groups, ih]
    | update_failed_count a b => simp only [calls_of, handed_groups, ih]

theorem extend_call_multi (seed_hits : FlatArray SeedHit) (ids : List Nat)
    (ts : List TargetScore) (i0 i1 : Nat) (h : i1 - i0 < ts.length) :
    extend_call seed_hits ids ts i0 i1 =
      Event.extend i0 i1 true
        (((ts.drop i0).take (i1 - i0)).map (fun j => ids.getD j.target 0))
        (((ts.drop i0).take (i1 - i0)).map (fun j => FlatArray.run seed_hits j.target)) := by
  unfold extend_call
  simp only [h, decide_True, if_true, copy_chunk_eq]

theorem extend_call_whole (seed_hits : FlatArray SeedHit) (ids : List Nat)
    (ts : List TargetScore) (i0 i1 : Nat) (h : ¬ i1 - i0 < ts.length) :
    extend_call seed_hits ids ts i0 i1 = Event.extend i0 i1 false ids seed_hits := by
  unfold extend_call
  simp only [h, decide_False, Bool.false_eq_true, if_false]

theorem range_map_getD {α : Type} (l : List α) (dflt : α) :
    (List.range l.length).map (fun i => l.getD i dflt) = l := by
  apply List.ext_getElem (by simp)
  intro i h1 h2
  simp only [List.getElem_map, List.getElem_range]
  exact List.getD_eq_getElem _ _ h2

theorem buffers_perm {α : Type} (l : List α) (dflt : α) (ts : List TargetScore)
    (hlen : l.length = ts.length)
    (hperm : (ts.map (fun x => x.target)).Perm (List.range ts.length)) :
    l.Perm (ts.map (fun j => l.getD j.target dflt)) := by
  have h1 : ts.map (fun j => l.getD j.target dflt) =
      (ts.map (fun x => x.target)).map (fun i => l.getD i dflt) := by
    rw [List.map_map]
    rfl
  rw [h1]
  have h2 := hperm.map (fun i => l.getD i dflt)
  rw [← hlen, range_map_getD] at h2
  exact h2.symm

theorem handed_perm (seed_hits : FlatArray SeedHit) (ids : List Nat) (ts : List TargetScore)
    (hlen : ids.length = ts.length) (hslen : seed_hits.length = ts.length)
    (hperm : (ts.map (fun x => x.target)).Perm (List.range ts.length)) :
    ∀ chunks : List (Nat × Nat), (∀ c ∈ chunks, c.1 < c.2 ∧ c.2 ≤ ts.length) →
      (handed_ids (chunks.map (fun c => extend_call seed_hits ids ts c.1 c.2))).Perm
        ((handed_over ts chunks).map (fun j => ids.getD j.target 0)) ∧
      (handed_groups (chunks.map (fun c => extend_call seed_hits ids ts c.1 c.2))).Perm
        ((handed_over ts chunks).map (fun j => FlatArray.run seed_hits j.target)) := by
  intro chunks
  induction chunks with
  | nil => intro _; exact ⟨List.Perm.refl _, List.Perm.refl _⟩
  | cons c rest ih =>
    intro hall
    obtain ⟨ih1, ih2⟩ := ih (fun d hd => hall d (List.mem_cons_of_mem _ hd))
    have hc := hall c (List.mem_cons_self _ _)
    by_cases hm : c.2 - c.1 < ts.length
    · have e1 : (c :: rest).map (fun c => extend_call seed_hits ids ts c.1 c.2) =
          Event.extend c.1 c.2 true
            (((ts.drop c.1).take (c.2 - c.1)).map (fun j => ids.getD j.target 0))
            (((ts.drop c.1).take (c.2 - c.1)).map (fun j => FlatArray.run seed_hits j.target)) ::
          rest.map (fun c => extend_call seed_hits ids ts c.1 c.2) := by
        rw [List.map_cons, extend_call_multi _ _ _ _ _ hm]
      rw [e1]
      simp only [handed_ids, handed_groups, handed_over, List.map_append]
      exact ⟨List.Perm.append (List.Perm.refl _) ih1, List.Perm.append (List.Perm.refl _) ih2⟩
    · have h0 : c.1 = 0 := by omega
      have h1 : c.2 = ts.length := by omega
      have hwhole : (ts.drop c.1).take (c.2 - c.1) = ts := by
        rw [h0, h1]
        simp
      have e1 : (c :: rest).map (fun c => extend_call seed_hits ids ts c.1 c.2) =
          Event.extend c.1 c.2 false ids seed_hits ::
          rest.map (fun c => extend_call seed_hits ids ts c.1 c.2) := by
        rw [List.map_cons, extend_call_whole _ _ _ _ _ hm]
      rw [e1]
      simp only [handed_ids, handed_groups, handed_over, List.map_append, hwhole]
      exact ⟨List.Perm.append (buffers_perm ids 0 ts hlen hperm) ih1,
        List.Perm.append (buffers_perm seed_hits [] ts hslen hperm) ih2⟩

/-- C5. Chunk coverage without repetition: in one run of the scheduler of `extend`
(on buffers with one TargetScore per target id), the chunk loop returns; the chunks
`[i0, i1)` handed to the extension stage are non-empty, consecutive (each starts
where the one before it ended, the first at 0) and pairwise disjoint, and the
candidates handed over are, in order, exactly the first `e` entries of the candidate
list, `e` being the end of the last chunk; `e` is the whole length unless a stop
condition fired (the query-memory condition at `e`, or a stop condition after the
last chunk). Hence no entry of a duplicate-free candidate list is handed over twice.
The buffers of the calls are those of the chunks: the call for a chunk that is not
the whole list receives the target ids `target_block_ids[j->target]` and the groups
of exactly the candidates `j` of the chunk, in their order, and the call for a chunk
that is the whole list receives the whole buffers. With the bijection between
TargetScores and groups (`target_scores[k].target == k`, one group per TargetScore)
the target ids and the groups received over all calls are, up to order, those of the
first `e` candidates: no target id of a duplicate-free id list, and so no target
group, is passed twice, and all of them are passed once when `e` is the whole
length. -/
theorem chunks_cover_once (cfg : Config) (mem : Memory) (relaxed_cutoff : Int)
    (stage : Nat → Nat → Nat × Bool) (seed_hits : FlatArray SeedHit) (ids : List Nat)
    (ts : List TargetScore) (hlen : ids.length = ts.length) :
    ∃ trace, extend_chunks cfg mem relaxed_cutoff stage seed_hits ids ts = some trace ∧
      Consecutive 0 (chunks_of trace) ∧
      (∀ c ∈ chunks_of trace, c.1 < c.2 ∧ c.2 ≤ ts.length) ∧
      (chunks_of trace).Pairwise (fun c d => c.2 ≤ d.1) ∧
      last_end 0 (chunks_of trace) ≤ ts.length ∧
      handed_over (ranked_targets cfg ids.length ts) (chunks_of trace) =
        (ranked_targets cfg ids.length ts).take (last_end 0 (chunks_of trace)) ∧
      (last_end 0 (chunks_of trace) = ts.length ∨
        short_circuit cfg mem (chunk_size cfg ids.length) (ranked_targets cfg ids.length ts)
          (last_end 0 (chunks_of trace)) ∨
        (chunks_of trace ≠ [] ∧
          stops_after cfg stage (use_chunks cfg ids.length) ts.length
            ((chunks_of trace).getLastD (0, 0)).1 ((chunks_of trace).getLastD (0, 0)).2)) ∧
      (ts.Nodup → (handed_over (ranked_targets cfg ids.length ts) (chunks_of trace)).Nodup) ∧
      calls_of trace = (chunks_of trace).map
        (fun c => extend_call seed_hits ids (ranked_targets cfg ids.length ts) c.1 c.2) ∧
      (∀ c ∈ chunks_of trace, c.2 - c.1 < ts.length →
        extend_call seed_hits ids (ranked_targets cfg ids.length ts) c.1 c.2 =
          Event.extend c.1 c.2 true
            ((((ranked_targets cfg ids.length ts).drop c.1).take (c.2 - c.1)).map
              (fun j => ids.getD j.target 0))
            ((((ranked_targets cfg ids.length ts).drop c.1).take (c.2 - c.1)).map
              (fun j => FlatArray.run seed_hits j.target))) ∧
      (∀ c ∈ chunks_of trace, ¬ c.2 - c.1 < ts.length →
        c = (0, ts.length) ∧
        extend_call seed_hits ids (ranked_targets cfg ids.length ts) c.1 c.2 =
          Event.extend 0 ts.length false ids seed_hits) ∧
      (seed_hits.length = ts.length → ts.map (fun x => x.target) = List.range ts.length →
        (handed_ids trace).Perm
          (((ranked_targets cfg ids.length ts).take (last_end 0 (chunks_of trace))).map
            (fun j => ids.getD j.target 0)) ∧
        (handed_groups trace).Perm
          (((ranked_targets cfg ids.length ts).take (last_end 0 (chunks_of trace))).map
            (fun j => FlatArray.run seed_hits j.target)) ∧
        (ids.Nodup → (handed_ids trace).Nodup) ∧
        (last_end 0 (chunks_of trace) = ts.length →
          (handed_ids trace).Perm ids ∧ (handed_groups trace).Perm seed_hits)) := by
  obtain ⟨trace, htr, hnom, hend⟩ := extend_chunks_spec cfg mem relaxed_cutoff stage seed_hits
    ids ts hlen
  obtain ⟨b1, b2, b3, _, b5⟩ := nominal_chunks_bounds _ _ _ _ _ hnom
  have hrl := ranked_targets_length cfg ids.length ts
  have hhand : handed_over (ranked_targets cfg ids.length ts) (chunks_of trace) =
      (ranked_targets cfg ids.length ts).take (last_end 0 (chunks_of trace)) := by
    have := nominal_chunks_handed (chunk_size cfg ids.length) (ranked_targets cfg ids.length ts)
      (chunks_of trace) 0 _ (by rw [hrl]; exact hnom)
    simpa using this
  have hperm : (ranked_targets cfg ids.length ts).Perm ts := by
    unfold ranked_targets
    split_ifs
    · exact List.perm_insertionSort _ ts
    · exact List.Perm.refl _
  have hcalls : calls_of trace = (chunks_of trace).map
      (fun c => extend_call seed_hits ids (ranked_targets cfg ids.length ts) c.1 c.2) :=
    calls_of_chunk_loop _ _ _ _ _ _ _ _ _ _ _ trace htr
  refine ⟨trace, htr, b1, fun c hc => (b2 c hc).2, b3, by simpa using b5, hhand, ?_, ?_,
    hcalls, ?_, ?_, ?_⟩
  · rcases hend with h | ⟨_, h⟩ | h
    · exact Or.inl h
    · exact Or.inr (Or.inl h)
    · exact Or.inr (Or.inr h)
  · intro hnd
    rw [hhand]
    exact (hperm.nodup_iff.mpr hnd).sublist (List.take_sublist _ _)
  · intro c _ hm
    exact extend_call_multi _ _ _ _ _ (by rw [hrl]; exact hm)
  · intro c hc hm
    have hb := (b2 c hc).2
    have h0 : c.1 = 0 := by omega
    have h1 : c.2 = ts.length := by omega
    refine ⟨Prod.ext h0 h1, ?_⟩
    rw [extend_call_whole _ _ _ _ _ (by rw [hrl]; exact hm), h0, h1]
  · intro hslen hbij
    have hpt : ((ranked_targets cfg ids.length ts).map (fun x => x.target)).Perm
        (List.range (ranked_targets cfg ids.length ts).length) := by
      rw [hrl, ← hbij]
      exact hperm.map _
    obtain ⟨p1, p2⟩ := handed_perm seed_hits ids (ranked_targets cfg ids.length ts)
      (by rw [hrl]; exact hlen) (by rw [hrl]; exact hslen) hpt (chunks_of trace)
      (fun c hc => by rw [hrl]; exact (b2 c hc).2)
    rw [← hcalls, handed_ids_calls, hhand] at p1
    rw [← hcalls, handed_groups_calls, hhand] at p2
    have hall1 := buffers_perm ids 0 (ranked_targets cfg ids.length ts)
      (by rw [hrl]; exact hlen) hpt
    have hall2 := buffers_perm seed_hits [] (ranked_targets cfg ids.length ts)
      (by rw [hrl]; exact hslen) hpt
    refine ⟨p1, p2, ?_, ?_⟩
    · intro hnd
      rw [p1.nodup_iff]
      exact ((hall1.nodup_iff).1 hnd).sublist
        ((List.take_sublist _ _).map _)
    · intro he
      rw [he, ← hrl, List.take_length] at p1 p2
      exact ⟨p1.trans hall1.symm, p2.trans hall2.symm⟩

theorem chunks_cover_once_witness :
    ∃ trace, extend_chunks { Config.base with ext_chunk_size := 2, adaptive_ranking := true }
        ⟨0, 0⟩ 50 (fun _ _ => (1, true)) [[], [], []] [4, 7, 9] [⟨0, 30⟩, ⟨1, 60⟩, ⟨2, 20⟩] =
        some trace ∧
      Consecutive 0 (chunks_of trace) :=
  match chunks_cover_once { Config.base with ext_chunk_size := 2, adaptive_ranking := true }
    ⟨0, 0⟩ 50 (fun _ _ => (1, true)) [[], [], []] [4, 7, 9] [⟨0, 30⟩, ⟨1, 60⟩, ⟨2, 20⟩] rfl with
  | ⟨trace, h1, h2, _⟩ => ⟨trace, h1, h2⟩
theorem score_at_antitone {ts : List TargetScore}
    (h : ts.Pairwise (fun a b => a.score ≥ b.score)) {i j : Nat} (hij : i ≤ j)
    (hj : j < ts.length) : score_at ts j ≤ score_at ts i := by
  unfold score_at
  rw [List.getD_eq_getElem _ _ hj, List.getD_eq_getElem _ _ (by omega)]
  rcases Nat.eq_or_lt_of_le hij with h1 | h1
  · subst h1; exact le_rfl
  · exact (List.pairwise_iff_getElem.mp h) i j (by omega) hj h1

theorem ranked_targets_scores (cfg : Config) (n : Nat) (ts : List TargetScore)
    (huc : use_chunks cfg n = true) :
    (ranked_targets cfg n ts).Pairwise (fun a b => a.score ≥ b.score) := by
  unfold ranked_targets
  rw [if_pos huc]
  exact sorted_targets_scores (sort_targets_sorted ts)

/-- C6. Chunk boundary extension: for every chunk `[i0, i1)` processed by the
scheduler (run on buffers with one TargetScore per target id), `i1` is the least
index `e >= min(i0 + chunk_size, n)` such that `e == n` or `score[e] <
relaxed_cutoff`; every candidate from the nominal end up to `i1` has a score `>=
relaxed_cutoff`, so a candidate at the nominal end with score equal to the cutoff is
included; and every candidate at or after `i0` with score `>= relaxed_cutoff` lies
inside the chunk, so no run of such candidates is split across two chunks. -/
theorem chunk_boundary_extension (cfg : Config) (mem : Memory) (relaxed_cutoff : Int)
    (stage : Nat → Nat → Nat × Bool) (seed_hits : FlatArray SeedHit) (ids : List Nat)
    (ts : List TargetScore) (hlen : ids.length = ts.length) :
    ∃ trace, extend_chunks cfg mem relaxed_cutoff stage seed_hits ids ts = some trace ∧
      ∀ c ∈ chunks_of trace,
        min (c.1 + chunk_size cfg ids.length) ts.length ≤ c.2 ∧
        (c.2 = ts.length ∨
          (score_at (ranked_targets cfg ids.length ts) c.2 : Int) < relaxed_cutoff) ∧
        (∀ e, min (c.1 + chunk_size cfg ids.length) ts.length ≤ e →
          (e = ts.length ∨
            (score_at (ranked_targets cfg ids.length ts) e : Int) < relaxed_cutoff) →
          c.2 ≤ e) ∧
        (∀ j, min (c.1 + chunk_size cfg ids.length) ts.length ≤ j → j < c.2 →
          (score_at (ranked_targets cfg ids.length ts) j : Int) ≥ relaxed_cutoff) ∧
        (∀ j, c.1 ≤ j → j < ts.length →
          (score_at (ranked_targets cfg ids.length ts) j : Int) ≥ relaxed_cutoff → j < c.2) := by
  obtain ⟨trace, htr, hnom, _⟩ := extend_chunks_spec cfg mem relaxed_cutoff stage seed_hits
    ids ts hlen
  have hrl := ranked_targets_length cfg ids.length ts
  have hb := first_chunk_end_bounds cfg relaxed_cutoff ids.length (ranked_targets cfg ids.length ts)
  rw [hrl] at hb
  obtain ⟨f1, f2, f3, f4⟩ := hb
  -- from the end of the first chunk on, every score is below the cutoff
  have hbelow : ∀ j, first_chunk_end cfg relaxed_cutoff ids.length
      (ranked_targets cfg ids.length ts) ≤ j → j < ts.length →
      (score_at (ranked_targets cfg ids.length ts) j : Int) < relaxed_cutoff := by
    intro j hj hjn
    by_cases huc : use_chunks cfg ids.length = true
    · have hsorted := ranked_targets_scores cfg ids.length ts huc
      have hanti := score_at_antitone hsorted hj (by rw [hrl]; exact hjn)
      have := f4 (by omega)
      omega
    · exfalso
      have hcs : chunk_size cfg ids.length = ids.length := by
        unfold chunk_size
        rw [if_neg huc]
      have hmin : min (chunk_size cfg ids.length) ts.length = ts.length := by
        rw [hcs, hlen, Nat.min_self]
      omega
  refine ⟨trace, htr, ?_⟩
  cases hch : chunks_of trace with
  | nil => intro c hc; cases hc
  | cons c0 rest =>
    rw [hch] at hnom
    obtain ⟨hc0, h01, h1n, hrest⟩ := hnom
    intro c hc
    rcases List.mem_cons.mp hc with h | h
    · -- the first chunk
      subst h
      subst hc0
      simp only [Nat.zero_add]
      refine ⟨f1, ?_, ?_, f3, ?_⟩
      · by_cases he : first_chunk_end cfg relaxed_cutoff ids.length
            (ranked_targets cfg ids.length ts) = ts.length
        · exact Or.inl he
        · exact Or.inr (f4 (by omega))
      · intro e he1 he2
        by_contra hcon
        have hlt : e < first_chunk_end cfg relaxed_cutoff ids.length
            (ranked_targets cfg ids.length ts) := by omega
        have := f3 e he1 hlt
        rcases he2 with h2 | h2
        · omega
        · omega
      · intro j _ hjn hge
        by_contra hcon
        have := hbelow j (by omega) hjn
        omega
    · -- a later chunk ends at its nominal end
      obtain ⟨hc2, hc1⟩ := nominal_chunks_later _ _ rest _ hrest c h
      have hcb := (nominal_chunks_bounds _ _ rest _ _ hrest).2.1 c h
      refine ⟨by omega, ?_, fun e he _ => by omega, fun j hj1 hj2 => by omega, ?_⟩
      · by_cases hcn : c.2 = ts.length
        · exact Or.inl hcn
        · exact Or.inr (hbelow c.2 (by omega) (by omega))
      · intro j hj hjn hge
        have := hbelow j (by omega) hjn
        omega

theorem chunk_boundary_extension_witness :
    ∃ trace, extend_chunks { Config.base with ext_chunk_size := 1, adaptive_ranking := true }
        ⟨0, 0⟩ 50 (fun _ _ => (1, true)) [[], [], []] [4, 7, 9] [⟨0, 30⟩, ⟨1, 60⟩, ⟨2, 50⟩] =
        some trace ∧
      ∀ c ∈ chunks_of trace,
        min (c.1 + chunk_size { Config.base with ext_chunk_size := 1, adaptive_ranking := true }
          ([4, 7, 9] : List Nat).length) ([⟨0, 30⟩, ⟨1, 60⟩, ⟨2, 50⟩] : List TargetScore).length ≤
          c.2 :=
  match chunk_boundary_extension
    { Config.base with ext_chunk_size := 1, adaptive_ranking := true }
    ⟨0, 0⟩ 50 (fun _ _ => (1, true)) [[], [], []] [4, 7, 9] [⟨0, 30⟩, ⟨1, 60⟩, ⟨2, 50⟩] rfl with
  | ⟨trace, h1, h2⟩ => ⟨trace, h1, fun c hc => (h2 c hc).1⟩
/-- C7 (as amended). QueryMemory short-circuit: when the loop is about to process a
chunk starting at candidate `i0`, it stops without any further call (neither this
chunk nor a later one is processed) exactly when query memory is enabled, the
persisted failed-chunk count is at least `chunk_size`, and the persisted failure
score is at least the chunk's starting score, `ranking_low_score(query) >=
score[i0]`; otherwise the next call is the extension of the chunk `[i0, i1)`. -/
theorem query_memory_short_circuit (cfg : Config) (mem : Memory)
    (stage : Nat → Nat → Nat × Bool) (uc : Bool) (cs : Nat) (seed_hits : FlatArray SeedHit)
    (ids : List Nat) (ts : List TargetScore) (fuel i0 i1 : Nat) (hi0 : i0 < ts.length) :
    (chunk_loop cfg mem stage uc cs seed_hits ids ts (fuel + 1) i0 i1 = some [] ↔
      (cfg.query_memory = true ∧ mem.ranking_failed_count ≥ cs ∧
        mem.ranking_low_score ≥ (score_at ts i0 : Int))) ∧
    (¬ (cfg.query_memory = true ∧ mem.ranking_failed_count ≥ cs ∧
        mem.ranking_low_score ≥ (score_at ts i0 : Int)) →
      ∀ trace, chunk_loop cfg mem stage uc cs seed_hits ids ts (fuel + 1) i0 i1 = some trace →
        ∃ rest, trace = extend_call seed_hits ids ts i0 i1 :: rest) := by
  have hstep := chunk_loop_step cfg mem stage uc cs seed_hits ids ts fuel i0 i1 hi0
  have hcases : ¬ short_circuit cfg mem cs ts i0 →
      ∀ trace, chunk_loop cfg mem stage uc cs seed_hits ids ts (fuel + 1) i0 i1 = some trace →
        ∃ rest, trace = extend_call seed_hits ids ts i0 i1 :: rest := by
    intro hsc trace htr
    rw [hstep, if_neg hsc] at htr
    split_ifs at htr
    · exact ⟨[], (Option.some.inj htr).symm⟩
    · exact ⟨_, (Option.some.inj htr).symm⟩
    · exact ⟨[], (Option.some.inj htr).symm⟩
    · cases hrec : chunk_loop cfg mem stage uc cs seed_hits ids ts fuel i1
          (min (i1 + cs) ts.length) with
      | none => rw [hrec] at htr; cases htr
      | some rest =>
        rw [hrec] at htr
        exact ⟨rest, (Option.some.inj htr).symm⟩
  refine ⟨⟨?_, ?_⟩, hcases⟩
  · intro hnil
    by_contra hsc
    obtain ⟨rest, hrest⟩ := hcases hsc [] hnil
    cases hrest
  · intro hsc
    have hsc2 : short_circuit cfg mem cs ts i0 := hsc
    rw [hstep, if_pos hsc2]

theorem query_memory_short_circuit_witness :
    chunk_loop { Config.base with query_memory := true } ⟨1, 45⟩ (fun _ _ => (1, true)) false 1
        [[]] [4] [⟨0, 30⟩] (0 + 1) 0 1 = some [] ↔
      (({ Config.base with query_memory := true } : Config).query_memory = true ∧
        (⟨1, 45⟩ : Memory).ranking_failed_count ≥ 1 ∧
        (⟨1, 45⟩ : Memory).ranking_low_score ≥ (score_at [⟨0, 30⟩] 0 : Int)) :=
  (query_memory_short_circuit { Config.base with query_memory := true } ⟨1, 45⟩
    (fun _ _ => (1, true)) false 1 [[]] [4] [⟨0, 30⟩] 0 0 1 (by decide)).1

/-- C7 (as stated) fails in both directions. With query memory enabled, chunk size 1
and a persisted failed count of 1: for a persisted failure score 5, below the first
candidate's score 40, the claim's condition `ranking_low_score <= score[i0]` holds
and the scheduler processes all three chunks; for a persisted failure score 45 the
claim's condition fails and the scheduler stops before the first chunk. -/
theorem query_memory_short_circuit_counterexample :
    ((5 : Int) ≤ (score_at (ranked_targets
        { Config.base with ext_chunk_size := 1, adaptive_ranking := true, query_memory := true }
        3 [⟨0, 30⟩, ⟨1, 40⟩, ⟨2, 20⟩]) 0 : Int) ∧
      extend_chunks
        { Config.base with ext_chunk_size := 1, adaptive_ranking := true, query_memory := true }
        ⟨1, 5⟩ 50 (fun _ _ => (1, true)) [[], [], []] [4, 7, 9] [⟨0, 30⟩, ⟨1, 40⟩, ⟨2, 20⟩] =
      some [Event.extend 0 1 true [7] [[]], Event.extend 1 2 true [4] [[]],
        Event.extend 2 3 true [9] [[]]]) ∧
    (¬ ((45 : Int) ≤ (score_at (ranked_targets
        { Config.base with ext_chunk_size := 1, adaptive_ranking := true, query_memory := true }
        3 [⟨0, 30⟩, ⟨1, 40⟩, ⟨2, 20⟩]) 0 : Int)) ∧
      extend_chunks
        { Config.base with ext_chunk_size := 1, adaptive_ranking := true, query_memory := true }
        ⟨1, 45⟩ 50 (fun _ _ => (1, true)) [[], [], []] [4, 7, 9] [⟨0, 30⟩, ⟨1, 40⟩, ⟨2, 20⟩] =
      some []) := by
  refine ⟨⟨by decide, by decide⟩, ⟨by decide, by decide⟩⟩
theorem use_chunks_of_adaptive (cfg : Config) (n : Nat) (hcs : 0 < cfg.ext_chunk_size)
    (had : cfg.adaptive_ranking = true) : use_chunks cfg n = true := by
  simp [use_chunks, hcs, had]

/-- C8 (as amended). Failed-chunk persistence: with chunking in use and adaptive
ranking enabled (as it is whenever adaptive ranking is enabled with a positive chunk
size), when a processed chunk `[i0, i1)` yields at least one target and no new passing
targets, the scheduler stops after that chunk; immediately before stopping it calls
`update_failed_count(query, i1 - i0, score[i1 - 1])` exactly when query memory is
enabled and the chunk holds at least `chunk_size` candidates, and makes no such call
otherwise. In the sorted candidate list `score[i1 - 1]` is the lowest score of the
chunk, and the first chunk holds at least `chunk_size` candidates whenever the
candidate count is at least the chunk size. -/
theorem failed_chunk_persistence (cfg : Config) (mem : Memory) (relaxed_cutoff : Int)
    (stage : Nat → Nat → Nat × Bool) (cs : Nat) (seed_hits : FlatArray SeedHit)
    (ids : List Nat) (ts : List TargetScore) (fuel i0 i1 : Nat) (hi0 : i0 < ts.length)
    (hsc : ¬ short_circuit cfg mem cs ts i0) (had : cfg.adaptive_ranking = true)
    (hn : (stage i0 i1).1 ≠ 0) (hnew : new_hits stage ts.length i0 i1 = false) :
    (chunk_loop cfg mem stage true cs seed_hits ids ts (fuel + 1) i0 i1 =
      if cfg.query_memory = true ∧ i1 - i0 ≥ cs then
        some [extend_call seed_hits ids ts i0 i1,
          Event.update_failed_count (i1 - i0) (score_at ts (i1 - 1))]
      else some [extend_call seed_hits ids ts i0 i1]) ∧
    (∀ n : Nat, 0 < cfg.ext_chunk_size → use_chunks cfg n = true) ∧
    (ts.Pairwise (fun a b => a.score ≥ b.score) → i1 ≤ ts.length →
      ∀ j, i0 ≤ j → j < i1 → score_at ts (i1 - 1) ≤ score_at ts j) ∧
    (chunk_size cfg ids.length ≤ ts.length →
      first_chunk_end cfg relaxed_cutoff ids.length ts - 0 ≥ chunk_size cfg ids.length) := by
  refine ⟨?_, fun n hcs => use_chunks_of_adaptive cfg n hcs had, ?_, ?_⟩
  · rw [chunk_loop_step _ _ _ _ _ _ _ _ _ _ _ hi0, if_neg hsc,
      if_neg (fun h => hn h.2), if_pos ⟨rfl, had, hnew⟩]
  · intro hsorted h1n j hj0 hj1
    exact score_at_antitone hsorted (by omega) (by omega)
  · intro hle
    have := (first_chunk_end_bounds cfg relaxed_cutoff ids.length ts).1
    rw [Nat.min_eq_left hle] at this
    omega

theorem failed_chunk_persistence_witness :
    chunk_loop Config.adaptive_memory
        ⟨0, 0⟩ (fun _ _ => (1, false)) true 1 [[], [], []] [4, 7, 9]
        [⟨1, 40⟩, ⟨0, 30⟩, ⟨2, 20⟩] (2 + 1) 0 1 =
      if Config.adaptive_memory.query_memory = true ∧ 1 - 0 ≥ 1 then
        some [extend_call [[], [], []] [4, 7, 9] [⟨1, 40⟩, ⟨0, 30⟩, ⟨2, 20⟩] 0 1,
          Event.update_failed_count (1 - 0) (score_at [⟨1, 40⟩, ⟨0, 30⟩, ⟨2, 20⟩] (1 - 1))]
      else some [extend_call [[], [], []] [4, 7, 9] [⟨1, 40⟩, ⟨0, 30⟩, ⟨2, 20⟩] 0 1] :=
  (failed_chunk_persistence
    Config.adaptive_memory
    ⟨0, 0⟩ 50 (fun _ _ => (1, false)) 1 [[], [], []] [4, 7, 9] [⟨1, 40⟩, ⟨0, 30⟩, ⟨2, 20⟩]
    2 0 1 (by decide) (by decide) rfl (by decide) (by decide)).1

/-- C8 (as stated) fails: with adaptive ranking enabled, chunk size 1, three
candidates and query memory disabled, the first chunk yields one target and no new
passing targets; the scheduler stops after that chunk and its only call is the
extension of the chunk: nothing is persisted. -/
theorem failed_chunk_persistence_counterexample :
    Config.adaptive.adaptive_ranking =
        true ∧
      0 < Config.adaptive.ext_chunk_size ∧
      new_hits (fun _ _ => (1, false)) 3 0 1 = false ∧
      extend_chunks Config.adaptive
          ⟨0, 0⟩ 50 (fun _ _ => (1, false)) [[], [], []] [4, 7, 9]
          [⟨0, 30⟩, ⟨1, 40⟩, ⟨2, 20⟩] =
        some [Event.extend 0 1 true [7] [[]]] := by
  refine ⟨rfl, by decide, by decide, by decide⟩

theorem load_hits_buffers_eq (cfg : Config) (limits : List Nat) (binary : Bool) (raw : List hit)
    (hits : FlatArray SeedHit) (ids : List Nat) (scores : List TargetScore) :
    load_hits_buffers cfg limits binary raw hits ids scores = load_hits cfg limits binary raw := by
  cases raw with
  | nil => rfl
  | cons a l =>
    have hne : (a :: l).insertionSort CmpSubject ≠ [] := by
      intro h
      have := congrArg List.length h
      rw [List.length_insertionSort] at this
      simp at this
    unfold load_hits_buffers load_hits load_sorted
    cases hs : (a :: l).insertionSort CmpSubject with
    | nil => exact absurd hs hne
    | cons b m => rfl

theorem chunk_loop_entries_events (cfg : Config) (mem : Memory) (stage : Nat → Nat → Nat × Bool)
    (uc : Bool) (cs : Nat) (seed_hits : FlatArray SeedHit) (ids : List Nat)
    (ts : List TargetScore) :
    ∀ fuel i0 i1 : Nat,
      (chunk_loop_entries cfg mem stage uc cs seed_hits ids ts fuel i0 i1).map Prod.fst =
        chunk_loop cfg mem stage uc cs seed_hits ids ts fuel i0 i1 := by
  intro fuel
  induction fuel with
  | zero =>
    intro i0 i1
    unfold chunk_loop_entries chunk_loop
    split <;> rfl
  | succ fuel ih =>
    intro i0 i1
    unfold chunk_loop_entries chunk_loop
    simp only [apply_ite (Option.map Prod.fst), Option.map_some', Option.map_map, ← ih]
    rfl

theorem extend_chunks_entries_events (cfg : Config) (mem : Memory) (relaxed_cutoff : Int)
    (stage : Nat → Nat → Nat × Bool) (seed_hits : FlatArray SeedHit) (ids : List Nat)
    (ts : List TargetScore) :
    (extend_chunks_entries cfg mem relaxed_cutoff stage seed_hits ids ts).map Prod.fst =
      extend_chunks cfg mem relaxed_cutoff stage seed_hits ids ts := by
  unfold extend_chunks_entries extend_chunks
  exact chunk_loop_entries_events _ _ _ _ _ _ _ _ _ _ _

/-- C21. Degenerate input propagates as empty results: for an empty raw-hit range
`load_hits` leaves `hits`, `target_block_ids` and `target_scores` empty whatever the
reused buffers held before; on these buffers the chunk loop of `extend` makes no call
and its body is never entered (the loop condition is false at once, for every bound
on the iterations, 0 included); and both `align` overloads return an empty list
for an empty target list with no `swipe` call. -/
theorem degenerate_input_empty (cfg : Config) (mem : Memory) (relaxed_cutoff : Int)
    (stage : Nat → Nat → Nat × Bool) (limits : List Nat) (binary : Bool)
    (hits0 : FlatArray SeedHit) (ids0 : List Nat) (scores0 : List TargetScore)
    (ext : Collaborators) (target_add_hit : Target → Hsp → Target) (DEFAULT_BAND : Int)
    (query_seq : Nat → sequence) (flags filter_score source_query_len : Int) :
    (load_hits_buffers cfg limits binary [] hits0 ids0 scores0).hits = [] ∧
    (load_hits_buffers cfg limits binary [] hits0 ids0 scores0).target_block_ids = [] ∧
    (load_hits_buffers cfg limits binary [] hits0 ids0 scores0).target_scores = [] ∧
    load_hits cfg limits binary [] = load_hits_buffers cfg limits binary [] hits0 ids0 scores0 ∧
    (∀ (uc : Bool) (cs fuel i1 : Nat),
      chunk_loop_entries cfg mem stage uc cs [] [] [] fuel 0 i1 = some ([], [])) ∧
    extend_chunks_entries cfg mem relaxed_cutoff stage [] [] [] = some ([], []) ∧
    extend cfg mem relaxed_cutoff stage limits binary [] = some [] ∧
    align_work_targets cfg ext target_add_hit DEFAULT_BAND query_seq flags [] = ([], []) ∧
    align_targets cfg ext filter_score source_query_len flags [] = ([], []) := by
  have hloop : ∀ (uc : Bool) (cs fuel i1 : Nat),
      chunk_loop_entries cfg mem stage uc cs [] [] [] fuel 0 i1 = some ([], []) := by
    intro uc cs fuel i1
    cases fuel <;> simp [chunk_loop_entries]
  have hentries : extend_chunks_entries cfg mem relaxed_cutoff stage [] [] [] = some ([], []) := by
    unfold extend_chunks_entries ranked_targets
    split
    · exact hloop _ _ _ _
    · exact hloop _ _ _ _
  refine ⟨rfl, rfl, rfl, rfl, hloop, hentries, ?_, rfl, rfl⟩
  have h := extend_chunks_entries_events cfg mem relaxed_cutoff stage [] [] []
  rw [hentries] at h
  exact h.symm

theorem chunk_loop_entries_step (cfg : Config) (mem : Memory) (stage : Nat → Nat → Nat × Bool)
    (uc : Bool) (cs : Nat) (seed_hits : FlatArray SeedHit) (ids : List Nat)
    (ts : List TargetScore) (fuel i0 i1 : Nat) (hi0 : i0 < ts.length) :
    (∃ trace, chunk_loop_entries cfg mem stage uc cs seed_hits ids ts (fuel + 1) i0 i1 =
        some (trace, [(i0, i1)]) ∧ (chunks_of trace = [] ∨ chunks_of trace = [(i0, i1)])) ∨
    chunk_loop_entries cfg mem stage uc cs seed_hits ids ts (fuel + 1) i0 i1 =
      (chunk_loop_entries cfg mem stage uc cs seed_hits ids ts fuel i1
        (min (i1 + cs) ts.length)).map
          (fun rest => (extend_call seed_hits ids ts i0 i1 :: rest.1, (i0, i1) :: rest.2)) := by
  rw [chunk_loop_entries]
  simp only [hi0, if_true]
  by_cases h1 : cfg.query_memory = true ∧ mem.ranking_failed_count ≥ cs ∧
      mem.ranking_low_score ≥ (score_at ts i0 : Int)
  · left
    exact ⟨[], by rw [if_pos h1], Or.inl rfl⟩
  · rw [if_neg h1]
    by_cases h2 : uc = true ∧ (stage i0 i1).1 = 0
    · left
      refine ⟨_, by rw [if_pos h2], ?_⟩
      exact Or.inr rfl
    · rw [if_neg h2]
      by_cases h3 : uc = true ∧ cfg.adaptive_ranking = true ∧
          (if decide (i1 - i0 < ts.length) = true then (stage i0 i1).2 else false) = false
      · left
        rw [if_pos h3]
        by_cases h4 : cfg.query_memory = true ∧ i1 - i0 ≥ cs
        · refine ⟨_, by rw [if_pos h4], ?_⟩
          exact Or.inr rfl
        · refine ⟨_, by rw [if_neg h4], ?_⟩
          exact Or.inr rfl
      · right
        rw [if_neg h3]
        rfl

theorem chunk_loop_entries_spec (cfg : Config) (mem : Memory) (stage : Nat → Nat → Nat × Bool)
    (uc : Bool) (cs : Nat) (seed_hits : FlatArray SeedHit) (ids : List Nat)
    (ts : List TargetScore) (hcs : 0 < cs) :
    ∀ fuel i0 i1 : Nat, i1 ≤ ts.length → (i0 < ts.length → i0 < i1) →
      ts.length - i0 ≤ fuel →
      ∃ trace entries, chunk_loop_entries cfg mem stage uc cs seed_hits ids ts fuel i0 i1 =
          some (trace, entries) ∧
        (∀ e ∈ entries, e.1 < e.2 ∧ e.2 ≤ ts.length) ∧
        (∃ rest, entries = chunks_of trace ++ rest ∧ rest.length ≤ 1) ∧
        entries.length ≤ (if i0 < ts.length then 1 + (ts.length - i1 + cs - 1) / cs else 0) := by
  intro fuel
  induction fuel with
  | zero =>
    intro i0 i1 _ _ hfuel
    have hi0 : ¬ i0 < ts.length := by omega
    refine ⟨[], [], ?_, ?_, ⟨[], rfl, by simp⟩, by simp⟩
    · simp [chunk_loop_entries, hi0]
    · simp
  | succ fuel ih =>
    intro i0 i1 hi1 hlt hfuel
    by_cases hi0 : i0 < ts.length
    · rcases chunk_loop_entries_step cfg mem stage uc cs seed_hits ids ts fuel i0 i1 hi0 with
        ⟨trace, htr, hch⟩ | hrec
      · refine ⟨trace, [(i0, i1)], htr, ?_, ?_, ?_⟩
        · intro e he
          simp only [List.mem_singleton] at he
          subst he
          exact ⟨hlt hi0, hi1⟩
        · rcases hch with h | h
          · exact ⟨[(i0, i1)], by rw [h]; rfl, by simp⟩
          · exact ⟨[], by rw [h]; rfl, by simp⟩
        · simp [hi0]
      · have hi01 := hlt hi0
        obtain ⟨trace, entries, he, hall, ⟨rest, hrest, hrl⟩, hbound⟩ :=
          ih i1 (min (i1 + cs) ts.length) (Nat.min_le_right _ _)
            (fun h => by rw [Nat.lt_min]; exact ⟨by omega, h⟩) (by omega)
        refine ⟨extend_call seed_hits ids ts i0 i1 :: trace, (i0, i1) :: entries, ?_, ?_, ?_, ?_⟩
        · rw [hrec, he]; rfl
        · intro e hmem
          rcases List.mem_cons.1 hmem with h | h
          · subst h; exact ⟨hi01, hi1⟩
          · exact hall e h
        · refine ⟨rest, ?_, hrl⟩
          rw [hrest]; rfl
        · rw [if_pos hi0]
          rw [List.length_cons]
          by_cases hi1n : i1 < ts.length
          · rw [if_pos hi1n] at hbound
            have hkey : 1 + (ts.length - min (i1 + cs) ts.length + cs - 1) / cs ≤
                (ts.length - i1 + cs - 1) / cs := by
              by_cases hc : i1 + cs ≤ ts.length
              · rw [Nat.min_eq_left hc]
                have : ts.length - i1 + cs - 1 = (ts.length - (i1 + cs) + cs - 1) + cs := by omega
                rw [this, Nat.add_div_right _ hcs]
                omega
              · rw [Nat.min_eq_right (by omega)]
                have h0 : (ts.length - ts.length + cs - 1) / cs = 0 :=
                  Nat.div_eq_of_lt (by omega)
                rw [h0]
                exact (Nat.le_div_iff_mul_le hcs).2 (by omega)
            omega
          · rw [if_neg hi1n] at hbound
            have h0 : entries.length = 0 := Nat.le_zero.1 hbound
            rw [h0]
            exact Nat.le_add_right 1 _
    · refine ⟨[], [], ?_, by simp, ⟨[], rfl, by simp⟩, by simp⟩
      rw [chunk_loop_entries]
      simp [hi0]

/-- C28. Scheduler termination: for every configuration and every candidate list of
length `n` (with as many target ids, as `load_hits` delivers them) the chunk loop of
`extend` terminates (the bound `n` on the iterations is never reached); the chunk size
is positive whenever the list is non-empty; on every entry into the loop body
`i0 < i1 <= n`, so every processed chunk holds at least one candidate; and the loop
body is entered at most `ceil(n / chunk_size)` times. -/
theorem chunk_loop_terminates (cfg : Config) (mem : Memory) (relaxed_cutoff : Int)
    (stage : Nat → Nat → Nat × Bool) (seed_hits : FlatArray SeedHit) (ids : List Nat)
    (ts : List TargetScore) (hlen : ids.length = ts.length) :
    ∃ trace entries,
      extend_chunks_entries cfg mem relaxed_cutoff stage seed_hits ids ts = some (trace, entries) ∧
      extend_chunks cfg mem relaxed_cutoff stage seed_hits ids ts = some trace ∧
      (0 < ts.length → 0 < chunk_size cfg ids.length) ∧
      (∀ e ∈ entries, e.1 < e.2 ∧ e.2 ≤ ts.length) ∧
      (∀ c ∈ chunks_of trace, c ∈ entries) ∧
      entries.length ≤
        (ts.length + chunk_size cfg ids.length - 1) / chunk_size cfg ids.length := by
  have hrl := ranked_targets_length cfg ids.length ts
  have hpos : 0 < ts.length → 0 < chunk_size cfg ids.length := fun h =>
    chunk_size_pos cfg ids.length (by omega)
  have hev := extend_chunks_entries_events cfg mem relaxed_cutoff stage seed_hits ids ts
  by_cases hn : 0 < ts.length
  · have hcs := hpos hn
    obtain ⟨hb1, hb2, -, -⟩ :=
      first_chunk_end_bounds cfg relaxed_cutoff ids.length (ranked_targets cfg ids.length ts)
    rw [hrl] at hb1 hb2
    obtain ⟨trace, entries, he, hall, ⟨rest, hrest, -⟩, hbound⟩ :=
      chunk_loop_entries_spec cfg mem stage (use_chunks cfg ids.length)
        (chunk_size cfg ids.length) seed_hits ids (ranked_targets cfg ids.length ts) hcs
        (ranked_targets cfg ids.length ts).length 0
        (first_chunk_end cfg relaxed_cutoff ids.length (ranked_targets cfg ids.length ts))
        (by rw [hrl]; exact hb2)
        (fun _ => lt_of_lt_of_le (by rw [Nat.lt_min]; exact ⟨hcs, hn⟩) hb1) (by omega)
    have he2 : extend_chunks_entries cfg mem relaxed_cutoff stage seed_hits ids ts =
        some (trace, entries) := he
    refine ⟨trace, entries, he2, ?_, hpos, ?_, ?_, ?_⟩
    · rw [← hev, he2]; rfl
    · intro e hmem
      have := hall e hmem
      rw [hrl] at this
      exact this
    · intro c hc
      rw [hrest]
      exact List.mem_append_left _ hc
    · rw [hrl, if_pos hn] at hbound
      refine le_trans hbound ?_
      by_cases hc : chunk_size cfg ids.length ≤
          first_chunk_end cfg relaxed_cutoff ids.length (ranked_targets cfg ids.length ts)
      · rw [Nat.add_comm 1, ← Nat.add_div_right _ hcs]
        exact Nat.div_le_div_right (by omega)
      · have hfull : first_chunk_end cfg relaxed_cutoff ids.length
            (ranked_targets cfg ids.length ts) = ts.length := by
          rcases Nat.le_total (chunk_size cfg ids.length) ts.length with h | h
          · rw [Nat.min_eq_left h] at hb1; omega
          · rw [Nat.min_eq_right h] at hb1; omega
        rw [hfull]
        have h0 : (ts.length - ts.length + chunk_size cfg ids.length - 1) /
            chunk_size cfg ids.length = 0 := Nat.div_eq_of_lt (by omega)
        rw [h0]
        exact (Nat.le_div_iff_mul_le hcs).2 (by omega)
  · have hz : ts.length = 0 := by omega
    have he : extend_chunks_entries cfg mem relaxed_cutoff stage seed_hits ids ts =
        some ([], []) := by
      unfold extend_chunks_entries
      simp only [hrl, hz]
      rw [chunk_loop_entries]
      simp [hrl, hz]
    refine ⟨[], [], he, ?_, hpos, by simp, by simp [chunks_of], by simp⟩
    rw [← hev, he]; rfl

/-- C28, at an instance: three candidates, chunk size 2, adaptive ranking off. -/
theorem chunk_loop_terminates_witness :
    ([7, 8, 9] : List Nat).length = ([⟨0, 5⟩, ⟨1, 9⟩, ⟨2, 7⟩] : List TargetScore).length ∧
    ∃ trace entries,
      extend_chunks_entries Config.chunked ⟨0, 0⟩ 100 (fun _ _ => (1, true)) [[], [], []]
        [7, 8, 9] [⟨0, 5⟩, ⟨1, 9⟩, ⟨2, 7⟩] = some (trace, entries) ∧
      entries.length ≤ 2 :=
  ⟨rfl, by
    obtain ⟨trace, entries, h1, -, -, -, -, h6⟩ :=
      chunk_loop_terminates Config.chunked ⟨0, 0⟩ 100 (fun _ _ => (1, true)) [[], [], []]
        [7, 8, 9] [⟨0, 5⟩, ⟨1, 9⟩, ⟨2, 7⟩] rfl
    exact ⟨trace, entries, h1, h6⟩⟩

/-- C29. Single-chunk runs always count as a ranking failure: when the chunk `[i0, i1)`
is the entire candidate set (`multi_chunk` is false) `new_hits` stays false whatever
the extension stage returns; hence with chunking, adaptive ranking and query memory
enabled, `n >= chunk_size` candidates, a first chunk that is the entire candidate set
and is processed (the query-memory `break` before it does not fire) and at least one
surviving target, the scheduler makes one extension call on the whole buffers and then
calls `update_failed_count(query, n, score of the last candidate)` and leaves the
loop. -/
theorem single_chunk_ranking_failure (cfg : Config) (mem : Memory) (relaxed_cutoff : Int)
    (stage : Nat → Nat → Nat × Bool) (seed_hits : FlatArray SeedHit) (ids : List Nat)
    (ts : List TargetScore) (hn : 0 < ts.length)
    (huc : use_chunks cfg ids.length = true) (had : cfg.adaptive_ranking = true)
    (hqm : cfg.query_memory = true) (hcs : chunk_size cfg ids.length ≤ ts.length)
    (hsingle : first_chunk_end cfg relaxed_cutoff ids.length
      (ranked_targets cfg ids.length ts) = ts.length)
    (hproc : ¬ short_circuit cfg mem (chunk_size cfg ids.length)
      (ranked_targets cfg ids.length ts) 0)
    (hsurv : 0 < (stage 0 ts.length).1) :
    (∀ i0 i1 : Nat, ¬ i1 - i0 < ts.length → new_hits stage ts.length i0 i1 = false) ∧
    extend_chunks cfg mem relaxed_cutoff stage seed_hits ids ts =
      some [Event.extend 0 ts.length false ids seed_hits,
        Event.update_failed_count ts.length
          (score_at (ranked_targets cfg ids.length ts) (ts.length - 1))] := by
  have hrl := ranked_targets_length cfg ids.length ts
  have hnew : ∀ i0 i1 : Nat, ¬ i1 - i0 < ts.length → new_hits stage ts.length i0 i1 = false := by
    intro i0 i1 h
    unfold new_hits
    simp [h]
  refine ⟨hnew, ?_⟩
  unfold extend_chunks
  simp only [hsingle, huc, hrl]
  obtain ⟨k, hk⟩ : ∃ k, ts.length = k + 1 := ⟨ts.length - 1, by omega⟩
  have hstep := chunk_loop_step cfg mem stage true (chunk_size cfg ids.length) seed_hits ids
    (ranked_targets cfg ids.length ts) k 0 ts.length (by rw [hrl]; exact hn)
  rw [← hk] at hstep
  rw [hstep, if_neg hproc, if_neg (by omega), hrl,
    if_pos ⟨rfl, had, hnew 0 ts.length (by omega)⟩, if_pos ⟨hqm, by omega⟩]
  simp [extend_call, hrl]

/-- C29, at an instance: two candidates, chunk size 2, one surviving target reported as
a new hit by the extension stage. -/
theorem single_chunk_ranking_failure_witness :
    extend_chunks { Config.adaptive_memory with ext_chunk_size := 2 } ⟨0, 0⟩ 50
        (fun _ _ => (1, true)) [[⟨1, 2, 0⟩], []] [4, 5] [⟨0, 30⟩, ⟨1, 70⟩] =
      some [Event.extend 0 2 false [4, 5] [[⟨1, 2, 0⟩], []], Event.update_failed_count 2 30] :=
  (single_chunk_ranking_failure { Config.adaptive_memory with ext_chunk_size := 2 } ⟨0, 0⟩ 50
    (fun _ _ => (1, true)) [[⟨1, 2, 0⟩], []] [4, 5] [⟨0, 30⟩, ⟨1, 70⟩] (by decide) (by decide)
    rfl rfl (by decide) (by decide) (by decide) (by decide)).2

/-- C27. Emitted bands are valid and contain the trait: for every WorkTarget with
subject length `slen`, every frame below `query_contexts` with query length `qlen`,
padding `band >= 0` and every trait `h` (the `k`-th of the frame) with
`-(slen - 1) <= d_min <= d_max <= qlen - 1` (which `slen >= 1` and `qlen >= 1` make
possible; the bounds hold for all lengths), the DpTarget that `add_dp_targets` emits
for it (the `k`-th entry appended to `dp_targets[frame]`) satisfies
`-(slen - 1) <= d_begin <= d_min` and `d_max < d_end <= qlen`; so the band is
non-empty, lies inside the diagonal range of the DP matrix and contains every
diagonal of the trait. The padded bounds `d_min - band` and `d_max + 1 + band` are
computed in 32-bit `int`; that they do not overflow is the hypothesis. -/
theorem add_dp_targets_band_valid (cfg : Config) (DEFAULT_BAND : Int) (target : WorkTarget)
    (target_idx : Int) (query_seq : Nat → sequence) (dp_targets : Nat → List DpTarget)
    (frame k : Nat) (h : Hsp_traits) (hframe : frame < cfg.query_contexts)
    (hband : 0 ≤ band cfg DEFAULT_BAND) (hk : (target.hsp frame)[k]? = some h)
    (hmin : -(to_int target.seq.length - 1) ≤ h.d_min) (hle : h.d_min ≤ h.d_max)
    (hmax : h.d_max ≤ to_int (query_seq frame).length - 1)
    (hlo : -2147483648 ≤ h.d_min - band cfg DEFAULT_BAND)
    (hhi : h.d_max + 1 + band cfg DEFAULT_BAND ≤ 2147483647) :
    ∃ d : DpTarget,
      (add_dp_targets cfg DEFAULT_BAND target target_idx query_seq dp_targets frame)[
        (dp_targets frame).length + k]? = some d ∧
      d.seq = target.seq ∧ d.target_idx = target_idx ∧
      -(to_int target.seq.length - 1) ≤ d.d_begin ∧ d.d_begin ≤ h.d_min ∧
      h.d_max < d.d_end ∧ d.d_end ≤ to_int (query_seq frame).length ∧
      d.d_begin < d.d_end ∧
      (∀ x : Int, h.d_min ≤ x → x ≤ h.d_max → d.d_begin ≤ x ∧ x < d.d_end) := by
  have hs := to_int_range target.seq.length
  have hq := to_int_range (query_seq frame).length
  have hfits : BandFits (band cfg DEFAULT_BAND) (to_int target.seq.length) h :=
    ⟨⟨hlo, by omega⟩, ⟨by omega, by omega⟩, ⟨by omega, by omega⟩, ⟨by omega, by omega⟩,
      ⟨by omega, hhi⟩⟩
  refine ⟨band_target (band cfg DEFAULT_BAND) (to_int target.seq.length)
    (to_int (query_seq frame).length) target.seq target_idx h, ?_, rfl, rfl, ?_⟩
  · rw [add_dp_targets_frame_code, if_pos hframe, List.getElem?_append_right (by omega)]
    simp only [Nat.add_sub_cancel_left, List.getElem?_map, hk, Option.map_some']
    rw [dp_target_of_fits _ _ _ _ _ h hfits]
  · simp only [band_target]
    refine ⟨le_max_right _ _, max_le (by omega) hmin, lt_min (by omega) (by omega),
      min_le_right _ _, ?_, ?_⟩
    · exact lt_of_le_of_lt (max_le (by omega) hmin) (lt_of_le_of_lt hle (lt_min (by omega) (by omega)))
    · intro x hx1 hx2
      exact ⟨le_trans (max_le (by omega) hmin) hx1, lt_of_le_of_lt hx2 (lt_min (by omega) (by omega))⟩

/-- C27, at an instance: subject length 6, query length 10, padding 3 and a trait on
the diagonals `[-2, 1]`, for which the band `[-5, 5)` is emitted. -/
theorem add_dp_targets_band_valid_witness :
    ∃ d : DpTarget,
      (add_dp_targets { Config.base with padding := 3 } 0
        ⟨0, [1, 2, 3, 4, 5, 6], fun _ => [⟨-2, 1, ⟨0, 4⟩, ⟨1, 5⟩⟩], false⟩ 0
        (fun _ => [1, 2, 3, 4, 5, 6, 7, 8, 9, 10]) (fun _ => []) 0)[0 + 0]? = some d ∧
      -5 ≤ d.d_begin ∧ d.d_begin ≤ -2 ∧ 1 < d.d_end ∧ d.d_end ≤ 10 := by
  have h6 : to_int ([1, 2, 3, 4, 5, 6] : sequence).length = 6 := to_int_of_lt 6 (by decide)
  have h10 : to_int ([1, 2, 3, 4, 5, 6, 7, 8, 9, 10] : sequence).length = 10 :=
    to_int_of_lt 10 (by decide)
  obtain ⟨d, hd, -, -, h1, h2, h3, h4, -, -⟩ :=
    add_dp_targets_band_valid { Config.base with padding := 3 } 0
      ⟨0, [1, 2, 3, 4, 5, 6], fun _ => [⟨-2, 1, ⟨0, 4⟩, ⟨1, 5⟩⟩], false⟩ 0
      (fun _ => [1, 2, 3, 4, 5, 6, 7, 8, 9, 10]) (fun _ => []) 0 0 ⟨-2, 1, ⟨0, 4⟩, ⟨1, 5⟩⟩
      (by decide) (by decide) rfl
      (by rw [h6]; decide) (by decide) (by rw [h10]; decide) (by decide) (by decide)
  rw [h6] at h1
  rw [h10] at h4
  exact ⟨d, hd, h1, h2, h3, h4⟩

theorem xor_bit15_of_lt (u : Nat) (h : u < 32768) : u ^^^ 32768 = u + 32768 := by
  have h15 : (32768 : Nat) = 2 ^ 15 := by norm_num
  rw [Nat.add_comm, h15]
  rw [h15] at h
  apply Nat.eq_of_testBit_eq
  intro i
  rw [Nat.testBit_xor]
  rcases Nat.lt_trichotomy i 15 with hi | hi | hi
  · rw [Nat.testBit_two_pow_add_gt hi, Nat.testBit_two_pow_of_ne (by omega)]
    simp
  · subst hi
    rw [Nat.testBit_two_pow_add_eq, Nat.testBit_two_pow_self, Nat.testBit_lt_two_pow h]
    rfl
  · have hpow : 2 ^ 16 ≤ 2 ^ i := Nat.pow_le_pow_right (by norm_num) (by omega)
    have h16 : (2 : Nat) ^ 16 = 2 ^ 15 + 2 ^ 15 := by norm_num
    rw [Nat.testBit_lt_two_pow (lt_of_lt_of_le (by omega) hpow),
      Nat.testBit_two_pow_of_ne (by omega),
      Nat.testBit_lt_two_pow (show 2 ^ 15 + u < 2 ^ i from lt_of_lt_of_le (by omega) hpow)]
    rfl

theorem xor_bit15_of_ge (u : Nat) (h1 : 32768 ≤ u) (h2 : u < 65536) :
    u ^^^ 32768 = u - 32768 := by
  have hb := xor_bit15_of_lt (u - 32768) (by omega)
  have hu : u = (u - 32768) ^^^ 32768 := by rw [hb]; omega
  conv_lhs => rw [hu]
  rw [Nat.xor_assoc, Nat.xor_self, Nat.xor_zero]

theorem int_score_eq (s : Int) (h1 : -32768 ≤ s) (h2 : s ≤ 32767) :
    ScoreTraits.int_score s = s + 32768 := by
  unfold ScoreTraits.int_score uint16_of
  by_cases hs : 0 ≤ s
  · have hm : s % 65536 = s := Int.emod_eq_of_lt hs (by omega)
    rw [hm]
    have hx := xor_bit15_of_lt s.toNat (by omega)
    have h8 : (0x8000 : Nat) = 32768 := by norm_num
    rw [h8, hx]
    omega
  · have hm : s % 65536 = s + 65536 := by omega
    rw [hm]
    have hx := xor_bit15_of_ge (s + 65536).toNat (by omega) (by omega)
    have h8 : (0x8000 : Nat) = 32768 := by norm_num
    rw [h8, hx]
    omega

/-- C26. Biased score representation: for every `int16_t` value `s`,
`int_score(s) = s + 32768`, an integer in `[0, 65535]`; hence `int_score` is strictly
increasing, `int_score(zero_score()) = 0`,
`int_score(max_score()) = max_int_score() = 65535`, and for every `x` in `[0, 65535]`
every lane `v` of `score_vector(x, Saturated)` has `int_score(v) = x`. -/
theorem int_score_biased :
    (∀ s : Int, -32768 ≤ s → s ≤ 32767 →
      ScoreTraits.int_score s = s + 32768 ∧ 0 ≤ ScoreTraits.int_score s ∧
        ScoreTraits.int_score s ≤ 65535) ∧
    (∀ u : Nat, ScoreTraits.int_score (int16_of u) = int16_of u + 32768) ∧
    (∀ s t : Int, -32768 ≤ s → s < t → t ≤ 32767 →
      ScoreTraits.int_score s < ScoreTraits.int_score t) ∧
    ScoreTraits.int_score ScoreTraits.zero_score = 0 ∧
    ScoreTraits.int_score ScoreTraits.max_score = ScoreTraits.max_int_score ∧
    ScoreTraits.max_int_score = 65535 ∧
    (∀ x : Int, 0 ≤ x → x ≤ 65535 → ∀ k : Nat,
      (score_vector.of_saturated x).get k = x - 32768 ∧
      ScoreTraits.int_score ((score_vector.of_saturated x).get k) = x) := by
  refine ⟨?_, ?_, ?_, ?_, ?_, rfl, ?_⟩
  · intro s h1 h2
    rw [int_score_eq s h1 h2]
    omega
  · intro u
    exact int_score_eq _ (int16_of_range u).1 (int16_of_range u).2
  · intro s t h1 h2 h3
    rw [int_score_eq s h1 (by omega), int_score_eq t (by omega) h3]
    omega
  · exact int_score_eq (-32768) (by decide) (by decide)
  · exact int_score_eq 32767 (by decide) (by decide)
  · intro x h1 h2 k
    have hv : (score_vector.of_saturated x).get k = x - 32768 := by
      unfold score_vector.of_saturated score_vector.get _mm_set1_epi16 short_of SHRT_MIN
      simp only []
      rw [int16_of_uint16_of (-32768 + x) (by omega) (by omega),
        int16_of_uint16_of (-32768 + x) (by omega) (by omega)]
      omega
    rw [hv, int_score_eq _ (by omega) (by omega)]
    exact ⟨rfl, by omega⟩

theorem sorted_filter_split {α : Type} (f : α → Nat) (t : Nat) :
    ∀ s : List α, s.Pairwise (fun a b => f a ≤ f b) → (∀ x ∈ s, t ≤ f x) →
      s.filter (fun x => decide (f x = t)) ++ s.filter (fun x => !decide (f x = t)) = s := by
  intro s
  induction s with
  | nil => intro _ _; rfl
  | cons x xs ih =>
    intro hp hlo
    rw [List.pairwise_cons] at hp
    have ihx := ih hp.2 (fun y hy => hlo y (List.mem_cons_of_mem _ hy))
    by_cases hx : f x = t
    · simp only [List.filter_cons, hx, decide_True, if_true, Bool.not_true, Bool.false_eq_true,
        if_false, List.cons_append]
      rw [← hx] at ihx ⊢
      rw [ihx]
    · have hgt : t < f x := lt_of_le_of_ne (hlo x (List.mem_cons_self _ _)) (Ne.symm hx)
      have hnone : xs.filter (fun y => decide (f y = t)) = [] := by
        rw [List.filter_eq_nil_iff]
        intro y hy
        have := hp.1 y hy
        simp only [decide_eq_true_eq]
        omega
      rw [hnone] at ihx
      simp only [List.filter_cons, hx, decide_False, Bool.false_eq_true, if_false, hnone,
        List.nil_append, Bool.not_false, if_true]
      rw [List.nil_append] at ihx
      rw [ihx]

theorem filter_groups_concat {α : Type} (f : α → Nat) :
    ∀ (ids : List Nat) (s : List α), ids.Sorted (· < ·) → s.Pairwise (fun a b => f a ≤ f b) →
      (∀ x ∈ s, f x ∈ ids) →
      (ids.map (fun t => s.filter (fun x => decide (f x = t)))).flatten = s := by
  intro ids
  induction ids with
  | nil =>
    intro s _ _ hmem
    cases s with
    | nil => rfl
    | cons x xs => exact absurd (hmem x (List.mem_cons_self _ _)) (List.not_mem_nil _)
  | cons t rest ih =>
    intro s hs hp hmem
    have hs2 := List.sorted_cons.1 hs
    have hlo : ∀ x ∈ s, t ≤ f x := by
      intro x hx
      rcases List.mem_cons.1 (hmem x hx) with h | h
      · omega
      · exact le_of_lt (hs2.1 _ h)
    have hrest : rest.map (fun t1 => s.filter (fun x => decide (f x = t1))) =
        rest.map (fun t1 => (s.filter (fun x => !decide (f x = t))).filter
          (fun x => decide (f x = t1))) := by
      apply List.map_congr_left
      intro t1 ht1
      have hne : t ≠ t1 := ne_of_lt (hs2.1 _ ht1)
      rw [List.filter_filter]
      apply List.filter_congr
      intro x _
      by_cases hx : f x = t1
      · have : ¬ t1 = t := fun h => hne h.symm
        simp [hx, this]
      · simp [hx]
    rw [List.map_cons, List.flatten_cons, hrest,
      ih (s.filter (fun x => !decide (f x = t))) hs2.2 (hp.sublist (List.filter_sublist _))]
    · exact sorted_filter_split f t s hp hlo
    · intro x hx
      rw [List.mem_filter] at hx
      rcases List.mem_cons.1 (hmem x hx.1) with h | h
      · simp [h] at hx
      · exact h

theorem hits_concat_of_result {cfg : Config} {limits : List Nat} {s : List hit}
    {st : LoadState} (hsorted : s.Sorted CmpSubject) (hlim : limits.Sorted (· ≤ ·))
    (h : LoadResult cfg limits s st) : st.hits.flatten = s.map (seed_of cfg limits) := by
  obtain ⟨hids, hhits, -, -, -, hmem⟩ := h
  have hp : s.Pairwise (fun a b =>
      (local_position limits a.subject_).1 ≤ (local_position limits b.subject_).1) :=
    List.Pairwise.imp (fun hab => local_position_mono hlim hab) hsorted
  have hcat := filter_groups_concat (fun x : hit => (local_position limits x.subject_).1)
    st.target_block_ids s hids hp hmem
  have hmap : st.target_block_ids.map
      (fun t => (hits_of_target limits s t).map (seed_of cfg limits)) =
      (st.target_block_ids.map (fun t => hits_of_target limits s t)).map
        (List.map (seed_of cfg limits)) := by
    rw [List.map_map]
    rfl
  rw [hhits, hmap, ← List.map_flatten]
  exact congrArg _ hcat

theorem partitioned_of_result {cfg : Config} {limits : List Nat} {s : List hit}
    {st : LoadState} (hsorted : s.Sorted CmpSubject) (hlim : limits.Sorted (· ≤ ·))
    (h : LoadResult cfg limits s st) : HitsPartitioned cfg limits s st := by
  have hcat := hits_concat_of_result hsorted hlim h
  obtain ⟨hids, hhits, -, -, -, -⟩ := h
  refine ⟨hcat, by rw [hcat, List.length_map], ?_, by rw [hhits, List.length_map], hids, ?_⟩
  · intro k x hx
    refine ⟨seed_of cfg limits x, ?_, rfl⟩
    rw [hcat, List.getElem?_map, hx]
    rfl
  · exact hids.nodup

/-- C30. Every hit lands in exactly one group and every target has exactly one group:
for every raw-hit array, every sorted arrangement of it (in particular the one
`load_hits` computes) and every ascending limits table covering the hit coordinates
with fewer than `2^32` targets, after `load_hits` (either branch) the groups of the
FlatArray, read one after the other, hold the seed hits of the hits in ascending
subject-coordinate order, so their total number is the number of raw hits; each
SeedHit has the frame `query_ % query_contexts` of its hit; and `target_block_ids`,
one id per group, is strictly increasing, so no target id occurs in two groups. -/
theorem load_hits_partition (cfg : Config) (limits : List Nat) (binary : Bool)
    (raw sorted : List hit) (hperm : sorted.Perm raw) (hsorted : sorted.Sorted CmpSubject)
    (hcov : Covered limits raw) (hsize : limits.length ≤ 4294967296) :
    HitsPartitioned cfg limits sorted (load_sorted cfg limits binary sorted) ∧
    sorted.length = raw.length ∧
    HitsPartitioned cfg limits (raw.insertionSort CmpSubject) (load_hits cfg limits binary raw) ∧
    (raw.insertionSort CmpSubject).Sorted CmpSubject ∧
    (raw.insertionSort CmpSubject).length = raw.length :=
  ⟨partitioned_of_result hsorted hcov.1
      (load_sorted_result cfg limits binary sorted hsorted (covered_of_perm hperm hcov) hsize),
    hperm.length_eq,
    partitioned_of_result (List.sorted_insertionSort _ raw) hcov.1
      (load_sorted_result cfg limits binary _ (List.sorted_insertionSort _ raw)
        (covered_of_perm (List.perm_insertionSort _ raw) hcov) hsize),
    List.sorted_insertionSort _ raw, List.length_insertionSort _ raw⟩

/-- C30, at an instance: three hits on the targets `[0, 10)` and `[20, 30)`. -/
theorem load_hits_partition_witness :
    HitsPartitioned Config.base [0, 10, 20, 30]
      (([⟨0, 25, 1, 7⟩, ⟨0, 3, 2, 5⟩, ⟨1, 4, 3, 9⟩] : List hit).insertionSort CmpSubject)
      (load_hits Config.base [0, 10, 20, 30] false [⟨0, 25, 1, 7⟩, ⟨0, 3, 2, 5⟩, ⟨1, 4, 3, 9⟩]) :=
  (load_hits_partition Config.base [0, 10, 20, 30] false
    [⟨0, 25, 1, 7⟩, ⟨0, 3, 2, 5⟩, ⟨1, 4, 3, 9⟩] [⟨0, 3, 2, 5⟩, ⟨1, 4, 3, 9⟩, ⟨0, 25, 1, 7⟩]
    (by decide) (by decide) ⟨by decide, by decide⟩ (by decide)).2.2.1

theorem inc_state (it : TargetIterator) (channel : Nat) :
    (it.inc channel).1 =
      { it with pos := Function.update it.pos channel (it.pos channel + 1) } := by
  unfold TargetIterator.inc
  simp only []
  split <;> rfl

theorem inc_times_state (channel : Nat) :
    ∀ (k : Nat) (it : TargetIterator),
      inc_times channel k it =
        { it with pos := Function.update it.pos channel (it.pos channel + (k : Int)) } := by
  intro k
  induction k with
  | zero =>
    intro it
    simp [inc_times]
  | succ k ih =>
    intro it
    rw [inc_times, ih, inc_state]
    simp only [Function.update_same, Function.update_idem, Nat.cast_succ]
    rw [show it.pos channel + 1 + (k : Int) = it.pos channel + ((k : Int) + 1) by omega]

/-- C24. One residue per lane per column: for every target of length `L` that
`init_target` assigns to a lane (the next pending target of the batch, number `n`, `L`
fitting an `int`), `init_target` returns true and puts the lane at position 0; after
`k < L` calls `inc(channel)` the letter `operator[](channel)` is the target's residue
`seq[k]`, so the lane yields `seq[0], ..., seq[L-1]` in order, one per call; call
number `k + 1` of `inc(channel)` returns true when `k + 1 < L` and false when
`k + 1 = L`, so `inc` returns true exactly `L - 1` times and then false; and every
call of `inc` changes `pos[channel]` only. -/
theorem inc_feeds_residues (SUPER_HARD_MASK : Nat) (it : TargetIterator) (i channel : Nat)
    (t : DpTarget) (n : Nat) (hn : it.next = (n : Int)) (hnext : it.next < it.n_targets)
    (ht : it.subject_begin[n]? = some t) (hfit : t.seq.length < 2147483648) :
    (it.init_target i channel).2 = true ∧
    (it.init_target i channel).1.pos channel = 0 ∧
    (it.init_target i channel).1.target channel = it.next ∧
    (∀ k : Nat, k < t.seq.length →
      t.seq[k]? = some (TargetIterator.letter SUPER_HARD_MASK
        (inc_times channel k (it.init_target i channel).1) channel) ∧
      (TargetIterator.inc (inc_times channel k (it.init_target i channel).1) channel).2 =
        decide (k + 1 < t.seq.length)) ∧
    (∀ (it1 : TargetIterator) (c : Nat),
      (it1.inc c).1 = { it1 with pos := Function.update it1.pos c (it1.pos c + 1) } ∧
      (∀ c1, c1 ≠ c → (it1.inc c).1.pos c1 = it1.pos c1)) := by
  have hinit : it.init_target i channel =
      ({ it with
          pos := Function.update it.pos channel 0
          target := Function.update it.target channel it.next
          next := it.next + 1 }, true) := by
    unfold TargetIterator.init_target
    rw [if_pos hnext]
  have hlen : to_int t.seq.length = (t.seq.length : Int) := to_int_of_lt _ hfit
  refine ⟨by rw [hinit], by rw [hinit]; simp, by rw [hinit]; simp, ?_, ?_⟩
  · intro k hk
    rw [hinit, inc_times_state]
    constructor
    · unfold TargetIterator.letter
      simp only [Function.update_same, zero_add]
      rw [if_pos (by omega), hn, Int.toNat_ofNat, ht]
      simp only [Int.toNat_ofNat]
      rw [List.getD_eq_getElem?_getD, List.getElem?_eq_getElem hk]
      rfl
    · unfold TargetIterator.inc
      simp only [Function.update_same, zero_add, hn, Int.toNat_ofNat, ht, hlen]
      by_cases hk1 : k + 1 < t.seq.length
      · rw [if_neg (by omega)]
        simp [hk1]
      · rw [if_pos (by omega)]
        simp [hk1]
  · intro it1 c
    refine ⟨inc_state it1 c, ?_⟩
    intro c1 hc1
    rw [inc_state]
    exact Function.update_noteq hc1 _ _

/-- C24, at an instance: a target with the residues 4, 5, 6 assigned to lane 1; after
two calls of `inc` the lane yields the last residue, and the third call returns false. -/
theorem inc_feeds_residues_witness :
    ([4, 5, 6] : sequence)[2]? = some (TargetIterator.letter 25
      (inc_times 1 2 (TargetIterator.init_target
        ⟨fun _ => -1, fun _ => 0, 0, 1, 0, [0], [⟨[4, 5, 6], 0, 3, 0⟩]⟩ 0 1).1) 1) ∧
    (TargetIterator.inc (inc_times 1 2 (TargetIterator.init_target
        ⟨fun _ => -1, fun _ => 0, 0, 1, 0, [0], [⟨[4, 5, 6], 0, 3, 0⟩]⟩ 0 1).1) 1).2 =
      decide (2 + 1 < 3) :=
  (inc_feeds_residues 25 ⟨fun _ => -1, fun _ => 0, 0, 1, 0, [0], [⟨[4, 5, 6], 0, 3, 0⟩]⟩ 0 1
    ⟨[4, 5, 6], 0, 3, 0⟩ 0 rfl (by decide) rfl (by decide)).2.2.2.1 2 (by decide)

theorem byte_of_eq (w k : Nat) : byte_of w k = (w >>> (8 * k)) % 256 := by
  unfold byte_of
  exact and_255 _

theorem byte_of_or (a b k : Nat) : byte_of (a ||| b) k = byte_of a k ||| byte_of b k := by
  simp only [byte_of_eq]
  have h256 : (256 : Nat) = 2 ^ 8 := by norm_num
  rw [h256]
  apply Nat.eq_of_testBit_eq
  intro i
  simp only [Nat.testBit_mod_two_pow, Nat.testBit_shiftRight, Nat.testBit_or]
  cases decide (i < 8) <;> simp

theorem byte_of_shift (c ch k : Nat) (hc : c < 256) :
    byte_of ((c <<< (8 * ch)) % 18446744073709551616) k = if k = ch ∧ k < 8 then c else 0 := by
  rw [byte_of_eq]
  have h256 : (256 : Nat) = 2 ^ 8 := by norm_num
  have h64 : (18446744073709551616 : Nat) = 2 ^ 64 := by norm_num
  rw [h256, h64]
  rw [h256] at hc
  apply Nat.eq_of_testBit_eq
  intro i
  simp only [Nat.testBit_mod_two_pow, Nat.testBit_shiftRight, Nat.testBit_shiftLeft]
  by_cases hi : i < 8
  · by_cases hk : k = ch ∧ k < 8
    · obtain ⟨h1, h2⟩ := hk
      subst h1
      rw [if_pos ⟨rfl, h2⟩]
      have h3 : 8 * k + i < 64 := by omega
      have h4 : 8 * k + i - 8 * k = i := by omega
      simp [hi, h3, h4]
    · rw [if_neg hk]
      simp only [Nat.zero_testBit]
      by_cases h3 : 8 * k + i < 64
      · by_cases h4 : 8 * k + i ≥ 8 * ch
        · have h5 : 8 ≤ 8 * k + i - 8 * ch := by
            have : k ≠ ch := fun h => hk ⟨h, by omega⟩
            omega
          have h6 : c.testBit (8 * k + i - 8 * ch) = false :=
            Nat.testBit_lt_two_pow (lt_of_lt_of_le hc (Nat.pow_le_pow_right (by norm_num) h5))
          simp [h6]
        · simp [h4]
      · simp [h3]
  · have h6 : c.testBit i = false :=
      Nat.testBit_lt_two_pow (lt_of_lt_of_le hc (Nat.pow_le_pow_right (by norm_num) (by omega)))
    by_cases hk : k = ch ∧ k < 8
    · rw [if_pos hk]
      simp [hi, h6]
    · rw [if_neg hk]
      simp [hi]

theorem byte_of_zero (k : Nat) : byte_of 0 k = 0 := by
  simp [byte_of]

theorem foldl_or_byte (g : Nat → Nat) (k : Nat) (hk : k < 8) :
    ∀ (l : List Nat) (acc : Nat), (∀ c ∈ l, g c < 256) →
      byte_of (l.foldl (fun dst c => dst ||| ((g c <<< (8 * c)) % 18446744073709551616)) acc) k =
        byte_of acc k ||| (if k ∈ l then g k else 0) := by
  intro l
  induction l with
  | nil => intro acc _; simp
  | cons a rest ih =>
    intro acc hg
    rw [List.foldl_cons, ih _ (fun c hc => hg c (List.mem_cons_of_mem _ hc)), byte_of_or,
      byte_of_shift _ _ _ (hg a (List.mem_cons_self _ _))]
    by_cases hka : k = a
    · subst hka
      rw [if_pos ⟨rfl, hk⟩]
      by_cases hr : k ∈ rest
      · simp [hr, Nat.or_assoc]
      · simp [hr]
    · rw [if_neg (fun h => hka h.1)]
      by_cases hr : k ∈ rest
      · simp [hr, hka]
      · simp [hr, hka]

theorem uint64_of_char_small (char_signed : Bool) (c : Nat)
    (hc : c < (if char_signed = true then 128 else 256)) :
    uint64_of_char char_signed c = c ∧ c < 256 := by
  unfold uint64_of_char
  cases char_signed with
  | false =>
    simp only [Bool.false_eq_true, if_false, false_and] at hc ⊢
    exact ⟨Nat.mod_eq_of_lt hc, hc⟩
  | true =>
    simp only [if_true, true_and] at hc ⊢
    have hm : c % 256 = c := Nat.mod_eq_of_lt (by omega)
    rw [hm, if_neg (by omega)]
    exact ⟨rfl, by omega⟩

theorem get_word_byte (char_signed : Bool) (SUPER_HARD_MASK : Nat) (it : TargetIterator)
    (k : Nat) (hk : k < 8)
    (hact : ∀ c ∈ it.active, TargetIterator.letter SUPER_HARD_MASK it c <
      (if char_signed = true then 128 else 256)) :
    byte_of (TargetIterator.get_word char_signed SUPER_HARD_MASK it) k =
      if k ∈ it.active then TargetIterator.letter SUPER_HARD_MASK it k else 0 := by
  unfold TargetIterator.get_word
  rw [foldl_or_byte (fun c => uint64_of_char char_signed
    (TargetIterator.letter SUPER_HARD_MASK it c)) k hk it.active 0
    (fun c hc => by
      show uint64_of_char char_signed (TargetIterator.letter SUPER_HARD_MASK it c) < 256
      rw [(uint64_of_char_small char_signed _ (hact c hc)).1]
      exact (uint64_of_char_small char_signed _ (hact c hc)).2)]
  rw [byte_of_zero, Nat.zero_or]
  by_cases hmem : k ∈ it.active
  · rw [if_pos hmem, if_pos hmem]
    exact (uint64_of_char_small char_signed _ (hact k hmem)).1
  · rw [if_neg hmem, if_neg hmem]

/-- On the active lanes the two variants of `get()` agree: for `_n = 8` and every
TargetIterator state whose active channels are below 8 and hold letters that `char`
represents without a sign (below 128, or below 256 where `char` is unsigned), byte `k`
of the 64-bit word returned by the `get()` of the build without SSSE3 equals the
symbol that the SSSE3 `get()` places in lane `k`, for every active lane `k` in 0..7;
in a lane that is not active the word holds the byte 0 and the SSSE3 variant holds
`SUPER_HARD_MASK`. -/
theorem get_word_lanes (char_signed : Bool) (SUPER_HARD_MASK : Nat) (it : TargetIterator)
    (k : Nat) (hk : k < 8)
    (hact : ∀ c ∈ it.active, c < 8 ∧ TargetIterator.letter SUPER_HARD_MASK it c <
      (if char_signed = true then 128 else 256)) :
    (k ∈ it.active →
      (TargetIterator.get 8 SUPER_HARD_MASK it)[k]? =
        some (byte_of (TargetIterator.get_word char_signed SUPER_HARD_MASK it) k) ∧
      byte_of (TargetIterator.get_word char_signed SUPER_HARD_MASK it) k =
        TargetIterator.letter SUPER_HARD_MASK it k) ∧
    (k ∉ it.active →
      byte_of (TargetIterator.get_word char_signed SUPER_HARD_MASK it) k = 0 ∧
      (TargetIterator.get 8 SUPER_HARD_MASK it)[k]? = some SUPER_HARD_MASK) := by
  have hbyte := get_word_byte char_signed SUPER_HARD_MASK it k hk (fun c hc => (hact c hc).2)
  have hlane : (TargetIterator.get 8 SUPER_HARD_MASK it)[k]? =
      if k ∈ it.active then some (TargetIterator.letter SUPER_HARD_MASK it k)
      else some SUPER_HARD_MASK := by
    unfold TargetIterator.get
    rw [foldl_set_getElem?]
    by_cases hmem : k ∈ it.active
    · simp only [hmem, if_true, List.length_replicate, hk]
    · simp only [hmem, if_false, List.getElem?_replicate, hk, if_true]
  constructor
  · intro hmem
    rw [hbyte, hlane, if_pos hmem, if_pos hmem]
    exact ⟨rfl, rfl⟩
  · intro hmem
    rw [hbyte, hlane, if_neg hmem, if_neg hmem]
    exact ⟨rfl, rfl⟩

/-- C25. The code at the failing input: with one target in lane 0 of eight, lane 1 is
not active; the SSSE3 `get()` puts `SUPER_HARD_MASK` (here 25) in lane 1, and byte 1 of
the word returned by the `get()` of the build without SSSE3 is 0, the letter 0: that
word is built from `dst = 0` by OR-ing the active lanes only. The two differ for every
`SUPER_HARD_MASK` from 1 to 127. The word also differs on an active lane above a lane
whose letter is negative as a signed `char`: with the letter 200 in lane 0 and the
letter 5 in lane 1, the sign extension of `uint64_t(char)` sets byte 1 of the word to
255, where the SSSE3 variant has the letter 5. -/
theorem get_word_inactive_lane :
    (TargetIterator.get 8 25 ⟨fun _ => 0, fun _ => 0, 1, 1, 3, [0], [⟨[4, 5, 6], 0, 3, 0⟩]⟩)[1]? =
      some 25 ∧
    byte_of (TargetIterator.get_word true 25
      ⟨fun _ => 0, fun _ => 0, 1, 1, 3, [0], [⟨[4, 5, 6], 0, 3, 0⟩]⟩) 1 = 0 ∧
    byte_of (TargetIterator.get_word false 25
      ⟨fun _ => 0, fun _ => 0, 1, 1, 3, [0], [⟨[4, 5, 6], 0, 3, 0⟩]⟩) 1 = 0 ∧
    (TargetIterator.get 8 25
      ⟨fun _ => 0, fun c => c, 2, 2, 1, [0, 1], [⟨[200], 0, 1, 0⟩, ⟨[5], 0, 1, 1⟩]⟩)[1]? = some 5 ∧
    byte_of (TargetIterator.get_word true 25
      ⟨fun _ => 0, fun c => c, 2, 2, 1, [0, 1], [⟨[200], 0, 1, 0⟩, ⟨[5], 0, 1, 1⟩]⟩) 1 = 255 ∧
    ∀ (char_signed : Bool) (mask : Nat), 0 < mask → mask < 128 →
      (TargetIterator.get 8 mask
          ⟨fun _ => 0, fun _ => 0, 1, 1, 3, [0], [⟨[4, 5, 6], 0, 3, 0⟩]⟩)[1]? ≠
        some (byte_of (TargetIterator.get_word char_signed mask
          ⟨fun _ => 0, fun _ => 0, 1, 1, 3, [0], [⟨[4, 5, 6], 0, 3, 0⟩]⟩) 1) := by
  refine ⟨by decide, by decide, by decide, by decide, by decide, ?_⟩
  intro char_signed mask hmask _ hcon
  have hl : (TargetIterator.get 8 mask
      ⟨fun _ => 0, fun _ => 0, 1, 1, 3, [0], [⟨[4, 5, 6], 0, 3, 0⟩]⟩)[1]? = some mask := by
    simp [TargetIterator.get, List.replicate]
  have hb : byte_of (TargetIterator.get_word char_signed mask
      ⟨fun _ => 0, fun _ => 0, 1, 1, 3, [0], [⟨[4, 5, 6], 0, 3, 0⟩]⟩) 1 = 0 := by
    rw [get_word_byte char_signed mask _ 1 (by decide)]
    · rfl
    · intro c hc
      simp only [List.mem_singleton] at hc
      subst hc
      cases char_signed <;> simp [TargetIterator.letter]
  rw [hl, hb] at hcon
  have := Option.some.inj hcon
  omega

theorem shift_links_length : ∀ l : List Diagonal_node, (shift_links l).length = l.length := by
  intro l
  induction l with
  | nil => rfl
  | cons d rest ih =>
    simp only [shift_links]
    split_ifs with h
    · rfl
    · simp only [List.length_cons, ih]

theorem shift_links_getElem? :
    ∀ (l : List Diagonal_node) (i : Nat) (d : Diagonal_node), l[i]? = some d →
      ∃ d1, (shift_links l)[i]? = some d1 ∧ (0 ≤ d1.link_idx ↔ 0 ≤ d.link_idx) ∧
        ((∀ (j : Nat) (dj : Diagonal_node), j ≤ i → l[j]? = some dj → 0 ≤ dj.link_idx) →
          d1.link_idx = d.link_idx + 1) := by
  intro l
  induction l with
  | nil => intro i d h; simp at h
  | cons x rest ih =>
    intro i d h
    simp only [shift_links]
    by_cases hx : x.link_idx = -1
    · rw [if_pos hx]
      refine ⟨d, h, Iff.rfl, ?_⟩
      intro hall
      have := hall 0 x (Nat.zero_le _) (List.getElem?_cons_zero)
      omega
    · rw [if_neg hx]
      cases i with
      | zero =>
        simp only [List.getElem?_cons_zero, Option.some.injEq] at h
        subst h
        refine ⟨{ x with link_idx := x.link_idx + 1 }, List.getElem?_cons_zero, ?_, fun _ => rfl⟩
        show 0 ≤ x.link_idx + 1 ↔ 0 ≤ x.link_idx
        omega
      | succ i =>
        simp only [List.getElem?_cons_succ] at h ⊢
        obtain ⟨d1, h1, h2, h3⟩ := ih i d h
        refine ⟨d1, h1, h2, ?_⟩
        intro hall
        exact h3 (fun j dj hj hdj => hall (j + 1) dj (by omega) (by simpa using hdj))

theorem edge_runs_node_in (hist : List Edge) :
    ∀ (k : Nat), ∀ x ∈ edge_runs hist k, x.node_in < k := by
  intro k
  induction k with
  | zero => intro x hx; simp [edge_runs] at hx
  | succ k ih =>
    intro x hx
    rw [edge_runs, List.mem_append] at hx
    rcases hx with h | h
    · exact Nat.lt_succ_of_lt (ih x h)
    · rw [List.mem_filter] at h
      have := h.2
      simp only [decide_eq_true_eq] at this
      omega

theorem edge_runs_full (hist : List Edge) (m : Nat) (hm : ∀ e ∈ hist, e.node_in < m) :
    ∀ k, m ≤ k → edge_runs hist k = edge_runs hist m := by
  intro k
  induction k with
  | zero =>
    intro h
    have : m = 0 := by omega
    rw [this]
  | succ k ih =>
    intro h
    by_cases hk : m = k + 1
    · rw [hk]
    · have hnil : hist.filter (fun e => decide (e.node_in = k)) = [] := by
        rw [List.filter_eq_nil_iff]
        intro x hx
        have := hm x hx
        simp only [decide_eq_true_eq]
        omega
      rw [edge_runs, hnil, List.append_nil]
      exact ih (by omega)

theorem edge_runs_append_of_le (hist : List Edge) (e : Edge) :
    ∀ k, k ≤ e.node_in → edge_runs (hist ++ [e]) k = edge_runs hist k := by
  intro k
  induction k with
  | zero => intro _; rfl
  | succ k ih =>
    intro h
    have hne : ¬ e.node_in = k := by omega
    rw [edge_runs, edge_runs, ih (by omega), List.filter_append]
    simp [hne]

theorem edge_runs_append_of_gt (hist : List Edge) (e : Edge) :
    ∀ k, e.node_in < k →
      ∃ R, edge_runs hist k = edge_runs hist (e.node_in + 1) ++ R ∧
        edge_runs (hist ++ [e]) k = edge_runs hist (e.node_in + 1) ++ e :: R := by
  intro k
  induction k with
  | zero => intro h; omega
  | succ k ih =>
    intro h
    by_cases hk : e.node_in = k
    · refine ⟨[], by rw [hk, List.append_nil], ?_⟩
      rw [edge_runs, edge_runs_append_of_le hist e k (by omega), List.filter_append, ← hk,
        edge_runs]
      simp
    · obtain ⟨R, h1, h2⟩ := ih (by omega)
      refine ⟨R ++ hist.filter (fun x => decide (x.node_in = k)), ?_, ?_⟩
      · rw [edge_runs, h1, List.append_assoc]
      · rw [edge_runs, h2, List.filter_append]
        simp [hk]

theorem edge_runs_extend (hist : List Edge) :
    ∀ (k j : Nat), j ≤ k → ∃ R, edge_runs hist k = edge_runs hist j ++ R := by
  intro k
  induction k with
  | zero =>
    intro j hj
    have : j = 0 := by omega
    exact ⟨[], by rw [this]; rfl⟩
  | succ k ih =>
    intro j hj
    by_cases hjk : j = k + 1
    · exact ⟨[], by rw [hjk, List.append_nil]⟩
    · obtain ⟨R, hR⟩ := ih j (by omega)
      exact ⟨R ++ hist.filter (fun x => decide (x.node_in = k)), by
        rw [edge_runs, hR, List.append_assoc]⟩

theorem add_edge_nodes (g : Diag_graph) (e : Edge) (d : Diagonal_node)
    (hd : g.nodes[e.node_in]? = some d) :
    (g.add_edge e).1.edges =
      g.edges.take d.link_idx.toNat ++ e :: g.edges.drop d.link_idx.toNat ∧
    (g.add_edge e).2 = d.link_idx.toNat ∧
    (g.add_edge e).1.nodes.length = g.nodes.length ∧
    (∃ d2, (g.add_edge e).1.nodes[e.node_in]? = some d2 ∧ d2.link_idx = d.link_idx + 1) ∧
    (∀ (k : Nat) (dk : Diagonal_node), k < e.node_in → g.nodes[k]? = some dk →
      (g.add_edge e).1.nodes[k]? = some dk) ∧
    (∀ (k : Nat) (dk : Diagonal_node), e.node_in < k → g.nodes[k]? = some dk →
      ∃ d2, (g.add_edge e).1.nodes[k]? = some d2 ∧ (0 ≤ d2.link_idx ↔ 0 ≤ dk.link_idx) ∧
        ((∀ (j : Nat) (dj : Diagonal_node), e.node_in < j → j ≤ k → g.nodes[j]? = some dj →
          0 ≤ dj.link_idx) → d2.link_idx = dk.link_idx + 1)) := by
  have h1 := shifted_nodes_getElem? g.nodes e.node_in
  rw [hd] at h1
  have hlt : e.node_in < g.nodes.length := by
    by_contra hcon
    rw [List.getElem?_eq_none (by omega)] at hd
    cases hd
  have hlen : (g.nodes.take (e.node_in + 1) ++ shift_links (g.nodes.drop (e.node_in + 1))).length =
      g.nodes.length := by
    rw [List.length_append, shift_links_length, List.length_take, List.length_drop]
    omega
  have htake : (g.nodes.take (e.node_in + 1)).length = e.node_in + 1 := by
    rw [List.length_take]
    omega
  have hidx : (if e.prefix_score > d.prefix_score then
      ({ d with prefix_score := e.prefix_score, path_max := e.path_max, path_min := e.path_min } :
        Diagonal_node) else d).link_idx = d.link_idx := by
    split <;> rfl
  simp only [Diag_graph.add_edge, h1, hidx]
  refine ⟨trivial, trivial, ?_, ?_, ?_, ?_⟩
  · rw [List.length_set, hlen]
  · refine ⟨_, List.getElem?_set_self (by rw [hlen]; exact hlt), rfl⟩
  · intro k dk hk hdk
    rw [List.getElem?_set_ne (by omega), List.getElem?_append_left (by omega),
      List.getElem?_take_of_lt (by omega)]
    exact hdk
  · intro k dk hk hdk
    rw [List.getElem?_set_ne (by omega), List.getElem?_append_right (by omega), htake]
    have hdrop : (g.nodes.drop (e.node_in + 1))[k - (e.node_in + 1)]? = some dk := by
      rw [List.getElem?_drop, ← hdk]
      congr 1
      omega
    obtain ⟨d2, h2, h3, h4⟩ := shift_links_getElem? _ _ _ hdrop
    refine ⟨d2, h2, h3, ?_⟩
    intro hall
    apply h4
    intro j dj hj hdj
    rw [List.getElem?_drop] at hdj
    exact hall (e.node_in + 1 + j) dj (by omega) (by omega) hdj

theorem add_edge_partition (g : Diag_graph) (m : Nat) (hist : List Edge)
    (hinv : EdgePartition g m hist) (e : Edge) (he : e.node_in < m) :
    EdgePartition (g.add_edge e).1 m (hist ++ [e]) ∧
    (g.add_edge e).1.edges.length = g.edges.length + 1 ∧
    (g.add_edge e).1.edges[(g.add_edge e).2]? = some e ∧
    (g.add_edge e).2 + 1 = (edge_runs (hist ++ [e]) (e.node_in + 1)).length ∧
    (∀ (k : Nat) (d : Diagonal_node), e.node_in < k → k < m → g.nodes[k]? = some d →
      ∃ d2, (g.add_edge e).1.nodes[k]? = some d2 ∧ d2.link_idx = d.link_idx + 1) := by
  obtain ⟨hm, hinit, hhist, hedges, hlink⟩ := hinv
  obtain ⟨d, hd⟩ : ∃ d, g.nodes[e.node_in]? = some d :=
    ⟨g.nodes[e.node_in], List.getElem?_eq_getElem (by omega)⟩
  have hdl := hlink e.node_in d he hd
  have hto : d.link_idx.toNat = (edge_runs hist (e.node_in + 1)).length := by
    rw [hdl]
    exact Int.toNat_ofNat _
  obtain ⟨hE, hI, hlen, ⟨da, hda, hdal⟩, hbelow, habove⟩ := add_edge_nodes g e d hd
  rw [hto] at hE hI
  obtain ⟨R, hR1, hR2⟩ := edge_runs_append_of_gt hist e m he
  obtain ⟨R0, hR01, hR02⟩ := edge_runs_append_of_gt hist e (e.node_in + 1) (by omega)
  have hR0 : R0 = [] := by
    have := congrArg List.length hR01
    rw [List.length_append] at this
    exact List.length_eq_zero.1 (by omega)
  rw [hR0] at hR02
  have hrun : (edge_runs (hist ++ [e]) (e.node_in + 1)).length =
      (edge_runs hist (e.node_in + 1)).length + 1 := by
    rw [hR02, List.length_append]
    rfl
  have hE2 : (g.add_edge e).1.edges = edge_runs (hist ++ [e]) m := by
    rw [hE, hedges, hR2, hR1, List.take_left, List.drop_left]
  have hallpos : ∀ k : Nat, k < m → ∀ (j : Nat) (dj : Diagonal_node), e.node_in < j → j ≤ k →
      g.nodes[j]? = some dj → 0 ≤ dj.link_idx :=
    fun k hk j dj _ hjk hdj => (hinit j dj hdj).2 (by omega)
  have hold : ∀ k : Nat, k < g.nodes.length → ∃ dk, g.nodes[k]? = some dk :=
    fun k hk => ⟨g.nodes[k], List.getElem?_eq_getElem hk⟩
  have hklt : ∀ (k : Nat) (d1 : Diagonal_node), (g.add_edge e).1.nodes[k]? = some d1 →
      k < g.nodes.length := by
    intro k d1 h
    by_contra hcon
    rw [List.getElem?_eq_none (by rw [hlen]; omega)] at h
    cases h
  refine ⟨⟨by rw [hlen]; exact hm, ?_, ?_, hE2, ?_⟩, ?_, ?_, ?_, ?_⟩
  · intro k d1 hd1
    obtain ⟨dk, hdk⟩ := hold k (hklt k d1 hd1)
    rcases Nat.lt_trichotomy k e.node_in with hk | hk | hk
    · rw [hbelow k dk hk hdk] at hd1
      rw [← Option.some.inj hd1]
      exact hinit k dk hdk
    · subst hk
      rw [hda] at hd1
      cases hd1
      rw [hdal, hdl]
      constructor
      · intro _; exact he
      · intro _; omega
    · obtain ⟨d2, h2, h3, -⟩ := habove k dk hk hdk
      rw [h2] at hd1
      cases hd1
      rw [h3]
      exact hinit k dk hdk
  · intro x hx
    rcases List.mem_append.1 hx with h | h
    · exact hhist x h
    · simp only [List.mem_singleton] at h
      rw [h]
      exact he
  · intro k d1 hk hd1
    obtain ⟨dk, hdk⟩ := hold k (hklt k d1 hd1)
    rcases Nat.lt_trichotomy k e.node_in with hka | hka | hka
    · rw [hbelow k dk hka hdk] at hd1
      rw [← Option.some.inj hd1, edge_runs_append_of_le hist e (k + 1) (by omega)]
      exact hlink k dk hk hdk
    · subst hka
      rw [hda] at hd1
      cases hd1
      rw [hdal, hdl, hrun]
      push_cast
      rfl
    · obtain ⟨d2, h2, -, h4⟩ := habove k dk hka hdk
      rw [h2] at hd1
      cases hd1
      rw [h4 (hallpos k hk), hlink k dk hk hdk]
      obtain ⟨R1, h5, h6⟩ := edge_runs_append_of_gt hist e (k + 1) (by omega)
      rw [h5, h6]
      simp only [List.length_append, List.length_cons]
      push_cast
      omega
  · rw [hE2, hedges, hR1, hR2]
    simp only [List.length_append, List.length_cons]
    omega
  · rw [hI, hE2, hR2, List.getElem?_append_right (le_refl _), Nat.sub_self]
    exact List.getElem?_cons_zero
  · rw [hI, hrun]
  · intro k dk hka hk hdk
    obtain ⟨d2, h2, -, h4⟩ := habove k dk hka hdk
    exact ⟨d2, h2, h4 (hallpos k hk)⟩

theorem init_node_partition (g : Diag_graph) (m : Nat) (hist : List Edge)
    (hinv : EdgePartition g m hist) (hnode : m < g.nodes.length)
    (hfew : g.edges.length < 2147483647) :
    (g.init_node m).2 = Except.ok () ∧ (g.init_node m).1.edges = g.edges ∧
    EdgePartition (g.init_node m).1 (m + 1) hist := by
  obtain ⟨hm, hinit, hhist, hedges, hlink⟩ := hinv
  have hto : to_int g.edges.length = (g.edges.length : Int) := to_int_of_lt _ (by omega)
  have hget : g.nodes[m]? = some g.nodes[m] := List.getElem?_eq_getElem hnode
  have hres : g.init_node m =
      (⟨g.nodes.set m { g.nodes[m] with link_idx := (g.edges.length : Int) }, g.edges⟩,
        Except.ok ()) := by
    unfold Diag_graph.init_node
    rw [if_neg (by omega), hget, hto]
  have hfull := edge_runs_full hist m hhist (m + 1) (by omega)
  rw [hres]
  refine ⟨rfl, rfl, by simp only [List.length_set]; omega, ?_, ?_, ?_, ?_⟩
  · intro k d1 hd1
    by_cases hk : k = m
    · subst hk
      rw [List.getElem?_set_self hnode] at hd1
      cases hd1
      constructor
      · intro _; omega
      · intro _; exact Int.ofNat_nonneg _
    · rw [List.getElem?_set_ne (Ne.symm hk)] at hd1
      rw [hinit k d1 hd1]
      omega
  · intro x hx
    exact Nat.lt_succ_of_lt (hhist x hx)
  · show g.edges = edge_runs hist (m + 1)
    rw [hfull]
    exact hedges
  · intro k d1 hk hd1
    by_cases hkm : k = m
    · subst hkm
      rw [List.getElem?_set_self hnode] at hd1
      cases hd1
      show (g.edges.length : Int) = _
      rw [hfull, hedges]
    · rw [List.getElem?_set_ne (Ne.symm hkm)] at hd1
      exact hlink k d1 (by omega) hd1

theorem get_edge_scan_spec (edges : List Edge) (node : Nat) (j : Int) (s : Nat)
    (hfirst : ∀ e, 0 < s → edges[s - 1]? = some e → e.node_in ≠ node) :
    ∀ (k : Nat) (acc : Nat × Int), s ≤ k → k ≤ edges.length →
      (∀ (i : Nat) (e : Edge), s ≤ i → i < k → edges[i]? = some e → e.node_in = node) →
      acc.2 ≤ (get_edge_scan edges node j k acc).2 ∧
      (∀ (i : Nat) (e : Edge), s ≤ i → i < k → edges[i]? = some e → e.j < j →
        e.prefix_score ≤ (get_edge_scan edges node j k acc).2) ∧
      ((get_edge_scan edges node j k acc = acc ∧
          ∀ (i : Nat) (e : Edge), s ≤ i → i < k → edges[i]? = some e → e.j < j →
            e.prefix_score ≤ acc.2) ∨
        (∃ (i : Nat) (e : Edge), s ≤ i ∧ i < k ∧ edges[i]? = some e ∧
          get_edge_scan edges node j k acc = (i, e.prefix_score) ∧ e.j < j ∧
          e.prefix_score > acc.2 ∧
          ∀ (i1 : Nat) (e1 : Edge), i < i1 → i1 < k → edges[i1]? = some e1 → e1.j < j →
            e1.prefix_score < e.prefix_score)) := by
  intro k
  induction k with
  | zero =>
    intro acc _ _ _
    refine ⟨le_refl _, fun i e _ h => absurd h (Nat.not_lt_zero _), Or.inl ⟨rfl, ?_⟩⟩
    exact fun i e _ h => absurd h (Nat.not_lt_zero _)
  | succ k ih =>
    intro acc hs hk hblock
    have hget : edges[k]? = some edges[k] := List.getElem?_eq_getElem (by omega)
    by_cases hsk : s = k + 1
    · have hne : edges[k].node_in ≠ node := by
        apply hfirst _ (by omega)
        rw [hsk]
        exact hget
      have hres : get_edge_scan edges node j (k + 1) acc = acc := by
        rw [get_edge_scan, hget]
        simp only [hne, if_false]
      rw [hres]
      refine ⟨le_refl _, fun i e h1 h2 => by omega, Or.inl ⟨rfl, fun i e h1 h2 => by omega⟩⟩
    · have hin : edges[k].node_in = node := hblock k _ (by omega) (by omega) hget
      have hres : get_edge_scan edges node j (k + 1) acc =
          get_edge_scan edges node j k
            (if edges[k].j < j ∧ edges[k].prefix_score > acc.2 then (k, edges[k].prefix_score)
             else acc) := by
        rw [get_edge_scan, hget]
        simp only [hin, if_true]
      have hacc : acc.2 ≤ (if edges[k].j < j ∧ edges[k].prefix_score > acc.2 then
          (k, edges[k].prefix_score) else acc).2 ∧
          (edges[k].j < j → edges[k].prefix_score ≤
            (if edges[k].j < j ∧ edges[k].prefix_score > acc.2 then
              (k, edges[k].prefix_score) else acc).2) := by
        by_cases hc : edges[k].j < j ∧ edges[k].prefix_score > acc.2
        · rw [if_pos hc]
          exact ⟨le_of_lt hc.2, fun _ => le_refl _⟩
        · rw [if_neg hc]
          refine ⟨le_refl _, fun hj => ?_⟩
          by_contra hcon
          exact hc ⟨hj, by omega⟩
      obtain ⟨h1, h2, h3⟩ := ih
        (if edges[k].j < j ∧ edges[k].prefix_score > acc.2 then (k, edges[k].prefix_score)
         else acc) (by omega) (by omega)
        (fun i e hi1 hi2 he => hblock i e hi1 (by omega) he)
      rw [hres]
      have hk_of : ∀ (i : Nat) (e : Edge), i < k + 1 → ¬ i < k → edges[i]? = some e →
          e = edges[k] := by
        intro i e hi1 hi2 he
        have hik : i = k := by omega
        rw [hik, hget] at he
        exact (Option.some.inj he).symm
      refine ⟨le_trans hacc.1 h1, ?_, ?_⟩
      · intro i e hi1 hi2 he hj
        by_cases hik : i < k
        · exact h2 i e hi1 hik he hj
        · rw [hk_of i e hi2 hik he] at hj ⊢
          exact le_trans (hacc.2 hj) h1
      · rcases h3 with ⟨h4, h5⟩ | ⟨i, e, hi1, hi2, he, h4, h5, h6, h7⟩
        · by_cases hc : edges[k].j < j ∧ edges[k].prefix_score > acc.2
          · rw [if_pos hc] at h4 ⊢
            right
            exact ⟨k, edges[k], by omega, by omega, hget, h4, hc.1, hc.2,
              fun i1 e1 hi3 hi4 => by omega⟩
          · rw [if_neg hc] at h4 h5 ⊢
            left
            refine ⟨h4, ?_⟩
            intro i e hi1 hi2 he hj
            by_cases hik : i < k
            · exact h5 i e hi1 hik he hj
            · rw [hk_of i e hi2 hik he] at hj ⊢
              by_contra hcon
              exact hc ⟨hj, by omega⟩
        · right
          refine ⟨i, e, hi1, by omega, he, h4, h5, lt_of_le_of_lt hacc.1 h6, ?_⟩
          intro i1 e1 hi3 hi4 he1 hj
          by_cases hik : i1 < k
          · exact h7 i1 e1 hi3 hik he1 hj
          · rw [hk_of i1 e1 hi4 hik he1] at hj ⊢
            exact lt_of_le_of_lt (hacc.2 hj) h6

theorem partition_block (g : Diag_graph) (m : Nat) (hist : List Edge)
    (hinv : EdgePartition g m hist) (node : Nat) (hnode : node < m) :
    ∃ R, g.edges = edge_runs hist node ++
        hist.filter (fun e => decide (e.node_in = node)) ++ R := by
  obtain ⟨R, hR⟩ := edge_runs_extend hist m (node + 1) (by omega)
  exact ⟨R, by rw [hinv.2.2.2.1, hR, edge_runs]⟩

theorem get_edge_of_scan (g : Diag_graph) (node : Nat) (d : Diagonal_node) (j : Int)
    (hd : g.nodes[node]? = some d) (hscore : d.score ≠ 0)
    (hempty : g.edges = [] → d.link_idx.toNat = 0) :
    g.get_edge node j =
      some ((get_edge_scan g.edges node j d.link_idx.toNat (g.edges.length, d.score)).1 : Int) := by
  unfold Diag_graph.get_edge
  rw [hd]
  simp only [hscore, if_false]
  by_cases he : g.edges = []
  · rw [if_pos he, hempty he, get_edge_scan]
  · rw [if_neg he]

theorem prefix_score_of_end (g : Diag_graph) (node : Nat) (d : Diagonal_node) (j : Int)
    (hd : g.nodes[node]? = some d) (hget : g.get_edge node j = some (g.edges.length : Int)) :
    g.prefix_score node j = some (d.score, d.score, d.score) := by
  unfold Diag_graph.prefix_score
  rw [hd, hget]
  simp

theorem prefix_score_of_edge (g : Diag_graph) (node : Nat) (d : Diagonal_node) (j : Int)
    (i : Nat) (e : Edge) (hd : g.nodes[node]? = some d)
    (hget : g.get_edge node j = some (i : Int)) (he : g.edges[i]? = some e) :
    g.prefix_score node j =
      some (max d.score e.prefix_score, max d.score e.path_max, e.path_min) := by
  have hlt : i < g.edges.length := by
    by_contra hcon
    rw [List.getElem?_eq_none (by omega)] at he
    cases he
  unfold Diag_graph.prefix_score
  rw [hd, hget]
  have hne : ¬ ((i : Int) = (g.edges.length : Int)) := by omega
  simp only [hne, if_false, Int.toNat_ofNat, Int.ofNat_nonneg, if_true, he]

/-- C23. Best edge before a column: for every `Diag_graph` satisfying the edge-array
partition invariant, every node `node` with non-zero score and every column `j`, with
`R` the run of the node (its edges in insertion order): `get_edge(node, j)` returns
`edges.end()` if and only if no edge of `R` has column `j' < j` and
`prefix_score > nodes[node].score`, and `prefix_score(node, j, ...)` then returns
`nodes[node].score`; otherwise `get_edge` returns the position of an edge `e` of `R`
(the `p`-th) with `j' < j` whose `prefix_score` is the largest among the edges of `R`
with `j' < j`, every later edge of `R` with `j' < j` having a strictly smaller one (so
`e` is the latest inserted among ties), and `prefix_score(node, j, ...)` returns that
`prefix_score`, with `path_max = max(score, e.path_max)` and `path_min = e.path_min`. -/
theorem get_edge_best (g : Diag_graph) (m : Nat) (hist : List Edge)
    (hinv : EdgePartition g m hist) (node : Nat) (d : Diagonal_node)
    (hd : g.nodes[node]? = some d) (hscore : d.score ≠ 0) (j : Int) :
    (g.get_edge node j = some (g.edges.length : Int) ↔
      ∀ e ∈ hist.filter (fun e => decide (e.node_in = node)),
        ¬ (e.j < j ∧ e.prefix_score > d.score)) ∧
    ((∀ e ∈ hist.filter (fun e => decide (e.node_in = node)),
        ¬ (e.j < j ∧ e.prefix_score > d.score)) →
      g.prefix_score node j = some (d.score, d.score, d.score)) ∧
    ((∃ e ∈ hist.filter (fun e => decide (e.node_in = node)),
        e.j < j ∧ e.prefix_score > d.score) →
      ∃ (p : Nat) (e : Edge),
        (hist.filter (fun e => decide (e.node_in = node)))[p]? = some e ∧
        g.get_edge node j = some (((edge_runs hist node).length + p : Nat) : Int) ∧
        g.edges[(edge_runs hist node).length + p]? = some e ∧
        e.j < j ∧ e.prefix_score > d.score ∧
        (∀ e1 ∈ hist.filter (fun e => decide (e.node_in = node)),
          e1.j < j → e1.prefix_score ≤ e.prefix_score) ∧
        (∀ (q : Nat) (e1 : Edge), p < q →
          (hist.filter (fun e => decide (e.node_in = node)))[q]? = some e1 → e1.j < j →
            e1.prefix_score < e.prefix_score) ∧
        g.prefix_score node j =
          some (e.prefix_score, max d.score e.path_max, e.path_min)) := by
  have hinv0 := hinv
  obtain ⟨hm, hinit, hhist, hedges, hlink⟩ := hinv
  by_cases hnode : node < m
  · obtain ⟨R, hR⟩ := partition_block g m hist hinv0 node hnode
    have hk : d.link_idx.toNat = (edge_runs hist node).length +
        (hist.filter (fun e => decide (e.node_in = node))).length := by
      rw [hlink node d hnode hd, Int.toNat_ofNat, edge_runs, List.length_append]
    have hlen : g.edges.length = (edge_runs hist node).length +
        (hist.filter (fun e => decide (e.node_in = node))).length + R.length := by
      rw [hR, List.length_append, List.length_append]
    have hrun : ∀ p : Nat, p < (hist.filter (fun e => decide (e.node_in = node))).length →
        g.edges[(edge_runs hist node).length + p]? =
          (hist.filter (fun e => decide (e.node_in = node)))[p]? := by
      intro p hp
      rw [hR, List.getElem?_append_left (by rw [List.length_append]; omega),
        List.getElem?_append_right (by omega)]
      congr 1
      omega
    have hget := get_edge_of_scan g node d j hd hscore (by
      intro he
      rw [he] at hlen
      simp only [List.length_nil] at hlen
      omega)
    rw [hk] at hget
    obtain ⟨-, hbound, hdisj⟩ := get_edge_scan_spec g.edges node j (edge_runs hist node).length
      (by
        intro e hs he
        have hmem : e ∈ edge_runs hist node := by
          rw [hR, List.append_assoc, List.getElem?_append_left (by omega)] at he
          exact List.getElem?_mem he
        exact Nat.ne_of_lt (edge_runs_node_in hist node e hmem))
      ((edge_runs hist node).length + (hist.filter (fun e => decide (e.node_in = node))).length)
      (g.edges.length, d.score) (by omega) (by omega)
      (by
        intro i e hi1 hi2 he
        have hi : i = (edge_runs hist node).length + (i - (edge_runs hist node).length) := by
          omega
        rw [hi, hrun _ (by omega)] at he
        have hmem := List.getElem?_mem he
        rw [List.mem_filter] at hmem
        exact of_decide_eq_true hmem.2)
    have hmem_idx : ∀ e ∈ hist.filter (fun e => decide (e.node_in = node)),
        ∃ p, p < (hist.filter (fun e => decide (e.node_in = node))).length ∧
          (hist.filter (fun e => decide (e.node_in = node)))[p]? = some e := by
      intro e he
      obtain ⟨p, hp, hpe⟩ := List.getElem_of_mem he
      exact ⟨p, hp, by rw [List.getElem?_eq_getElem hp, hpe]⟩
    rcases hdisj with ⟨hsame, hnone⟩ | ⟨i, e, hi1, hi2, he, hres, hj, hgt, hlater⟩
    · have hend : g.get_edge node j = some (g.edges.length : Int) := by
        rw [hget, hsame]
      have hno : ∀ e ∈ hist.filter (fun e => decide (e.node_in = node)),
          ¬ (e.j < j ∧ e.prefix_score > d.score) := by
        intro e hmem hcon
        obtain ⟨p, hp, hpe⟩ := hmem_idx e hmem
        have := hnone ((edge_runs hist node).length + p) e (by omega) (by omega)
          (by rw [hrun p hp]; exact hpe) hcon.1
        simp only at this
        omega
      refine ⟨⟨fun _ => hno, fun _ => hend⟩, fun _ => prefix_score_of_end g node d j hd hend, ?_⟩
      rintro ⟨e, hmem, hcon⟩
      exact absurd hcon (hno e hmem)
    · simp only at hgt
      have hi : i = (edge_runs hist node).length + (i - (edge_runs hist node).length) := by
        omega
      have hp : i - (edge_runs hist node).length <
          (hist.filter (fun e => decide (e.node_in = node))).length := by omega
      have hpe : (hist.filter (fun e => decide (e.node_in = node)))[
          i - (edge_runs hist node).length]? = some e := by
        rw [← hrun _ hp, ← hi]
        exact he
      have hge : g.get_edge node j = some ((i : Nat) : Int) := by
        rw [hget, hres]
      have hmemE : e ∈ hist.filter (fun e => decide (e.node_in = node)) :=
        List.getElem?_mem hpe
      refine ⟨⟨fun hcon => ?_, fun hno => absurd ⟨hj, hgt⟩ (hno e hmemE)⟩,
        fun hno => absurd ⟨hj, hgt⟩ (hno e hmemE), ?_⟩
      · rw [hge] at hcon
        have := Option.some.inj hcon
        omega
      · intro _
        refine ⟨i - (edge_runs hist node).length, e, hpe, by rw [← hi]; exact hge,
          by rw [← hi]; exact he, hj, hgt, ?_, ?_, ?_⟩
        · intro e1 hmem1 hj1
          obtain ⟨p1, hp1, hpe1⟩ := hmem_idx e1 hmem1
          have := hbound ((edge_runs hist node).length + p1) e1 (by omega) (by omega)
            (by rw [hrun p1 hp1]; exact hpe1) hj1
          rw [hres] at this
          exact this
        · intro q e1 hq hqe hj1
          have hq1 : q < (hist.filter (fun e => decide (e.node_in = node))).length := by
            by_contra hcon
            rw [List.getElem?_eq_none (by omega)] at hqe
            cases hqe
          exact hlater ((edge_runs hist node).length + q) e1 (by omega) (by omega)
            (by rw [hrun q hq1]; exact hqe) hj1
        · rw [prefix_score_of_edge g node d j i e hd hge he, max_eq_right (le_of_lt hgt)]
  · have hneg : ¬ 0 ≤ d.link_idx := fun h => hnode ((hinit node d hd).1 h)
    have hk : d.link_idx.toNat = 0 := Int.toNat_eq_zero.2 (by omega)
    have hget := get_edge_of_scan g node d j hd hscore (fun _ => hk)
    rw [hk, get_edge_scan] at hget
    have hrun : hist.filter (fun e => decide (e.node_in = node)) = [] := by
      rw [List.filter_eq_nil_iff]
      intro e he
      have := hhist e he
      simp only [decide_eq_true_eq]
      omega
    rw [hrun]
    refine ⟨⟨fun _ e he => absurd he (List.not_mem_nil _), fun _ => hget⟩,
      fun _ => prefix_score_of_end g node d j hd hget, ?_⟩
    rintro ⟨e, he, -⟩
    exact absurd he (List.not_mem_nil _)

theorem two_nodes_partition : EdgePartition Diag_graph.two_nodes 1 [] := by
  refine ⟨by decide, ?_, fun e he => absurd he (List.not_mem_nil _), rfl, ?_⟩
  · intro k d hd
    match k with
    | 0 =>
      have : d = ⟨0, 0, 5, 10, 0, 10, 10, 10⟩ := (Option.some.inj hd).symm
      rw [this]
      decide
    | 1 =>
      have : d = ⟨3, 4, 5, 7, -1, 7, 7, 7⟩ := (Option.some.inj hd).symm
      rw [this]
      decide
    | k + 2 => cases hd
  · intro k d hk hd
    have hk0 : k = 0 := by omega
    subst hk0
    have : d = ⟨0, 0, 5, 10, 0, 10, 10, 10⟩ := (Option.some.inj hd).symm
    rw [this]
    rfl

theorem two_edges_partition :
    EdgePartition Diag_graph.two_edges 1 [⟨15, 15, 2, 10, 0, 0, 1⟩, ⟨12, 12, 4, 10, 0, 0, 1⟩] :=
  (add_edge_partition _ 1 _
    (add_edge_partition _ 1 _ two_nodes_partition ⟨15, 15, 2, 10, 0, 0, 1⟩ (by decide)).1
    ⟨12, 12, 4, 10, 0, 0, 1⟩ (by decide)).1

/-- C22. Edge-array partition invariant: if the initialised nodes (`link_idx >= 0`) are
exactly the nodes `0..m-1`, the edge array is the concatenation of the runs
`R_0, ..., R_{m-1}`, `R_k` holding the edges with `node_in == k` in insertion order, and
`nodes[k].link_idx` is the index one past the end of `R_k`, then the same holds after
`add_edge(e)` for every `e` with `e.node_in < m`: `e` becomes the last element of
`R_{e.node_in}`, the edge count grows by one, the returned iterator points at `e`, and
the `link_idx` of every later initialised node is shifted by one; and it holds, for
`m + 1` initialised nodes, after `init(m)` on the next node (which returns without
throwing while there are fewer than `2^31 - 1` edges). -/
theorem edge_partition_preserved (g : Diag_graph) (m : Nat) (hist : List Edge)
    (hinv : EdgePartition g m hist) :
    (∀ e : Edge, e.node_in < m →
      EdgePartition (g.add_edge e).1 m (hist ++ [e]) ∧
      (hist ++ [e]).filter (fun x => decide (x.node_in = e.node_in)) =
        hist.filter (fun x => decide (x.node_in = e.node_in)) ++ [e] ∧
      (g.add_edge e).1.edges.length = g.edges.length + 1 ∧
      (g.add_edge e).1.edges[(g.add_edge e).2]? = some e ∧
      (g.add_edge e).2 + 1 = (edge_runs (hist ++ [e]) (e.node_in + 1)).length ∧
      (∀ (k : Nat) (d : Diagonal_node), e.node_in < k → k < m → g.nodes[k]? = some d →
        ∃ d2, (g.add_edge e).1.nodes[k]? = some d2 ∧ d2.link_idx = d.link_idx + 1)) ∧
    (m < g.nodes.length → g.edges.length < 2147483647 →
      (g.init_node m).2 = Except.ok () ∧ (g.init_node m).1.edges = g.edges ∧
      EdgePartition (g.init_node m).1 (m + 1) hist) := by
  constructor
  · intro e he
    obtain ⟨h1, h2, h3, h4, h5⟩ := add_edge_partition g m hist hinv e he
    refine ⟨h1, ?_, h2, h3, h4, h5⟩
    rw [List.filter_append]
    simp
  · intro hnode hfew
    exact init_node_partition g m hist hinv hnode hfew

/-- C22, at an instance: an edge out of node 0 added to the example graph with one
initialised node and no edge. -/
theorem edge_partition_preserved_witness :
    EdgePartition (Diag_graph.two_nodes.add_edge ⟨15, 15, 2, 10, 0, 0, 1⟩).1 1
        ([] ++ [⟨15, 15, 2, 10, 0, 0, 1⟩]) ∧
    (Diag_graph.init_node Diag_graph.two_nodes 1).2 = Except.ok () ∧
    EdgePartition (Diag_graph.init_node Diag_graph.two_nodes 1).1 2 [] :=
  ⟨((edge_partition_preserved Diag_graph.two_nodes 1 [] two_nodes_partition).1
      ⟨15, 15, 2, 10, 0, 0, 1⟩ (by decide)).1,
    ((edge_partition_preserved Diag_graph.two_nodes 1 [] two_nodes_partition).2
      (by decide) (by decide)).1,
    ((edge_partition_preserved Diag_graph.two_nodes 1 [] two_nodes_partition).2
      (by decide) (by decide)).2.2⟩

/-- C23, at an instance: in the example graph with two edges out of node 0 (prefix
scores 15 and 12 at the columns 2 and 4, node score 10) no edge lies before column 1,
and `get_edge(0, 1)` returns `edges.end()`. -/
theorem get_edge_best_witness :
    Diag_graph.get_edge Diag_graph.two_edges 0 1 =
      some (Diag_graph.two_edges.edges.length : Int) :=
  (get_edge_best Diag_graph.two_edges 1 [⟨15, 15, 2, 10, 0, 0, 1⟩, ⟨12, 12, 4, 10, 0, 0, 1⟩]
    two_edges_partition 0 ⟨0, 0, 5, 10, 2, 15, 15, 10⟩ (by decide) (by decide) 1).1.2 (by decide)

end Extension
